import Mathlib

/-!
# fft_mic_frequence: the acquisition and spectral-analysis pipeline

A shallow embedding of `src/fft_analyzer.c` (the transform, the analysis cycle, the peak
scan and the sampler) and of the note mapping of `draw_tuner_mode` in `src/main.c`.

* C arrays are lists; a read or write outside the list is the fault `out_of_bounds`.
* `uint32_t` arithmetic is arithmetic on `Nat` reduced modulo `2 ^ 32` wherever the C
  operation can wrap (`len <<= 1`, `i += len`, the index sums `i + j` and `i + j + len / 2`).
* `float` and `double` are an arbitrary field `K`; the functions of the C math library
  (`cos`, `sin`, `sqrtf`, and `log2`, `pow` for the note mapping) and the constant `M_PI` are
  fields of `libm K` and `libm_tuner K`, so that every definition below runs on `ℚ` and is
  instantiated with the real functions in the theorems.
* Every `for` loop is a recursive function that tests the loop condition, runs the body and
  the step, and consumes one unit of fuel per test; a loop that is given `fuel` tests and has
  not left by then is the fault `out_of_fuel`.
-/

namespace FftAnalyzer

/-! ## Constants of `fft_analyzer.h` -/

/-- The macro `N_SAMPLES`. -/
def N_SAMPLES : Nat := 1024

/-- The macro `SAMPLING_FREQUENCY_HZ`. -/
def SAMPLING_FREQUENCY_HZ : Nat := 1000

/-- The number of values of a `uint32_t`. -/
def UINT32_SIZE : Nat := 2 ^ 32

/-! ## Data model -/

/-- The struct `complex_t`: a real and an imaginary part. -/
structure complex_t (K : Type) where
  real : K
  imag : K
deriving DecidableEq, Repr

/-- What the C math library provides to the analyzer. -/
structure libm (K : Type) where
  M_PI : K
  cos : K → K
  sin : K → K
  sqrtf : K → K

/-- The two ways in which a run of the embedded code fails to return a value. -/
inductive Fault where
  | out_of_bounds
  | out_of_fuel
deriving DecidableEq, Repr

/-- The read `data[i]`. -/
def rd {α : Type} (data : List α) (i : Nat) : Except Fault α :=
  match data[i]? with
  | some v => Except.ok v
  | none => Except.error Fault.out_of_bounds

/-- The write `data[i] = v`. -/
def wr {α : Type} (data : List α) (i : Nat) (v : α) : Except Fault (List α) :=
  if i < data.length then Except.ok (data.set i v) else Except.error Fault.out_of_bounds

/-! ## The transform: `fft_in_place` -/

/-- The function `swap_complex(&data[a], &data[b])`. -/
def swap_complex {α : Type} (data : List α) (a b : Nat) : Except Fault (List α) := do
  let temp ← rd data a
  let vb ← rd data b
  let data ← wr data a vb
  wr data b temp

/-- The loop `for (; j & bit; bit >>= 1) j ^= bit;`: the values of `j` and `bit` on exit. -/
def carry_loop : Nat → Nat → Nat → Except Fault (Nat × Nat)
  | 0, _, _ => Except.error Fault.out_of_fuel
  | fuel + 1, j, bit =>
    if j &&& bit ≠ 0 then carry_loop fuel (j ^^^ bit) (bit >>> 1) else Except.ok (j, bit)

/-- The loop `for (uint32_t i = 1, j = 0; i < n; i++)` of the bit-reversal stage, entered at
the given `i` and `j`; `fuel0` is the budget of each inner loop. -/
def bit_reversal_loop {α : Type} (fuel0 n : Nat) :
    Nat → Nat → Nat → List α → Except Fault (List α)
  | 0, _, _, _ => Except.error Fault.out_of_fuel
  | fuel + 1, i, j, data =>
    if i < n then do
      let (j, bit) ← carry_loop fuel0 j (n >>> 1)
      let j := j ^^^ bit
      let data ← if i < j then swap_complex data i j else pure data
      bit_reversal_loop fuel0 n fuel (i + 1) j data
    else Except.ok data

/-- The loop `for (uint32_t j = 0; j < len / 2; j++)`: the butterflies of the block that starts
at `i`, entered at the given `j` and running twiddle `w`. -/
def butterfly_loop {K : Type} [Field K] (wlen : complex_t K) (len i : Nat) :
    Nat → Nat → complex_t K → List (complex_t K) → Except Fault (List (complex_t K))
  | 0, _, _, _ => Except.error Fault.out_of_fuel
  | fuel + 1, j, w, data =>
    if j < len / 2 then do
      let top := (i + j) % UINT32_SIZE
      let bottom := (i + j + len / 2) % UINT32_SIZE
      let u ← rd data top
      let b ← rd data bottom
      let v : complex_t K :=
        { real := b.real * w.real - b.imag * w.imag
          imag := b.real * w.imag + b.imag * w.real }
      let data ← wr data top { real := u.real + v.real, imag := u.imag + v.imag }
      let data ← wr data bottom { real := u.real - v.real, imag := u.imag - v.imag }
      let w_real_temp := w.real * wlen.real - w.imag * wlen.imag
      let w : complex_t K :=
        { real := w_real_temp
          imag := w.real * wlen.imag + w.imag * wlen.real }
      butterfly_loop wlen len i fuel (j + 1) w data
    else Except.ok data

/-- The loop `for (uint32_t i = 0; i < n; i += len)`: one stage, block by block. -/
def block_loop {K : Type} [Field K] (fuel0 : Nat) (wlen : complex_t K) (n len : Nat) :
    Nat → Nat → List (complex_t K) → Except Fault (List (complex_t K))
  | 0, _, _ => Except.error Fault.out_of_fuel
  | fuel + 1, i, data =>
    if i < n then do
      let data ← butterfly_loop wlen len i fuel0 0 { real := 1, imag := 0 } data
      block_loop fuel0 wlen n len fuel ((i + len) % UINT32_SIZE) data
    else Except.ok data

/-- The loop `for (uint32_t len = 2; len <= n; len <<= 1)`: the butterfly stages. -/
def stage_loop {K : Type} [Field K] (L : libm K) (fuel0 n : Nat) :
    Nat → Nat → List (complex_t K) → Except Fault (List (complex_t K))
  | 0, _, _ => Except.error Fault.out_of_fuel
  | fuel + 1, len, data =>
    if len ≤ n then do
      let ang : K := 2 * L.M_PI / (len : K)
      let wlen : complex_t K := { real := L.cos ang, imag := -L.sin ang }
      let data ← block_loop fuel0 wlen n len fuel0 0 data
      stage_loop L fuel0 n fuel ((len * 2) % UINT32_SIZE) data
    else Except.ok data

/-- The function `fft_in_place(data, n)`: the contents of `data` when it returns. Each loop may
test its condition at most `fuel` times. -/
def fft_in_place {K : Type} [Field K] (L : libm K) (fuel : Nat) (data : List (complex_t K))
    (n : Nat) : Except Fault (List (complex_t K)) :=
  if n ≤ 1 then Except.ok data
  else do
    let data ← bit_reversal_loop fuel n fuel 1 0 data
    stage_loop L fuel n fuel 2 data

/-! ## Magnitudes, the analysis cycle and the peak -/

/-- The loop `for (uint32_t i = 0; i < n / 2; i++)` of `calculate_magnitudes`. -/
def calculate_magnitudes_loop {K : Type} [Field K] (L : libm K)
    (fft_result : List (complex_t K)) (n : Nat) : Nat → Nat → List K → Except Fault (List K)
  | 0, _, _ => Except.error Fault.out_of_fuel
  | fuel + 1, i, magnitudes =>
    if i < n / 2 then do
      let c ← rd fft_result i
      let magnitudes ← wr magnitudes i (L.sqrtf (c.real * c.real + c.imag * c.imag))
      calculate_magnitudes_loop L fft_result n fuel (i + 1) magnitudes
    else Except.ok magnitudes

/-- The function `calculate_magnitudes(fft_result, magnitudes, n)`: the contents of
`magnitudes` when it returns. -/
def calculate_magnitudes {K : Type} [Field K] (L : libm K) (fuel : Nat)
    (fft_result : List (complex_t K)) (magnitudes : List K) (n : Nat) : Except Fault (List K) :=
  calculate_magnitudes_loop L fft_result n fuel 0 magnitudes

/-- The loop `for (int i = 0; i < N_SAMPLES; i++) dc_offset += (float)adc_samples[i];`. The
conversion `(float)` of a sample is `to_float`. -/
def dc_offset_loop {S K : Type} [Field K] (to_float : S → K) (adc_samples : List S) :
    Nat → Nat → K → Except Fault K
  | 0, _, _ => Except.error Fault.out_of_fuel
  | fuel + 1, i, dc_offset =>
    if i < N_SAMPLES then do
      let s ← rd adc_samples i
      dc_offset_loop to_float adc_samples fuel (i + 1) (dc_offset + to_float s)
    else Except.ok dc_offset

/-- The loop of `fft_analyzer_run_analysis` that fills `fft_buffer`: the real part of cell `i`
becomes `(float)adc_samples[i] - dc_offset`, the imaginary part `0`. -/
def fill_loop {S K : Type} [Field K] (to_float : S → K) (adc_samples : List S) (dc_offset : K) :
    Nat → Nat → List (complex_t K) → Except Fault (List (complex_t K))
  | 0, _, _ => Except.error Fault.out_of_fuel
  | fuel + 1, i, fft_buffer =>
    if i < N_SAMPLES then do
      let s ← rd adc_samples i
      let fft_buffer ← wr fft_buffer i { real := to_float s - dc_offset, imag := 0 }
      fill_loop to_float adc_samples dc_offset fuel (i + 1) fft_buffer
    else Except.ok fft_buffer

/-- The transform part of `fft_analyzer_run_analysis`, which runs once the sample buffer is
complete: DC removal, `fft_in_place`, `calculate_magnitudes`. The arguments `fft_buffer` and
`fft_magnitudes` are the static arrays as the previous cycle left them; the result is the
pair of their new contents. -/
def run_analysis_transform {S K : Type} [Field K] (L : libm K) (to_float : S → K) (fuel : Nat)
    (adc_samples : List S) (fft_buffer : List (complex_t K)) (fft_magnitudes : List K) :
    Except Fault (List (complex_t K) × List K) := do
  let dc_offset ← dc_offset_loop to_float adc_samples fuel 0 0
  let dc_offset := dc_offset / (N_SAMPLES : K)
  let fft_buffer ← fill_loop to_float adc_samples dc_offset fuel 0 fft_buffer
  let fft_buffer ← fft_in_place L fuel fft_buffer N_SAMPLES
  let fft_magnitudes ← calculate_magnitudes L fuel fft_buffer fft_magnitudes N_SAMPLES
  Except.ok (fft_buffer, fft_magnitudes)

/-- The loop `for (int i = 1; i < N_SAMPLES / 2; i++)` of `fft_analyzer_get_peak_frequency`:
the values of `max_magnitude` and `max_index` on exit. -/
def peak_loop {K : Type} [LinearOrderedField K] (fft_magnitudes : List K) :
    Nat → Nat → K → Nat → Except Fault (K × Nat)
  | 0, _, _, _ => Except.error Fault.out_of_fuel
  | fuel + 1, i, max_magnitude, max_index =>
    if i < N_SAMPLES / 2 then do
      let m ← rd fft_magnitudes i
      if m > max_magnitude then peak_loop fft_magnitudes fuel (i + 1) m i
      else peak_loop fft_magnitudes fuel (i + 1) max_magnitude max_index
    else Except.ok (max_magnitude, max_index)

/-- The scan of `fft_analyzer_get_peak_frequency`: `max_magnitude` and `max_index` after the
loop. -/
def peak_scan {K : Type} [LinearOrderedField K] (fuel : Nat) (fft_magnitudes : List K) :
    Except Fault (K × Nat) :=
  peak_loop fft_magnitudes fuel 1 0 0

/-- The function `fft_analyzer_get_peak_frequency()`, as a function of the contents of
`fft_magnitudes`. -/
def fft_analyzer_get_peak_frequency {K : Type} [LinearOrderedField K] (fuel : Nat)
    (fft_magnitudes : List K) : Except Fault K := do
  let (_, max_index) ← peak_scan fuel fft_magnitudes
  Except.ok ((max_index : K) * (SAMPLING_FREQUENCY_HZ : K) / (N_SAMPLES : K))

/-! ## The sampler -/

/-- The file-scope variables of the sampler: the sample buffer `adc_samples`, `sample_count`,
`sampling_complete`, and whether the repeating timer `timer` is armed. -/
structure Sampler where
  adc_samples : List Nat
  sample_count : Int
  sampling_complete : Bool
  timer_armed : Bool
deriving DecidableEq, Repr

/-- The function `timer_callback`, fired with `adc` the value that `adc_read()` returns (the
call is made only in the first branch). -/
def timer_callback (st : Sampler) (adc : Nat) : Except Fault Sampler :=
  if st.sample_count < (N_SAMPLES : Int) then
    if st.sample_count < 0 then Except.error Fault.out_of_bounds
    else do
      let adc_samples ← wr st.adc_samples st.sample_count.toNat adc
      Except.ok { st with adc_samples := adc_samples, sample_count := st.sample_count + 1 }
  else
    Except.ok { st with timer_armed := false, sampling_complete := true }

/-- The function `start_sampling`. -/
def start_sampling (st : Sampler) : Sampler :=
  { st with sample_count := 0, sampling_complete := false, timer_armed := true }

/-- A sequence of firings of `timer_callback`, one for each reading of the list, in order. -/
def fire : Sampler → List Nat → Except Fault Sampler
  | st, [] => Except.ok st
  | st, adc :: rest => do
    let st ← timer_callback st adc
    fire st rest

/-! ## Arrays as tables, and the bit reversal -/

/-- The array of `n` cells whose cell `i` holds `f i`. -/
def tabulate {α : Type} (n : Nat) (f : Nat → α) : List α := (List.range n).map f

/-- The number whose `s` low-order bits are those of `i` in reverse order. -/
def rev_bits : Nat → Nat → Nat
  | 0, _ => 0
  | s + 1, i => (i % 2) * 2 ^ s + rev_bits s (i / 2)

/-! ## Complex numbers and the stages of the transform as functions on tables -/

/-- The complex number that a `complex_t` of reals stands for. -/
def toComplex (c : complex_t ℝ) : ℂ := ⟨c.real, c.imag⟩

/-- The `complex_t` that holds a complex number. -/
def ofComplex (z : ℂ) : complex_t ℝ := ⟨z.re, z.im⟩

/-- One butterfly stage with half block length `h` and twiddle `ω`, as a function on tables:
the cell at offset `k < h` of a block becomes `top + ω ^ k * bottom`, the cell at offset
`h + k` becomes `top - ω ^ k * bottom`. -/
def stage_fn {R : Type} [CommRing R] (ω : R) (h : Nat) (g : Nat → R) (m : Nat) : R :=
  if m % (2 * h) < h then g m + ω ^ (m % (2 * h)) * g (m + h)
  else g (m - h) - ω ^ (m % (2 * h) - h) * g m

/-- The table after the first `s` butterfly stages, stage `t` using the twiddle `ζ t`. -/
def stages {R : Type} [CommRing R] (ζ : Nat → R) (y : Nat → R) : Nat → Nat → R
  | 0 => y
  | s + 1 => stage_fn (ζ (s + 1)) (2 ^ s) (stages ζ y s)

/-- The complex number held by cell `i` of an array of `complex_t`. -/
def cell (data : List (complex_t ℝ)) (i : Nat) : ℂ := toComplex (data.getD i ⟨0, 0⟩)

/-! ## A math library on the rationals, for running the embedding -/

deriving instance DecidableEq for Except

/-- A `libm` on `ℚ` with the half turn as `M_PI = 2`, exact at the angles `2 * M_PI / 2` and
`2 * M_PI / 4` that a transform of at most four cells uses. -/
def libm_quarter_turns : libm ℚ :=
  { M_PI := 2
    cos := fun x => if x = 2 then -1 else if x = 1 then 0 else 1
    sin := fun x => if x = 2 then 0 else if x = 1 then 1 else 0
    sqrtf := fun x => x }

/-! ## The loops of `fft_in_place` with a record of what they do -/

/-- The bit-reversal stage of `fft_in_place(data, n)`: its first loop, from `i = 1, j = 0`. -/
def bit_reversal_stage {α : Type} (fuel : Nat) (data : List α) (n : Nat) :
    Except Fault (List α) :=
  bit_reversal_loop fuel n fuel 1 0 data

/-- The loop of `bit_reversal_loop` without the array: the same tests and the same updates of
`i` and `j`, and in place of the swap a record `(i, j, i < j)` of each iteration, taken at
the test `if (i < j)`. -/
def bit_reversal_log (fuel0 n : Nat) :
    Nat → Nat → Nat → List (Nat × Nat × Bool) → Except Fault (List (Nat × Nat × Bool))
  | 0, _, _, _ => Except.error Fault.out_of_fuel
  | fuel + 1, i, j, log =>
    if i < n then do
      let (j, bit) ← carry_loop fuel0 j (n >>> 1)
      let j := j ^^^ bit
      bit_reversal_log fuel0 n fuel (i + 1) j (log ++ [(i, j, decide (i < j))])
    else Except.ok log

/-- The loop `stage_loop` with a counter of the stages it runs: the same tests, body and
step, and `count + 1` after each body. -/
def stage_loop_count {K : Type} [Field K] (L : libm K) (fuel0 n : Nat) :
    Nat → Nat → List (complex_t K) → Nat → Except Fault (List (complex_t K) × Nat)
  | 0, _, _, _ => Except.error Fault.out_of_fuel
  | fuel + 1, len, data, count =>
    if len ≤ n then do
      let ang : K := 2 * L.M_PI / (len : K)
      let wlen : complex_t K := { real := L.cos ang, imag := -L.sin ang }
      let data ← block_loop fuel0 wlen n len fuel0 0 data
      stage_loop_count L fuel0 n fuel ((len * 2) % UINT32_SIZE) data (count + 1)
    else Except.ok (data, count)

/-! ## The note mapping of `draw_tuner_mode` (`main.c`) -/

/-- The table `NOTE_NAMES`. -/
def NOTE_NAMES : List String :=
  ["A", "A#", "B", "C", "C#", "D", "D#", "E", "F", "F#", "G", "G#"]

/-- The functions of the C math library that the note mapping calls besides `round`. -/
structure libm_tuner (K : Type) where
  log2 : K → K
  pow : K → K → K

/-- The C function `round` followed by the conversion `(int)`: the nearest integer, a half
going away from zero. The result is an unbounded integer: for a `float` frequency the values
rounded by `draw_tuner_mode` are below `2 ^ 31` in magnitude, so the conversion does not
leave the range of `int`. -/
def round_to_int {K : Type} [LinearOrderedField K] [FloorRing K] (x : K) : Int :=
  if 0 ≤ x then ⌊x + 1 / 2⌋ else ⌈x - 1 / 2⌉

/-- The index `(note_index % 12 + 12) % 12` into `NOTE_NAMES`, `%` being the remainder of C,
which truncates toward zero. -/
def note_table_index (note_index : Int) : Int :=
  (note_index.tmod 12 + 12).tmod 12

/-- What `draw_tuner_mode` shows below its title: the text `--.--` for silence, or a note,
given by the values of `note_index`, `cents_diff` and `note_name`. -/
inductive tuner_output where
  | silence
  | note (note_index : Int) (cents_diff : Int) (note_name : String)
deriving DecidableEq, Repr

/-- The note mapping of `draw_tuner_mode(disp, peak_freq)`; the calls that draw on the display
are left out. -/
def draw_tuner_mode {K : Type} [LinearOrderedField K] [FloorRing K] (M : libm_tuner K)
    (peak_freq : K) : Except Fault tuner_output :=
  if peak_freq < 20 then Except.ok tuner_output.silence
  else do
    let note_index : Int := round_to_int (12 * M.log2 (peak_freq / 440))
    let ideal_freq : K := 440 * M.pow 2 ((note_index : K) / 12)
    let cents_diff : Int := round_to_int (1200 * M.log2 (peak_freq / ideal_freq))
    let index := note_table_index note_index
    let note_name ←
      if index < 0 then Except.error Fault.out_of_bounds else rd NOTE_NAMES index.toNat
    Except.ok (tuner_output.note note_index cents_diff note_name)

/-- A `libm_tuner` on `ℚ`, exact at the octaves of 440 Hz: `log2` at `1 / 2`, `1` and `2`,
`pow(2, ·)` at `-1`, `0` and `1`. -/
def libm_tuner_octaves : libm_tuner ℚ :=
  { log2 := fun x => if x = 2 then 1 else if x = 1 / 2 then -1 else 0
    pow := fun _ y => if y = 1 then 2 else if y = -1 then 1 / 2 else 1 }


/-! ## Arrays as tables -/

theorem tabulate_length {α : Type} (n : Nat) (f : Nat → α) : (tabulate n f).length = n := by
  simp [tabulate]

theorem tabulate_getElem? {α : Type} (n : Nat) (f : Nat → α) (i : Nat) :
    (tabulate n f)[i]? = if i < n then some (f i) else none := by
  unfold tabulate
  rw [List.getElem?_map]
  split_ifs with h
  · rw [List.getElem?_range h]; rfl
  · rw [List.getElem?_eq_none (by simpa using h)]; rfl

theorem rd_tabulate {α : Type} {n i : Nat} (f : Nat → α) (h : i < n) :
    rd (tabulate n f) i = Except.ok (f i) := by
  simp [rd, tabulate_getElem?, h]

theorem tabulate_congr {α : Type} {n : Nat} {f g : Nat → α} (h : ∀ i, i < n → f i = g i) :
    tabulate n f = tabulate n g := by
  apply List.ext_getElem?
  intro i
  simp only [tabulate_getElem?]
  split_ifs with hi
  · rw [h i hi]
  · rfl

theorem wr_tabulate {α : Type} {n i : Nat} (f : Nat → α) (v : α) (h : i < n) :
    wr (tabulate n f) i v = Except.ok (tabulate n (Function.update f i v)) := by
  simp only [wr, tabulate_length, h, if_true]
  congr 1
  apply List.ext_getElem?
  intro k
  rw [List.getElem?_set]
  simp only [tabulate_getElem?, tabulate_length, Function.update_apply]
  by_cases hk : i = k
  · subst hk; simp [h]
  · simp [hk, Ne.symm hk]

theorem eq_tabulate {α : Type} (d : α) (data : List α) :
    data = tabulate data.length (fun i => data.getD i d) := by
  apply List.ext_getElem?
  intro i
  rw [tabulate_getElem?]
  split_ifs with h
  · simp [List.getD, List.getElem?_eq_getElem h]
  · simp at h; simp [h]

/-! ## Masks that are powers of two -/

theorem testBit_two_pow_add_of_lt {s a : Nat} (h : a < 2 ^ s) (i : Nat) :
    (2 ^ s + a).testBit i = (decide (s = i) || a.testBit i) := by
  rcases Nat.lt_trichotomy i s with hi | hi | hi
  · rw [Nat.testBit_two_pow_add_gt hi]
    have : ¬ s = i := by omega
    simp [this]
  · subst hi
    rw [Nat.testBit_two_pow_add_eq, Nat.testBit_lt_two_pow h]
    simp
  · have h1 : 2 ^ s + a < 2 ^ i := by
      have : 2 ^ (s + 1) ≤ 2 ^ i := Nat.pow_le_pow_right (by norm_num) hi
      rw [pow_succ] at this
      omega
    have h2 : a < 2 ^ i := by omega
    rw [Nat.testBit_lt_two_pow h1, Nat.testBit_lt_two_pow h2]
    have : ¬ s = i := by omega
    simp [this]

theorem and_two_pow_of_lt {s a : Nat} (h : a < 2 ^ s) : a &&& 2 ^ s = 0 := by
  apply Nat.eq_of_testBit_eq
  intro i
  rw [Nat.testBit_and, Nat.testBit_two_pow, Nat.zero_testBit]
  by_cases hi : s = i
  · subst hi; simp [Nat.testBit_lt_two_pow h]
  · simp [hi]

theorem two_pow_add_and_two_pow {s a : Nat} (h : a < 2 ^ s) : (2 ^ s + a) &&& 2 ^ s = 2 ^ s := by
  apply Nat.eq_of_testBit_eq
  intro i
  rw [Nat.testBit_and, testBit_two_pow_add_of_lt h, Nat.testBit_two_pow]
  by_cases hi : s = i <;> simp [hi]

theorem two_pow_add_xor_two_pow {s a : Nat} (h : a < 2 ^ s) : (2 ^ s + a) ^^^ 2 ^ s = a := by
  apply Nat.eq_of_testBit_eq
  intro i
  rw [Nat.testBit_xor, testBit_two_pow_add_of_lt h, Nat.testBit_two_pow]
  by_cases hi : s = i
  · subst hi; simp [Nat.testBit_lt_two_pow h]
  · simp [hi]

theorem xor_two_pow_of_lt {s a : Nat} (h : a < 2 ^ s) : a ^^^ 2 ^ s = 2 ^ s + a := by
  apply Nat.eq_of_testBit_eq
  intro i
  rw [Nat.testBit_xor, testBit_two_pow_add_of_lt h, Nat.testBit_two_pow]
  by_cases hi : s = i
  · subst hi; simp [Nat.testBit_lt_two_pow h]
  · simp [hi]

/-! ## The bit reversal -/

theorem rev_bits_lt (s i : Nat) : rev_bits s i < 2 ^ s := by
  induction s generalizing i with
  | zero => simp [rev_bits]
  | succ s ih =>
    have h1 := ih (i / 2)
    have h2 : i % 2 < 2 := Nat.mod_lt _ (by norm_num)
    have h3 : i % 2 * 2 ^ s ≤ 1 * 2 ^ s := Nat.mul_le_mul_right _ (by omega)
    simp only [rev_bits, pow_succ]
    omega

theorem rev_bits_zero (s : Nat) : rev_bits s 0 = 0 := by
  induction s with
  | zero => rfl
  | succ s ih => simp [rev_bits, ih]

/-- Peeling the top bit of the argument gives the low bit of the reversal. -/
theorem rev_bits_add_top (s a e : Nat) (ha : a < 2 ^ s) :
    rev_bits (s + 1) (a + 2 ^ s * e) = 2 * rev_bits s a + e % 2 := by
  induction s generalizing a with
  | zero =>
    have : a = 0 := by simpa using ha
    subst this
    simp [rev_bits]
  | succ s ih =>
    have h0 : a + 2 ^ (s + 1) * e = a + 2 * (2 ^ s * e) := by
      rw [pow_succ]; ring
    have h1 : (a + 2 ^ (s + 1) * e) % 2 = a % 2 := by
      rw [h0]; omega
    have h2 : (a + 2 ^ (s + 1) * e) / 2 = a / 2 + 2 ^ s * e := by
      rw [h0]; omega
    have h3 : a / 2 < 2 ^ s := by
      rw [pow_succ] at ha; omega
    rw [rev_bits, h1, h2, ih (a / 2) h3]
    simp only [rev_bits, pow_succ]
    ring

theorem rev_bits_rev_bits (s i : Nat) (hi : i < 2 ^ s) : rev_bits s (rev_bits s i) = i := by
  induction s generalizing i with
  | zero =>
    have : i = 0 := by simpa using hi
    simp [rev_bits, this]
  | succ s ih =>
    have h3 : i / 2 < 2 ^ s := by
      rw [pow_succ] at hi; omega
    have h4 : rev_bits (s + 1) i = rev_bits s (i / 2) + 2 ^ s * (i % 2) := by
      simp only [rev_bits]; ring
    rw [h4, rev_bits_add_top s _ _ (rev_bits_lt s _), ih _ h3]
    omega

theorem rev_bits_injective (s i k : Nat) (hi : i < 2 ^ s) (hk : k < 2 ^ s)
    (h : rev_bits s i = rev_bits s k) : i = k := by
  rw [← rev_bits_rev_bits s i hi, ← rev_bits_rev_bits s k hk, h]

/-- The carry loop followed by `j ^= bit` steps the reversed counter: from the reversal of
`i` it produces the reversal of `i + 1`. -/
theorem carry_loop_rev_bits (s : Nat) :
    ∀ fuel i, s < fuel → i + 1 < 2 ^ (s + 1) →
      ∃ j bit, carry_loop fuel (rev_bits (s + 1) i) (2 ^ s) = Except.ok (j, bit) ∧
        j ^^^ bit = rev_bits (s + 1) (i + 1) := by
  induction s with
  | zero =>
    intro fuel i hf hi
    have hi0 : i = 0 := by simp at hi; omega
    subst hi0
    obtain ⟨f, rfl⟩ : ∃ f, fuel = f + 1 := ⟨fuel - 1, by omega⟩
    refine ⟨0, 1, ?_, ?_⟩
    · simp [carry_loop, rev_bits]
    · simp [rev_bits]
  | succ s ih =>
    intro fuel i hf hi
    obtain ⟨f, rfl⟩ : ∃ f, fuel = f + 1 := ⟨fuel - 1, by omega⟩
    have hr := rev_bits_lt (s + 1) (i / 2)
    rcases Nat.mod_two_eq_zero_or_one i with h0 | h1
    · -- `i` is even: the top bit of the reversal is clear, and is set
      have e1 : rev_bits (s + 2) i = rev_bits (s + 1) (i / 2) := by
        rw [rev_bits, h0]; simp
      have e2 : rev_bits (s + 2) (i + 1) = 2 ^ (s + 1) + rev_bits (s + 1) (i / 2) := by
        have : (i + 1) % 2 = 1 := by omega
        have h' : (i + 1) / 2 = i / 2 := by omega
        rw [rev_bits, this, h']; simp
      refine ⟨rev_bits (s + 1) (i / 2), 2 ^ (s + 1), ?_, ?_⟩
      · rw [e1, carry_loop, and_two_pow_of_lt hr]; simp
      · rw [e2, xor_two_pow_of_lt hr]
    · -- `i` is odd: the top bit is cleared and the carry goes on below
      have e1 : rev_bits (s + 2) i = 2 ^ (s + 1) + rev_bits (s + 1) (i / 2) := by
        rw [rev_bits, h1]; simp
      have e2 : rev_bits (s + 2) (i + 1) = rev_bits (s + 1) (i / 2 + 1) := by
        have : (i + 1) % 2 = 0 := by omega
        have h' : (i + 1) / 2 = i / 2 + 1 := by omega
        rw [rev_bits, this, h']; simp
      have hi' : i / 2 + 1 < 2 ^ (s + 1) := by
        rw [pow_succ] at hi; omega
      obtain ⟨j, bit, hc, hx⟩ := ih f (i / 2) (by omega) hi'
      refine ⟨j, bit, ?_, ?_⟩
      · have hs : 2 ^ (s + 1) >>> 1 = 2 ^ s := by
          rw [Nat.shiftRight_eq_div_pow, pow_succ]; simp
        rw [e1, carry_loop, two_pow_add_and_two_pow hr, two_pow_add_xor_two_pow hr, hs]
        simp [hc]
      · rw [hx, e2]

theorem ok_bind {ε α β : Type} (a : α) (f : α → Except ε β) :
    (Except.ok a >>= f) = f a := rfl

theorem swap_complex_tabulate {α : Type} {n a b : Nat} (f : Nat → α) (ha : a < n) (hb : b < n) :
    swap_complex (tabulate n f) a b =
      Except.ok (tabulate n (Function.update (Function.update f a (f b)) b (f a))) := by
  simp only [swap_complex, rd_tabulate f ha, rd_tabulate f hb, ok_bind, wr_tabulate f _ ha,
    wr_tabulate _ _ hb]

/-- The first loop of `fft_in_place`, entered at `i` with the cells below `i` and their images
already exchanged, leaves every cell `m` holding what cell `rev_bits m` held at the start. -/
theorem bit_reversal_loop_from {α : Type} (s : Nat) (x : Nat → α) (fuel0 : Nat) (hf0 : s < fuel0) :
    ∀ fuel i (cur : Nat → α), 1 ≤ i → i ≤ 2 ^ (s + 1) → 2 ^ (s + 1) - i < fuel →
      (∀ m, m < 2 ^ (s + 1) →
        cur m = if m < i ∨ rev_bits (s + 1) m < i then x (rev_bits (s + 1) m) else x m) →
      bit_reversal_loop fuel0 (2 ^ (s + 1)) fuel i (rev_bits (s + 1) (i - 1))
          (tabulate (2 ^ (s + 1)) cur) =
        Except.ok (tabulate (2 ^ (s + 1)) (fun m => x (rev_bits (s + 1) m))) := by
  intro fuel
  induction fuel with
  | zero => intro i cur _ _ h; omega
  | succ fuel ih =>
    intro i cur h1 hin hfuel hinv
    rw [bit_reversal_loop]
    by_cases hi : i < 2 ^ (s + 1)
    · obtain ⟨j, bit, hc, hx⟩ := carry_loop_rev_bits s fuel0 (i - 1) hf0 (by omega)
      have hs : 2 ^ (s + 1) >>> 1 = 2 ^ s := by
        rw [Nat.shiftRight_eq_div_pow, pow_succ]; simp
      have hi1 : i - 1 + 1 = i := by omega
      rw [hi1] at hx
      rw [if_pos hi, hs, hc, ok_bind]
      simp only [hx]
      have hrl := rev_bits_lt (s + 1) i
      have hrr := rev_bits_rev_bits (s + 1) i hi
      by_cases hsw : i < rev_bits (s + 1) i
      · rw [if_pos hsw, swap_complex_tabulate cur hi hrl, ok_bind]
        have := ih (i + 1) (Function.update (Function.update cur i (cur (rev_bits (s + 1) i)))
          (rev_bits (s + 1) i) (cur i)) (by omega) (by omega) (by omega) ?_
        · simpa using this
        · intro m hm
          have hrm := rev_bits_rev_bits (s + 1) m hm
          simp only [Function.update_apply]
          by_cases hm1 : m = rev_bits (s + 1) i
          · rw [if_pos hm1, hinv i hi, hm1, hrr]
            have : ¬ (i < i ∨ rev_bits (s + 1) i < i) := by omega
            rw [if_neg this, if_pos (by omega)]
          · rw [if_neg hm1]
            by_cases hm2 : m = i
            · rw [if_pos hm2, hm2, hinv _ hrl, hrr]
              have : ¬ (rev_bits (s + 1) i < i ∨ i < i) := by omega
              rw [if_neg this, if_pos (by omega)]
            · rw [if_neg hm2, hinv m hm]
              have hne : rev_bits (s + 1) m ≠ i := by
                intro h; apply hm1; rw [← h, hrm]
              have : (m < i ∨ rev_bits (s + 1) m < i) ↔
                  (m < i + 1 ∨ rev_bits (s + 1) m < i + 1) := by omega
              simp only [this]
      · rw [if_neg hsw]
        have := ih (i + 1) cur (by omega) (by omega) (by omega) ?_
        · simpa using this
        · intro m hm
          have hrm := rev_bits_rev_bits (s + 1) m hm
          rw [hinv m hm]
          by_cases hm2 : m = i
          · subst hm2
            by_cases he : rev_bits (s + 1) m = m
            · simp [he]
            · have h1 : (m < m ∨ rev_bits (s + 1) m < m) := by omega
              rw [if_pos h1, if_pos (by omega)]
          · by_cases hm3 : rev_bits (s + 1) m = i
            · have : rev_bits (s + 1) i = m := by rw [← hm3, hrm]
              have h1 : (m < i ∨ rev_bits (s + 1) m < i) := by omega
              rw [if_pos h1, if_pos (by omega)]
            · have : (m < i ∨ rev_bits (s + 1) m < i) ↔
                  (m < i + 1 ∨ rev_bits (s + 1) m < i + 1) := by omega
              simp only [this]
    · rw [if_neg hi]
      congr 1
      apply tabulate_congr
      intro m hm
      rw [hinv m hm, if_pos (by omega)]

/-- The whole bit-reversal stage of `fft_in_place` on an array of `2 ^ (s + 1)` cells. -/
theorem bit_reversal_loop_spec {α : Type} (s : Nat) (x : Nat → α) (fuel : Nat)
    (hf : 2 ^ (s + 1) ≤ fuel) :
    bit_reversal_loop fuel (2 ^ (s + 1)) fuel 1 0 (tabulate (2 ^ (s + 1)) x) =
      Except.ok (tabulate (2 ^ (s + 1)) (fun m => x (rev_bits (s + 1) m))) := by
  have hs : s < 2 ^ (s + 1) := by
    have := Nat.lt_two_pow s
    rw [pow_succ]; omega
  have h1 : 1 ≤ 2 ^ (s + 1) := Nat.one_le_two_pow
  have := bit_reversal_loop_from s x fuel (by omega) fuel 1 x le_rfl h1 (by omega) ?_
  · simpa [rev_bits_zero] using this
  · intro m hm
    by_cases h0 : m < 1 ∨ rev_bits (s + 1) m < 1
    · rw [if_pos h0]
      rcases h0 with h0 | h0
      · have : m = 0 := by omega
        rw [this, rev_bits_zero]
      · have h2 : rev_bits (s + 1) m = rev_bits (s + 1) 0 := by rw [rev_bits_zero]; omega
        have := rev_bits_injective (s + 1) m 0 hm (by omega) h2
        rw [this, rev_bits_zero]
    · rw [if_neg h0]

/-! ## The butterfly stages -/

theorem ofComplex_toComplex (c : complex_t ℝ) : ofComplex (toComplex c) = c := rfl

theorem toComplex_ofComplex (z : ℂ) : toComplex (ofComplex z) = z := rfl

/-- The inner loop of a stage, entered at `j` with the first `j` butterflies of the block done,
completes the block: the cells of the block end at the values `F`, the others are kept. -/
theorem butterfly_loop_from (n i h : Nat) (ω : ℂ) (c0 F : Nat → ℂ)
    (hin : i + 2 * h ≤ n) (hn : n < UINT32_SIZE)
    (htop : ∀ k, k < h → F (i + k) = c0 (i + k) + ω ^ k * c0 (i + k + h))
    (hbot : ∀ k, k < h → F (i + k + h) = c0 (i + k) - ω ^ k * c0 (i + k + h))
    (hout : ∀ m, m < n → m < i ∨ i + 2 * h ≤ m → F m = c0 m) :
    ∀ fuel j (cur : Nat → ℂ), j ≤ h → h - j < fuel →
      (∀ m, m < n → cur m =
        if (i ≤ m ∧ m < i + j) ∨ (i + h ≤ m ∧ m < i + h + j) then F m else c0 m) →
      butterfly_loop (ofComplex ω) (2 * h) i fuel j (ofComplex (ω ^ j))
          (tabulate n (fun m => ofComplex (cur m))) =
        Except.ok (tabulate n (fun m => ofComplex (F m))) := by
  intro fuel
  induction fuel with
  | zero => intro j cur _ h; omega
  | succ fuel ih =>
    intro j cur hj hfuel hinv
    rw [butterfly_loop]
    have hh : 2 * h / 2 = h := by omega
    rw [hh]
    by_cases hjh : j < h
    · have ht : (i + j) % UINT32_SIZE = i + j := Nat.mod_eq_of_lt (by omega)
      have hb : (i + j + h) % UINT32_SIZE = i + j + h := Nat.mod_eq_of_lt (by omega)
      have hct : cur (i + j) = c0 (i + j) := by
        rw [hinv _ (by omega), if_neg (by omega)]
      have hcb : cur (i + j + h) = c0 (i + j + h) := by
        rw [hinv _ (by omega), if_neg (by omega)]
      rw [if_pos hjh, ht, hb]
      simp only [rd_tabulate (fun m => ofComplex (cur m)) (show i + j < n by omega),
        rd_tabulate (fun m => ofComplex (cur m)) (show i + j + h < n by omega), ok_bind]
      rw [wr_tabulate _ _ (show i + j < n by omega), ok_bind,
        wr_tabulate _ _ (show i + j + h < n by omega), ok_bind]
      have := ih (j + 1) (Function.update (Function.update cur (i + j) (F (i + j)))
        (i + j + h) (F (i + j + h))) (by omega) (by omega) ?_
      · refine Eq.trans (congrArg₂ (butterfly_loop (ofComplex ω) (2 * h) i fuel (j + 1)) ?_ ?_) this
        · simp [ofComplex, pow_succ]
        · apply tabulate_congr
          intro m _
          simp only [Function.update_apply]
          by_cases hm1 : m = i + j + h
          · rw [if_pos hm1, if_pos hm1, hbot j hjh, hct, hcb]
            simp [ofComplex]; constructor <;> ring
          · rw [if_neg hm1, if_neg hm1]
            by_cases hm2 : m = i + j
            · rw [if_pos hm2, if_pos hm2, htop j hjh, hct, hcb]
              simp [ofComplex]; constructor <;> ring
            · rw [if_neg hm2, if_neg hm2]
      · intro m hm
        simp only [Function.update_apply]
        by_cases hm1 : m = i + j + h
        · rw [if_pos hm1, if_pos (by omega), hm1]
        · rw [if_neg hm1]
          by_cases hm2 : m = i + j
          · rw [if_pos hm2, if_pos (by omega), hm2]
          · rw [if_neg hm2, hinv m hm]
            have : ((i ≤ m ∧ m < i + j) ∨ (i + h ≤ m ∧ m < i + h + j)) ↔
                ((i ≤ m ∧ m < i + (j + 1)) ∨ (i + h ≤ m ∧ m < i + h + (j + 1))) := by omega
            simp only [this]
    · rw [if_neg hjh]
      congr 1
      apply tabulate_congr
      intro m hm
      have hjh' : j = h := by omega
      subst hjh'
      rw [hinv m hm]
      by_cases hd : (i ≤ m ∧ m < i + j) ∨ (i + j ≤ m ∧ m < i + j + j)
      · rw [if_pos hd]
      · rw [if_neg hd, hout m hm (by omega)]

theorem block_offset_mod (q h k : Nat) (hk : k < 2 * h) : (q * (2 * h) + k) % (2 * h) = k := by
  rw [Nat.mul_comm q, Nat.mul_add_mod, Nat.mod_eq_of_lt hk]

theorem stage_fn_top {R : Type} [CommRing R] (ω : R) (h : Nat) (g : Nat → R) (q k : Nat)
    (hk : k < h) :
    stage_fn ω h g (q * (2 * h) + k) =
      g (q * (2 * h) + k) + ω ^ k * g (q * (2 * h) + k + h) := by
  rw [stage_fn, block_offset_mod q h k (by omega), if_pos hk]

theorem stage_fn_bottom {R : Type} [CommRing R] (ω : R) (h : Nat) (g : Nat → R) (q k : Nat)
    (hk : k < h) :
    stage_fn ω h g (q * (2 * h) + k + h) =
      g (q * (2 * h) + k) - ω ^ k * g (q * (2 * h) + k + h) := by
  have e : q * (2 * h) + k + h = q * (2 * h) + (k + h) := by ring
  rw [stage_fn, e, block_offset_mod q h (k + h) (by omega), if_neg (by omega)]
  have e2 : q * (2 * h) + (k + h) - h = q * (2 * h) + k := by omega
  rw [e2]
  simp

/-- The middle loop of a stage, entered at block `q` with the blocks before it done, applies
the stage to the whole table. -/
theorem block_loop_from (n h Q : Nat) (ω : ℂ) (g : Nat → ℂ) (hh : 0 < h)
    (hnQ : n = Q * (2 * h)) (hn : n < UINT32_SIZE) (fuel0 : Nat) (hf0 : h < fuel0) :
    ∀ fuel q (cur : Nat → ℂ), q ≤ Q → Q - q < fuel →
      (∀ m, m < n → cur m = if m < q * (2 * h) then stage_fn ω h g m else g m) →
      block_loop fuel0 (ofComplex ω) n (2 * h) fuel (q * (2 * h))
          (tabulate n (fun m => ofComplex (cur m))) =
        Except.ok (tabulate n (fun m => ofComplex (stage_fn ω h g m))) := by
  intro fuel
  induction fuel with
  | zero => intro q cur _ h; omega
  | succ fuel ih =>
    intro q cur hq hfuel hinv
    rw [block_loop]
    by_cases hqQ : q < Q
    · have hlt : q * (2 * h) < n := by
        rw [hnQ]; exact Nat.mul_lt_mul_of_pos_right hqQ (by omega)
      have hq1 : (q + 1) * (2 * h) = q * (2 * h) + 2 * h := by ring
      have hnext : q * (2 * h) + 2 * h ≤ n := by
        rw [← hq1, hnQ]; exact Nat.mul_le_mul_right _ hqQ
      have hw : ({ real := 1, imag := 0 } : complex_t ℝ) = ofComplex (ω ^ 0) := by
        simp [ofComplex]
      rw [if_pos hlt, hw,
        butterfly_loop_from n (q * (2 * h)) h ω cur
          (fun m => if m < (q + 1) * (2 * h) then stage_fn ω h g m else g m)
          (by omega) hn ?_ ?_ ?_ fuel0 0 cur (by omega) (by omega) ?_, ok_bind,
        Nat.mod_eq_of_lt (show q * (2 * h) + 2 * h < UINT32_SIZE by omega), ← hq1]
      · exact ih (q + 1) _ hqQ (by omega) (fun m _ => rfl)
      · intro k hk
        simp only
        rw [if_pos (by omega), stage_fn_top ω h g q k hk, hinv _ (by omega), if_neg (by omega),
          hinv _ (by omega), if_neg (by omega)]
      · intro k hk
        simp only
        rw [if_pos (by omega), stage_fn_bottom ω h g q k hk, hinv _ (by omega),
          if_neg (by omega), hinv _ (by omega), if_neg (by omega)]
      · intro m hm hor
        simp only
        rw [hinv m hm]
        rcases hor with hlo | hhi
        · rw [if_pos (by omega), if_pos hlo]
        · rw [if_neg (by omega), if_neg (by omega)]
      · intro m hm
        rw [if_neg (by omega)]
    · have hqe : q = Q := by omega
      subst hqe
      rw [if_neg (by omega)]
      congr 1
      apply tabulate_congr
      intro m hm
      rw [hinv m hm, if_pos (by omega)]

/-- The outer loop of the butterfly phase, entered at `len = 2 ^ s` with the first `s - 1`
stages done, runs the remaining stages and leaves. -/
theorem stage_loop_from (L : libm ℝ) (ζ : Nat → ℂ)
    (hζ : ∀ s, ofComplex (ζ s) =
      { real := L.cos (2 * L.M_PI / ((2 ^ s : Nat) : ℝ)),
        imag := -L.sin (2 * L.M_PI / ((2 ^ s : Nat) : ℝ)) })
    (b : Nat) (hb : b ≤ 30) (y : Nat → ℂ) (fuel0 : Nat) (hf0 : 2 ^ b ≤ fuel0) :
    ∀ fuel s, 1 ≤ s → s ≤ b + 1 → b + 1 - s < fuel →
      stage_loop L fuel0 (2 ^ b) fuel (2 ^ s)
          (tabulate (2 ^ b) (fun m => ofComplex (stages ζ y (s - 1) m))) =
        Except.ok (tabulate (2 ^ b) (fun m => ofComplex (stages ζ y b m))) := by
  have hn : 2 ^ b < UINT32_SIZE := by
    have : 2 ^ b ≤ 2 ^ 30 := Nat.pow_le_pow_right (by norm_num) hb
    simp only [UINT32_SIZE]; omega
  intro fuel
  induction fuel with
  | zero => intro s _ _ h; omega
  | succ fuel ih =>
    intro s hs1 hsb hfuel
    rw [stage_loop]
    by_cases hle : s ≤ b
    · obtain ⟨t, rfl⟩ : ∃ t, s = t + 1 := ⟨s - 1, by omega⟩
      have hlen : 2 ^ (t + 1) ≤ 2 ^ b := Nat.pow_le_pow_right (by norm_num) hle
      have h2 : 2 ^ (t + 1) = 2 * 2 ^ t := by rw [pow_succ]; ring
      have hQ : 2 ^ b = 2 ^ (b - (t + 1)) * (2 * 2 ^ t) := by
        rw [← h2, ← pow_add]; congr 1; omega
      have hpos : 0 < 2 ^ t := Nat.two_pow_pos t
      have hhlt : 2 ^ t < fuel0 := by omega
      have hQlt : 2 ^ (b - (t + 1)) < fuel0 := by
        have : 2 ^ (b - (t + 1)) < 2 ^ b := Nat.pow_lt_pow_right (by norm_num) (by omega)
        omega
      have hblock := block_loop_from (2 ^ b) (2 ^ t) (2 ^ (b - (t + 1))) (ζ (t + 1))
        (stages ζ y t) hpos hQ hn fuel0 hhlt fuel0 0 (stages ζ y t) (Nat.zero_le _)
        (by omega) (fun m _ => by simp)
      have hnext : 2 ^ (t + 1) * 2 % UINT32_SIZE = 2 ^ (t + 1 + 1) := by
        have : 2 ^ (t + 1 + 1) ≤ 2 ^ 31 := Nat.pow_le_pow_right (by norm_num) (by omega)
        rw [← pow_succ]
        exact Nat.mod_eq_of_lt (by simp only [UINT32_SIZE]; omega)
      rw [zero_mul, ← h2] at hblock
      rw [if_pos hlen]
      simp only [Nat.add_sub_cancel]
      rw [← hζ (t + 1), hblock, ok_bind, hnext]
      exact ih (t + 1 + 1) (by omega) (by omega) (by omega)
    · have hsb' : s = b + 1 := by omega
      subst hsb'
      have : ¬ 2 ^ (b + 1) ≤ 2 ^ b := by
        rw [pow_succ]; have := Nat.two_pow_pos b; omega
      rw [if_neg this]
      simp

/-! ## The stages compute the discrete Fourier transform -/

theorem sum_range_two_mul {R : Type} [CommRing R] (f : Nat → R) (N : Nat) :
    ∑ j in Finset.range (2 * N), f j = ∑ j in Finset.range N, (f (2 * j) + f (2 * j + 1)) := by
  induction N with
  | zero => simp
  | succ N ih =>
    have : 2 * (N + 1) = 2 * N + 1 + 1 := by ring
    rw [this, Finset.sum_range_succ, Finset.sum_range_succ, ih, Finset.sum_range_succ]
    ring

theorem rev_bits_even (s j : Nat) : rev_bits (s + 1) (2 * j) = rev_bits s j := by
  have h1 : 2 * j % 2 = 0 := by omega
  have h2 : 2 * j / 2 = j := by omega
  rw [rev_bits, h1, h2]; simp

theorem rev_bits_odd (s j : Nat) : rev_bits (s + 1) (2 * j + 1) = 2 ^ s + rev_bits s j := by
  have h1 : (2 * j + 1) % 2 = 1 := by omega
  have h2 : (2 * j + 1) / 2 = j := by omega
  rw [rev_bits, h1, h2]; simp

theorem twiddle_pow_half {R : Type} [CommRing R] (ζ : Nat → R) (h1 : ζ 1 = -1)
    (hsq : ∀ s, ζ (s + 1) ^ 2 = ζ s) (s : Nat) : ζ (s + 1) ^ (2 ^ s) = -1 := by
  induction s with
  | zero => simp [h1]
  | succ s ih => rw [pow_succ, mul_comm, pow_mul, hsq, ih]

theorem twiddle_pow_full {R : Type} [CommRing R] (ζ : Nat → R) (h1 : ζ 1 = -1)
    (hsq : ∀ s, ζ (s + 1) ^ 2 = ζ s) (s : Nat) : ζ s ^ (2 ^ s) = 1 := by
  cases s with
  | zero => rw [← hsq 0, h1]; simp
  | succ s => rw [pow_succ, pow_mul, twiddle_pow_half ζ h1 hsq s]; simp

/-- After `s` stages the block `q` of length `2 ^ s` holds the transform of length `2 ^ s` of
the cells of that block, read in bit-reversed order. -/
theorem stages_eq_sum {R : Type} [CommRing R] (ζ : Nat → R) (h1 : ζ 1 = -1)
    (hsq : ∀ s, ζ (s + 1) ^ 2 = ζ s) (y : Nat → R) :
    ∀ s q k, k < 2 ^ s →
      stages ζ y s (q * 2 ^ s + k) =
        ∑ j in Finset.range (2 ^ s), y (q * 2 ^ s + rev_bits s j) * ζ s ^ (j * k) := by
  intro s
  induction s with
  | zero =>
    intro q k hk
    have : k = 0 := by simpa using hk
    subst this
    simp [stages, rev_bits]
  | succ s ih =>
    intro q k hk
    have hp : 2 ^ (s + 1) = 2 * 2 ^ s := by rw [pow_succ]; ring
    have hfull := twiddle_pow_full ζ h1 hsq s
    have hhalf := twiddle_pow_half ζ h1 hsq s
    have hev : ∀ j, q * (2 * 2 ^ s) + rev_bits (s + 1) (2 * j) =
        (2 * q) * 2 ^ s + rev_bits s j := by
      intro j; rw [rev_bits_even]; ring
    have hod : ∀ j, q * (2 * 2 ^ s) + rev_bits (s + 1) (2 * j + 1) =
        (2 * q + 1) * 2 ^ s + rev_bits s j := by
      intro j; rw [rev_bits_odd]; ring
    rw [hp, sum_range_two_mul]
    simp only [hev, hod, stages]
    by_cases hkh : k < 2 ^ s
    · rw [stage_fn_top _ _ _ q k hkh]
      have e1 : q * (2 * 2 ^ s) + k = (2 * q) * 2 ^ s + k := by ring
      have e2 : q * (2 * 2 ^ s) + k + 2 ^ s = (2 * q + 1) * 2 ^ s + k := by ring
      rw [e2, e1, ih _ k hkh, ih _ k hkh, Finset.mul_sum, ← Finset.sum_add_distrib]
      apply Finset.sum_congr rfl
      intro j _
      have p1 : ζ (s + 1) ^ (2 * j * k) = ζ s ^ (j * k) := by
        rw [mul_assoc, pow_mul, hsq]
      have p2 : ζ (s + 1) ^ ((2 * j + 1) * k) = ζ (s + 1) ^ k * ζ s ^ (j * k) := by
        rw [add_mul, one_mul, pow_add, p1, mul_comm]
      rw [p1, p2]; ring
    · obtain ⟨k', rfl⟩ : ∃ k', k = k' + 2 ^ s := ⟨k - 2 ^ s, by omega⟩
      have hk' : k' < 2 ^ s := by omega
      have e0 : q * (2 * 2 ^ s) + (k' + 2 ^ s) = q * (2 * 2 ^ s) + k' + 2 ^ s := by ring
      rw [e0, stage_fn_bottom _ _ _ q k' hk']
      have e1 : q * (2 * 2 ^ s) + k' = (2 * q) * 2 ^ s + k' := by ring
      have e2 : q * (2 * 2 ^ s) + k' + 2 ^ s = (2 * q + 1) * 2 ^ s + k' := by ring
      rw [e2, e1, ih _ k' hk', ih _ k' hk', Finset.mul_sum, ← Finset.sum_sub_distrib]
      apply Finset.sum_congr rfl
      intro j _
      have p1 : ζ (s + 1) ^ (2 * j * (k' + 2 ^ s)) = ζ s ^ (j * k') := by
        have e : 2 * j * (k' + 2 ^ s) = 2 * (j * k' + 2 ^ s * j) := by ring
        rw [e, pow_mul, hsq, pow_add, pow_mul (ζ s) (2 ^ s) j, hfull, one_pow, mul_one]
      have p2 : ζ (s + 1) ^ ((2 * j + 1) * (k' + 2 ^ s)) =
          -(ζ (s + 1) ^ k' * ζ s ^ (j * k')) := by
        rw [add_mul, one_mul, pow_add, p1, pow_add, hhalf]; ring
      rw [p1, p2]; ring

/-! ## The twiddle factors over the reals -/

theorem twiddle_ofComplex (s : Nat) :
    ofComplex (Complex.exp (-(((2 * Real.pi / ((2 ^ s : Nat) : ℝ) : ℝ)) : ℂ) * Complex.I)) =
      { real := Real.cos (2 * Real.pi / ((2 ^ s : Nat) : ℝ)),
        imag := -Real.sin (2 * Real.pi / ((2 ^ s : Nat) : ℝ)) } := by
  rw [← Complex.ofReal_neg]
  unfold ofComplex
  rw [Complex.exp_ofReal_mul_I_re, Complex.exp_ofReal_mul_I_im, Real.cos_neg, Real.sin_neg]

theorem twiddle_one :
    Complex.exp (-(((2 * Real.pi / ((2 ^ 1 : Nat) : ℝ) : ℝ)) : ℂ) * Complex.I) = -1 := by
  have : (2 * Real.pi / ((2 ^ 1 : Nat) : ℝ) : ℝ) = Real.pi := by
    push_cast; ring
  rw [this, neg_mul, Complex.exp_neg, Complex.exp_pi_mul_I]
  norm_num

theorem twiddle_sq (s : Nat) :
    Complex.exp (-(((2 * Real.pi / ((2 ^ (s + 1) : Nat) : ℝ) : ℝ)) : ℂ) * Complex.I) ^ 2 =
      Complex.exp (-(((2 * Real.pi / ((2 ^ s : Nat) : ℝ) : ℝ)) : ℂ) * Complex.I) := by
  rw [← Complex.exp_nat_mul]
  congr 1
  push_cast
  field_simp
  ring

theorem twiddle_pow (b j k : Nat) :
    Complex.exp (-(((2 * Real.pi / ((2 ^ b : Nat) : ℝ) : ℝ)) : ℂ) * Complex.I) ^ (j * k) =
      Complex.exp (-2 * Real.pi * Complex.I * j * k / ((2 ^ b : Nat) : ℂ)) := by
  rw [← Complex.exp_nat_mul]
  congr 1
  push_cast
  field_simp
  ring

/-! ## `fft_in_place` computes the discrete Fourier transform -/

theorem cell_tabulate {n k : Nat} (f : Nat → ℂ) (hk : k < n) :
    cell (tabulate n (fun m => ofComplex (f m))) k = f k := by
  simp [cell, List.getD, tabulate_getElem?, hk, toComplex_ofComplex]

theorem eq_tabulate_cell (data : List (complex_t ℝ)) :
    data = tabulate data.length (fun m => ofComplex (cell data m)) := by
  have := eq_tabulate (⟨0, 0⟩ : complex_t ℝ) data
  simpa [cell, ofComplex_toComplex] using this

/-- On a table of `2 ^ b` cells, `b ≤ 30`, with fuel at least `2 ^ b`, `fft_in_place` returns
the table of the discrete Fourier transform. -/
theorem fft_in_place_tabulate (b : Nat) (hb : b ≤ 30) (x : Nat → ℂ) (fuel : Nat)
    (hfuel : 2 ^ b ≤ fuel) :
    fft_in_place ⟨Real.pi, Real.cos, Real.sin, Real.sqrt⟩ fuel
        (tabulate (2 ^ b) (fun m => ofComplex (x m))) (2 ^ b) =
      Except.ok (tabulate (2 ^ b) (fun k => ofComplex
        (∑ j in Finset.range (2 ^ b),
          x j * Complex.exp (-2 * Real.pi * Complex.I * j * k / ((2 ^ b : Nat) : ℂ))))) := by
  rw [fft_in_place]
  cases b with
  | zero =>
    simp only [pow_zero, le_refl, if_true]
    congr 1
    apply tabulate_congr
    intro k hk
    have : k = 0 := by omega
    subst this
    simp
  | succ s =>
    have h2 : ¬ 2 ^ (s + 1) ≤ 1 := by
      have := Nat.two_pow_pos s
      rw [pow_succ]; omega
    rw [if_neg h2, bit_reversal_loop_spec s _ fuel hfuel, ok_bind]
    have hst := stage_loop_from ⟨Real.pi, Real.cos, Real.sin, Real.sqrt⟩
      (fun t => Complex.exp (-(((2 * Real.pi / ((2 ^ t : Nat) : ℝ) : ℝ)) : ℂ) * Complex.I))
      twiddle_ofComplex (s + 1) hb (fun m => x (rev_bits (s + 1) m)) fuel hfuel fuel 1 le_rfl
      (by omega) (by have := Nat.lt_two_pow (s + 1); omega)
    rw [pow_one] at hst
    rw [show (fun m => ofComplex (x (rev_bits (s + 1) m))) = (fun m => ofComplex (stages
      (fun t => Complex.exp (-(((2 * Real.pi / ((2 ^ t : Nat) : ℝ) : ℝ)) : ℂ) * Complex.I))
      (fun m => x (rev_bits (s + 1) m)) (1 - 1) m)) from rfl, hst]
    congr 1
    apply tabulate_congr
    intro k hk
    congr 1
    have hsum := stages_eq_sum
      (fun t => Complex.exp (-(((2 * Real.pi / ((2 ^ t : Nat) : ℝ) : ℝ)) : ℂ) * Complex.I))
      twiddle_one twiddle_sq (fun m => x (rev_bits (s + 1) m)) (s + 1) 0 k hk
    rw [zero_mul, zero_add] at hsum
    rw [hsum]
    apply Finset.sum_congr rfl
    intro j hj
    rw [Finset.mem_range] at hj
    simp only [zero_add]
    rw [rev_bits_rev_bits (s + 1) j hj, twiddle_pow]

/-! ## `fft_in_place` on `2 ^ 31` cells: `len <<= 1` wraps to zero -/

theorem bind_ne_ok {ε α β : Type} (x : Except ε α) (f : α → Except ε β) (out : β)
    (h : ∀ a, f a ≠ Except.ok out) : (x >>= f) ≠ Except.ok out := by
  cases x with
  | error e => intro h'; cases h'
  | ok a => exact h a

theorem bind_ne_ok_of_left {ε α β : Type} (x : Except ε α) (f : α → Except ε β) (out : β)
    (h : ∀ a, x ≠ Except.ok a) : (x >>= f) ≠ Except.ok out := by
  cases x with
  | error e => intro h'; cases h'
  | ok a => exact absurd rfl (h a)

/-- With `len = 0` the loop `for (i = 0; i < n; i += len)` never leaves. -/
theorem block_loop_len_zero {K : Type} [Field K] (fuel0 : Nat) (wlen : complex_t K) (n : Nat) :
    ∀ fuel i (data out : List (complex_t K)), i < n → i < UINT32_SIZE →
      block_loop fuel0 wlen n 0 fuel i data ≠ Except.ok out := by
  intro fuel
  induction fuel with
  | zero => intro i data out _ _ h; cases h
  | succ fuel ih =>
    intro i data out hi h32
    rw [block_loop, if_pos hi]
    apply bind_ne_ok
    intro d
    rw [Nat.add_zero, Nat.mod_eq_of_lt h32]
    exact ih i d out hi h32

/-- For `n = 2 ^ 31` the loop `for (len = 2; len <= n; len <<= 1)`, entered at `len = 2 ^ s`
reduced modulo `2 ^ 32`, never leaves. -/
theorem stage_loop_two_pow_31 {K : Type} [Field K] (L : libm K) (fuel0 : Nat) :
    ∀ d fuel s (data out : List (complex_t K)), s + d = 32 →
      stage_loop L fuel0 (2 ^ 31) fuel (2 ^ s % UINT32_SIZE) data ≠ Except.ok out := by
  intro d
  induction d with
  | zero =>
    intro fuel s data out hs
    have hs' : s = 32 := by omega
    subst hs'
    have h0 : 2 ^ 32 % UINT32_SIZE = 0 := by simp [UINT32_SIZE]
    rw [h0]
    cases fuel with
    | zero => intro h; cases h
    | succ fuel =>
      rw [stage_loop, if_pos (Nat.zero_le _)]
      apply bind_ne_ok_of_left
      intro d
      exact block_loop_len_zero fuel0 _ _ fuel0 0 data d (by norm_num)
        (by simp [UINT32_SIZE])
  | succ d ih =>
    intro fuel s data out hs
    have hle : 2 ^ s ≤ 2 ^ 31 := Nat.pow_le_pow_right (by norm_num) (by omega)
    have hmod : 2 ^ s % UINT32_SIZE = 2 ^ s :=
      Nat.mod_eq_of_lt (by simp only [UINT32_SIZE]; omega)
    rw [hmod]
    cases fuel with
    | zero => intro h; cases h
    | succ fuel =>
      rw [stage_loop, if_pos hle]
      apply bind_ne_ok
      intro d'
      rw [← pow_succ]
      exact ih fuel (s + 1) d' out (by omega)

/-! ## The analysis cycle: DC removal, transform, magnitudes -/

/-- The summation loop of the DC offset, entered at `i` with the sum of the samples below `i`,
returns the sum of all the samples. -/
theorem dc_offset_loop_from {S K : Type} [Field K] (to_float : S → K) (x : Nat → S) :
    ∀ fuel i, i ≤ N_SAMPLES → N_SAMPLES - i < fuel →
      dc_offset_loop to_float (tabulate N_SAMPLES x) fuel i
          (∑ t in Finset.range i, to_float (x t)) =
        Except.ok (∑ t in Finset.range N_SAMPLES, to_float (x t)) := by
  intro fuel
  induction fuel with
  | zero => intro i _ h; omega
  | succ fuel ih =>
    intro i hi hfuel
    rw [dc_offset_loop]
    by_cases hlt : i < N_SAMPLES
    · rw [if_pos hlt, rd_tabulate x hlt, ok_bind, ← Finset.sum_range_succ]
      exact ih (i + 1) hlt (by omega)
    · have : i = N_SAMPLES := by omega
      rw [if_neg hlt, this]

/-- The loop that fills `fft_buffer`, entered at `i` with the cells below `i` filled, fills
the whole buffer. -/
theorem fill_loop_from {S K : Type} [Field K] (to_float : S → K) (x : Nat → S) (dc : K)
    (c0 : Nat → complex_t K) :
    ∀ fuel i (cur : Nat → complex_t K), i ≤ N_SAMPLES → N_SAMPLES - i < fuel →
      (∀ m, m < N_SAMPLES →
        cur m = if m < i then { real := to_float (x m) - dc, imag := 0 } else c0 m) →
      fill_loop to_float (tabulate N_SAMPLES x) dc fuel i (tabulate N_SAMPLES cur) =
        Except.ok (tabulate N_SAMPLES
          (fun m => ({ real := to_float (x m) - dc, imag := 0 } : complex_t K))) := by
  intro fuel
  induction fuel with
  | zero => intro i cur _ h; omega
  | succ fuel ih =>
    intro i cur hi hfuel hinv
    rw [fill_loop]
    by_cases hlt : i < N_SAMPLES
    · rw [if_pos hlt, rd_tabulate x hlt, ok_bind, wr_tabulate cur _ hlt, ok_bind]
      apply ih (i + 1) _ hlt (by omega)
      intro m hm
      simp only [Function.update_apply]
      by_cases hmi : m = i
      · rw [if_pos hmi, if_pos (by omega), hmi]
      · rw [if_neg hmi, hinv m hm]
        by_cases hm2 : m < i
        · rw [if_pos hm2, if_pos (by omega)]
        · rw [if_neg hm2, if_neg (by omega)]
    · rw [if_neg hlt]
      refine congrArg Except.ok (tabulate_congr ?_)
      intro m hm
      rw [hinv m hm, if_pos (by omega)]

/-- The loop of `calculate_magnitudes`, entered at `i` with the cells below `i` computed,
computes the first `n / 2` magnitudes. -/
theorem calculate_magnitudes_loop_from {K : Type} [Field K] (L : libm K) (n h : Nat)
    (hh : n / 2 = h) (f : Nat → complex_t K) (c0 : Nat → K) :
    ∀ fuel i (cur : Nat → K), i ≤ h → h - i < fuel →
      (∀ m, m < h → cur m =
        if m < i then L.sqrtf ((f m).real * (f m).real + (f m).imag * (f m).imag) else c0 m) →
      calculate_magnitudes_loop L (tabulate n f) n fuel i (tabulate h cur) =
        Except.ok (tabulate h
          (fun m => L.sqrtf ((f m).real * (f m).real + (f m).imag * (f m).imag))) := by
  intro fuel
  induction fuel with
  | zero => intro i cur _ h; omega
  | succ fuel ih =>
    intro i cur hi hfuel hinv
    rw [calculate_magnitudes_loop, hh]
    by_cases hlt : i < h
    · rw [if_pos hlt, rd_tabulate f (show i < n by omega), ok_bind, wr_tabulate cur _ hlt,
        ok_bind]
      apply ih (i + 1) _ hlt (by omega)
      intro m hm
      simp only [Function.update_apply]
      by_cases hmi : m = i
      · rw [if_pos hmi, if_pos (by omega), hmi]
      · rw [if_neg hmi, hinv m hm]
        by_cases hm2 : m < i
        · rw [if_pos hm2, if_pos (by omega)]
        · rw [if_neg hm2, if_neg (by omega)]
    · rw [if_neg hlt]
      refine congrArg Except.ok (tabulate_congr ?_)
      intro m hm
      rw [hinv m hm, if_pos (by omega)]

theorem N_SAMPLES_eq : N_SAMPLES = 2 ^ 10 := by norm_num [N_SAMPLES]

theorem N_SAMPLES_half : N_SAMPLES / 2 = 512 := by norm_num [N_SAMPLES]

/-- The transform part of the analysis cycle on a table of samples: `fft_buffer` ends as the
discrete Fourier transform `X` of the samples minus their mean, `fft_magnitudes` as the
moduli of its first half. -/
theorem run_analysis_transform_tabulate {S : Type} (to_float : S → ℝ) (x : Nat → S)
    (X : Nat → ℂ)
    (hX : ∀ k, X k = ∑ j in Finset.range N_SAMPLES,
      (((to_float (x j) - (∑ t in Finset.range N_SAMPLES, to_float (x t)) / (N_SAMPLES : ℝ) : ℝ))
        : ℂ) * Complex.exp (-2 * Real.pi * Complex.I * j * k / ((N_SAMPLES : Nat) : ℂ)))
    (fuel : Nat) (hfuel : N_SAMPLES < fuel)
    (fft_buffer : List (complex_t ℝ)) (hbuf : fft_buffer.length = N_SAMPLES)
    (fft_magnitudes : List ℝ) (hmags : fft_magnitudes.length = N_SAMPLES / 2) :
    run_analysis_transform ⟨Real.pi, Real.cos, Real.sin, Real.sqrt⟩ to_float fuel
        (tabulate N_SAMPLES x) fft_buffer fft_magnitudes =
      Except.ok (tabulate N_SAMPLES (fun k => ofComplex (X k)),
        tabulate (N_SAMPLES / 2)
          (fun k => Real.sqrt ((X k).re * (X k).re + (X k).im * (X k).im))) := by
  have hdc := dc_offset_loop_from to_float x fuel 0 (Nat.zero_le _) (by omega)
  rw [Finset.sum_range_zero] at hdc
  have hb0 := eq_tabulate (⟨0, 0⟩ : complex_t ℝ) fft_buffer
  rw [hbuf] at hb0
  have hm0 := eq_tabulate (0 : ℝ) fft_magnitudes
  rw [hmags] at hm0
  have hfill := fill_loop_from to_float x
    ((∑ t in Finset.range N_SAMPLES, to_float (x t)) / (N_SAMPLES : ℝ))
    (fun i => fft_buffer.getD i ⟨0, 0⟩) fuel 0 (fun i => fft_buffer.getD i ⟨0, 0⟩)
    (Nat.zero_le _) (by omega) (fun m _ => by simp)
  rw [← hb0] at hfill
  have hfft := fft_in_place_tabulate 10 (by norm_num)
    (fun j => (((to_float (x j) -
      (∑ t in Finset.range N_SAMPLES, to_float (x t)) / (N_SAMPLES : ℝ) : ℝ)) : ℂ))
    fuel (by rw [← N_SAMPLES_eq]; omega)
  rw [← N_SAMPLES_eq] at hfft
  have hofc : (fun m => ofComplex (((to_float (x m) -
      (∑ t in Finset.range N_SAMPLES, to_float (x t)) / (N_SAMPLES : ℝ) : ℝ)) : ℂ)) =
      (fun m => ({ real := to_float (x m) -
        (∑ t in Finset.range N_SAMPLES, to_float (x t)) / (N_SAMPLES : ℝ), imag := 0 }
        : complex_t ℝ)) := by
    funext m; simp [ofComplex]
  rw [hofc] at hfft
  have hXf : (fun k : Nat => ofComplex (∑ j in Finset.range N_SAMPLES,
      (((to_float (x j) - (∑ t in Finset.range N_SAMPLES, to_float (x t)) / (N_SAMPLES : ℝ) : ℝ))
        : ℂ) * Complex.exp (-2 * Real.pi * Complex.I * j * k / ((N_SAMPLES : Nat) : ℂ)))) =
      (fun k => ofComplex (X k)) := by
    funext k; rw [hX k]
  rw [hXf] at hfft
  have hmag := calculate_magnitudes_loop_from (⟨Real.pi, Real.cos, Real.sin, Real.sqrt⟩ : libm ℝ)
    N_SAMPLES (N_SAMPLES / 2) rfl (fun k => ofComplex (X k))
    (fun i => fft_magnitudes.getD i 0) fuel 0 (fun i => fft_magnitudes.getD i 0)
    (Nat.zero_le _) (by have := N_SAMPLES_half; have := N_SAMPLES_eq; omega) (fun m _ => by simp)
  rw [← hm0] at hmag
  rw [run_analysis_transform, hdc, ok_bind]
  simp only []
  rw [hfill, ok_bind, hfft, ok_bind, calculate_magnitudes, hmag, ok_bind]
  rfl

theorem getD_tabulate {α : Type} {n k : Nat} (f : Nat → α) (d : α) (hk : k < n) :
    (tabulate n f).getD k d = f k := by
  simp [List.getD, tabulate_getElem?, hk]

/-! ## The peak scan -/

/-- The scan loop, entered at `i` with the running maximum of the bins `1 .. i - 1`, leaves
with the running maximum of the bins `1 .. N_SAMPLES / 2 - 1`: either no bin is positive and
the pair is `(0, 0)`, or `max_index` is the first bin that holds the largest value. -/
theorem peak_loop_from {K : Type} [LinearOrderedField K] (m : Nat → K) :
    ∀ fuel i (mx : K) (idx : Nat), 1 ≤ i → i ≤ N_SAMPLES / 2 → N_SAMPLES / 2 - i < fuel →
      ((idx = 0 ∧ mx = 0 ∧ ∀ t, 1 ≤ t → t < i → m t ≤ 0) ∨
        (1 ≤ idx ∧ idx < i ∧ mx = m idx ∧ 0 < m idx ∧ (∀ t, 1 ≤ t → t < i → m t ≤ m idx) ∧
          ∀ t, 1 ≤ t → t < idx → m t < m idx)) →
      ∃ (mx' : K) (idx' : Nat),
        peak_loop (tabulate (N_SAMPLES / 2) m) fuel i mx idx = Except.ok (mx', idx') ∧
        ((idx' = 0 ∧ mx' = 0 ∧ ∀ t, 1 ≤ t → t < N_SAMPLES / 2 → m t ≤ 0) ∨
          (1 ≤ idx' ∧ idx' < N_SAMPLES / 2 ∧ mx' = m idx' ∧ 0 < m idx' ∧
            (∀ t, 1 ≤ t → t < N_SAMPLES / 2 → m t ≤ m idx') ∧
            ∀ t, 1 ≤ t → t < idx' → m t < m idx')) := by
  intro fuel
  induction fuel with
  | zero => intro i mx idx _ _ h; omega
  | succ fuel ih =>
    intro i mx idx h1 hi hfuel hinv
    rw [peak_loop]
    by_cases hlt : i < N_SAMPLES / 2
    · rw [if_pos hlt, rd_tabulate m hlt, ok_bind]
      by_cases hgt : m i > mx
      · rw [if_pos hgt]
        apply ih (i + 1) (m i) i (by omega) hlt (by omega)
        right
        rcases hinv with ⟨_, hmx, hall⟩ | ⟨hi1, hi2, hmx, hpos, hall, hfirst⟩
        · subst hmx
          refine ⟨h1, by omega, rfl, hgt, ?_, ?_⟩
          · intro t ht1 ht2
            rcases Nat.lt_succ_iff_lt_or_eq.mp ht2 with h | h
            · exact le_trans (hall t ht1 h) (le_of_lt hgt)
            · rw [h]
          · intro t ht1 ht2
            exact lt_of_le_of_lt (hall t ht1 ht2) hgt
        · subst hmx
          refine ⟨h1, by omega, rfl, lt_trans hpos hgt, ?_, ?_⟩
          · intro t ht1 ht2
            rcases Nat.lt_succ_iff_lt_or_eq.mp ht2 with h | h
            · exact le_trans (hall t ht1 h) (le_of_lt hgt)
            · rw [h]
          · intro t ht1 ht2
            exact lt_of_le_of_lt (hall t ht1 ht2) hgt
      · rw [if_neg hgt]
        have hle : m i ≤ mx := not_lt.mp hgt
        apply ih (i + 1) mx idx (by omega) hlt (by omega)
        rcases hinv with ⟨hidx, hmx, hall⟩ | ⟨hi1, hi2, hmx, hpos, hall, hfirst⟩
        · left
          refine ⟨hidx, hmx, ?_⟩
          intro t ht1 ht2
          rcases Nat.lt_succ_iff_lt_or_eq.mp ht2 with h | h
          · exact hall t ht1 h
          · rw [h, ← hmx]; exact hle
        · right
          refine ⟨hi1, by omega, hmx, hpos, ?_, hfirst⟩
          intro t ht1 ht2
          rcases Nat.lt_succ_iff_lt_or_eq.mp ht2 with h | h
          · exact hall t ht1 h
          · rw [h, ← hmx]; exact hle
    · have hie : i = N_SAMPLES / 2 := by omega
      subst hie
      rw [if_neg hlt]
      exact ⟨mx, idx, rfl, hinv⟩

/-- The scan of `fft_analyzer_get_peak_frequency` on a table of magnitudes. -/
theorem peak_scan_tabulate {K : Type} [LinearOrderedField K] (m : Nat → K) (fuel : Nat)
    (hfuel : N_SAMPLES / 2 ≤ fuel) :
    ∃ (mx : K) (idx : Nat),
      peak_scan fuel (tabulate (N_SAMPLES / 2) m) = Except.ok (mx, idx) ∧
      ((idx = 0 ∧ mx = 0 ∧ ∀ t, 1 ≤ t → t < N_SAMPLES / 2 → m t ≤ 0) ∨
        (1 ≤ idx ∧ idx < N_SAMPLES / 2 ∧ mx = m idx ∧ 0 < m idx ∧
          (∀ t, 1 ≤ t → t < N_SAMPLES / 2 → m t ≤ m idx) ∧
          ∀ t, 1 ≤ t → t < idx → m t < m idx)) := by
  have h512 := N_SAMPLES_half
  apply peak_loop_from m fuel 1 0 0 le_rfl (by omega) (by omega)
  left
  refine ⟨rfl, rfl, ?_⟩
  intro t h1 h2
  omega

theorem get_peak_frequency_of_scan {K : Type} [LinearOrderedField K] (fuel : Nat)
    (mags : List K) (mx : K) (idx : Nat) (h : peak_scan fuel mags = Except.ok (mx, idx)) :
    fft_analyzer_get_peak_frequency fuel mags = Except.ok ((idx : K) * 1000 / 1024) := by
  rw [fft_analyzer_get_peak_frequency, h, ok_bind]
  simp [SAMPLING_FREQUENCY_HZ, N_SAMPLES]

/-- The scan loop reads no bin below the one at which it is entered. -/
theorem peak_loop_congr {K : Type} [LinearOrderedField K] (f g : Nat → K) (n : Nat)
    (hfg : ∀ t, 1 ≤ t → f t = g t) :
    ∀ fuel i (mx : K) (idx : Nat), 1 ≤ i →
      peak_loop (tabulate n f) fuel i mx idx = peak_loop (tabulate n g) fuel i mx idx := by
  intro fuel
  induction fuel with
  | zero => intro i mx idx _; rfl
  | succ fuel ih =>
    intro i mx idx h1
    rw [peak_loop, peak_loop]
    by_cases hlt : i < N_SAMPLES / 2
    · rw [if_pos hlt, if_pos hlt]
      by_cases hin : i < n
      · rw [rd_tabulate f hin, rd_tabulate g hin, ok_bind, ok_bind, hfg i h1,
          ih (i + 1) (g i) i (by omega), ih (i + 1) mx idx (by omega)]
      · have hf : rd (tabulate n f) i = Except.error Fault.out_of_bounds := by
          simp [rd, tabulate_getElem?, hin]
        have hg : rd (tabulate n g) i = Except.error Fault.out_of_bounds := by
          simp [rd, tabulate_getElem?, hin]
        rw [hf, hg]
        rfl
    · rw [if_neg hlt, if_neg hlt]

theorem set_zero_eq_tabulate {α : Type} (d : α) (m : List α) (v : α) :
    m.set 0 v = tabulate m.length (fun i => if i = 0 then v else m.getD i d) := by
  apply List.ext_getElem?
  intro i
  rw [List.getElem?_set, tabulate_getElem?]
  by_cases hi : i < m.length
  · by_cases h0 : 0 = i
    · subst h0; simp [hi]
    · have : ¬ i = 0 := fun h => h0 h.symm
      simp [hi, h0, this, List.getD, List.getElem?_eq_getElem hi]
  · have h' : m.length ≤ i := by omega
    by_cases h0 : 0 = i
    · subst h0; simp [hi]
    · simp [hi, h0, List.getElem?_eq_none h']

/-! ## A constant sample buffer -/

theorem replicate_eq_tabulate {α : Type} (n : Nat) (c : α) :
    List.replicate n c = tabulate n (fun _ => c) := by
  apply List.ext_getElem?
  intro i
  rw [List.getElem?_replicate, tabulate_getElem?]

/-- The peak frequency of a table of magnitudes with no positive bin in `1 .. 511` is `0`. -/
theorem get_peak_frequency_of_nonpos {K : Type} [LinearOrderedField K] (m : Nat → K)
    (hm : ∀ t, 1 ≤ t → t < N_SAMPLES / 2 → m t ≤ 0) (fuel : Nat)
    (hfuel : N_SAMPLES / 2 ≤ fuel) :
    fft_analyzer_get_peak_frequency fuel (tabulate (N_SAMPLES / 2) m) = Except.ok 0 := by
  obtain ⟨mx, r, hscan, hpost⟩ := peak_scan_tabulate m fuel hfuel
  rw [get_peak_frequency_of_scan fuel _ mx r hscan]
  rcases hpost with ⟨hr, _, _⟩ | ⟨hr1, hr2, _, hpos, _, _⟩
  · simp [hr]
  · exact absurd hpos (not_lt.mpr (hm r hr1 hr2))

/-! ## The sampler -/

/-- A firing that finds the buffer not yet full stores the reading and advances the count. -/
theorem timer_callback_filling (st : Sampler) (adc c : Nat) (hc : st.sample_count = (c : Int))
    (hlt : c < N_SAMPLES) (hlen : st.adc_samples.length = N_SAMPLES) :
    timer_callback st adc =
      Except.ok { st with adc_samples := st.adc_samples.set c adc,
                          sample_count := ((c + 1 : Nat) : Int) } := by
  have h1 : st.sample_count < (N_SAMPLES : Int) := by rw [hc]; exact_mod_cast hlt
  have h2 : ¬ st.sample_count < 0 := by rw [hc]; omega
  have h3 : st.sample_count.toNat = c := by rw [hc]; simp
  rw [timer_callback, if_pos h1, if_neg h2, h3, wr, if_pos (by omega), ok_bind, hc]
  simp

/-- A firing that finds the buffer full cancels the timer and sets the completion flag. -/
theorem timer_callback_full (st : Sampler) (adc : Nat)
    (hc : st.sample_count = (N_SAMPLES : Int)) :
    timer_callback st adc =
      Except.ok { st with timer_armed := false, sampling_complete := true } := by
  have h1 : ¬ st.sample_count < (N_SAMPLES : Int) := by rw [hc]; omega
  rw [timer_callback, if_neg h1]

theorem take_succ_set {α : Type} (l : List α) (r : α) :
    ∀ c, c < l.length → (l.set c r).take (c + 1) = l.take c ++ [r] := by
  induction l with
  | nil => intro c h; simp at h
  | cons x xs ih =>
    intro c h
    cases c with
    | zero => simp
    | succ c =>
      simp only [List.length_cons] at h
      simp [ih c (by omega)]

theorem fire_append (rs rs' : List Nat) :
    ∀ st, fire st (rs ++ rs') = (fire st rs >>= fun st' => fire st' rs') := by
  induction rs with
  | nil => intro st; rfl
  | cons r rest ih =>
    intro st
    simp only [List.cons_append, fire]
    cases timer_callback st r with
    | error e => rfl
    | ok st1 => exact ih st1

/-- Firings while the buffer has room: the readings are stored in order from the current
count on, and nothing else changes. -/
theorem fire_filling (rs : List Nat) :
    ∀ (st : Sampler) (c : Nat), st.sample_count = (c : Int) → c + rs.length ≤ N_SAMPLES →
      st.adc_samples.length = N_SAMPLES →
      ∃ st', fire st rs = Except.ok st' ∧ st'.sample_count = ((c + rs.length : Nat) : Int) ∧
        st'.sampling_complete = st.sampling_complete ∧ st'.timer_armed = st.timer_armed ∧
        st'.adc_samples.length = N_SAMPLES ∧
        st'.adc_samples.take (c + rs.length) = st.adc_samples.take c ++ rs := by
  induction rs with
  | nil =>
    intro st c hc _ hlen
    exact ⟨st, rfl, by simpa using hc, rfl, rfl, hlen, by simp⟩
  | cons r rest ih =>
    intro st c hc hroom hlen
    simp only [List.length_cons] at hroom
    have hstep := timer_callback_filling st r c hc (by omega) hlen
    obtain ⟨st', hfire, hcount, hcomp, harm, hlen', htake⟩ :=
      ih { st with adc_samples := st.adc_samples.set c r,
                   sample_count := ((c + 1 : Nat) : Int) } (c + 1) rfl (by omega)
        (by simp [hlen])
    refine ⟨st', ?_, ?_, hcomp, harm, hlen', ?_⟩
    · rw [fire, hstep, ok_bind, hfire]
    · rw [hcount]; simp only [List.length_cons]; congr 1; omega
    · have e : c + (r :: rest).length = c + 1 + rest.length := by
        simp only [List.length_cons]; omega
      rw [e, htake]
      simp only
      rw [take_succ_set _ _ c (by omega), List.append_assoc]
      rfl

/-- Firings once the buffer is full: the count and the samples stay, and the first such
firing sets the completion flag and cancels the timer. -/
theorem fire_full (rs : List Nat) :
    ∀ (st : Sampler), st.sample_count = (N_SAMPLES : Int) →
      ∃ st', fire st rs = Except.ok st' ∧ st'.sample_count = (N_SAMPLES : Int) ∧
        st'.adc_samples = st.adc_samples ∧
        st'.sampling_complete = (st.sampling_complete || decide (0 < rs.length)) ∧
        st'.timer_armed = (st.timer_armed && decide (rs.length = 0)) := by
  induction rs with
  | nil => intro st hc; exact ⟨st, rfl, hc, rfl, by simp, by simp⟩
  | cons r rest ih =>
    intro st hc
    obtain ⟨st', hfire, hcount, hsamples, hcomp, harm⟩ :=
      ih { st with timer_armed := false, sampling_complete := true } hc
    refine ⟨st', ?_, hcount, hsamples, ?_, ?_⟩
    · rw [fire, timer_callback_full st r hc, ok_bind, hfire]
    · rw [hcomp]; simp
    · rw [harm]; simp

/-- The state after `start_sampling` and any sequence of firings, in terms of the number of
firings. -/
theorem fire_start_sampling (st0 : Sampler) (hlen : st0.adc_samples.length = N_SAMPLES)
    (rs : List Nat) :
    ∃ st, fire (start_sampling st0) rs = Except.ok st ∧
      st.adc_samples.length = N_SAMPLES ∧
      st.sample_count = ((min rs.length N_SAMPLES : Nat) : Int) ∧
      st.sampling_complete = decide (N_SAMPLES < rs.length) ∧
      st.timer_armed = decide (rs.length ≤ N_SAMPLES) ∧
      st.adc_samples.take (min rs.length N_SAMPLES) = rs.take N_SAMPLES := by
  by_cases hle : rs.length ≤ N_SAMPLES
  · obtain ⟨st, hfire, hcount, hcomp, harm, hlen', htake⟩ :=
      fire_filling rs (start_sampling st0) 0 rfl (by omega) hlen
    rw [Nat.zero_add] at hcount htake
    refine ⟨st, hfire, hlen', ?_, ?_, ?_, ?_⟩
    · rw [hcount, Nat.min_eq_left hle]
    · rw [hcomp]; simp [start_sampling, hle]
    · rw [harm]; simp [start_sampling, hle]
    · rw [Nat.min_eq_left hle, htake, List.take_of_length_le hle]; simp
  · have hgt : N_SAMPLES < rs.length := by omega
    obtain ⟨st1, hfire1, hcount1, hcomp1, harm1, hlen1, htake1⟩ :=
      fire_filling (rs.take N_SAMPLES) (start_sampling st0) 0 rfl
        (by rw [List.length_take]; omega) hlen
    have hl : (rs.take N_SAMPLES).length = N_SAMPLES := by
      rw [List.length_take]; omega
    rw [Nat.zero_add, hl] at hcount1 htake1
    obtain ⟨st, hfire, hcount, hsamples, hcomp, harm⟩ :=
      fire_full (rs.drop N_SAMPLES) st1 hcount1
    have hdrop : 0 < (rs.drop N_SAMPLES).length := by
      rw [List.length_drop]; omega
    refine ⟨st, ?_, ?_, ?_, ?_, ?_, ?_⟩
    · rw [← List.take_append_drop N_SAMPLES rs, fire_append, hfire1, ok_bind, hfire]
    · rw [hsamples, hlen1]
    · rw [hcount, Nat.min_eq_right (le_of_lt hgt)]
    · rw [hcomp]; simp [hgt, hdrop]
    · rw [harm]; simp [hle]; intro _; omega
    · rw [Nat.min_eq_right (le_of_lt hgt), hsamples, htake1]; simp [start_sampling]

/-! ## A pure sinusoid at a bin frequency -/

theorem analyzer_root_primitive :
    IsPrimitiveRoot (Complex.exp (-(2 * Real.pi * Complex.I / ((N_SAMPLES : Nat) : ℂ))))
      N_SAMPLES := by
  rw [Complex.exp_neg, IsPrimitiveRoot.inv_iff]
  exact Complex.isPrimitiveRoot_exp N_SAMPLES (by norm_num [N_SAMPLES])

/-- The sum of the powers of the `m`-th power of a primitive `n`-th root of unity. -/
theorem root_pow_geom_sum {ω : ℂ} {n : Nat} (hω : IsPrimitiveRoot ω n) (m : Nat) :
    ∑ j in Finset.range n, (ω ^ m) ^ j = if n ∣ m then (n : ℂ) else 0 := by
  by_cases hd : n ∣ m
  · rw [if_pos hd, (hω.pow_eq_one_iff_dvd m).mpr hd]
    simp
  · rw [if_neg hd]
    have hne : ω ^ m ≠ 1 := fun h => hd ((hω.pow_eq_one_iff_dvd m).mp h)
    have hmul := mul_geom_sum (ω ^ m) n
    rw [← pow_mul, mul_comm m n, pow_mul, hω.pow_eq_one, one_pow, sub_self] at hmul
    rcases mul_eq_zero.mp hmul with h | h
    · exact absurd (sub_eq_zero.mp h) hne
    · exact h

theorem analyzer_root_pow (j k : Nat) :
    Complex.exp (-2 * Real.pi * Complex.I * j * k / ((N_SAMPLES : Nat) : ℂ)) =
      Complex.exp (-(2 * Real.pi * Complex.I / ((N_SAMPLES : Nat) : ℂ))) ^ (j * k) := by
  rw [← Complex.exp_nat_mul]
  congr 1
  push_cast
  ring

/-- A cosine at the bin `B`, as a combination of two powers of the root of unity. -/
theorem cos_bin_eq (A φ : ℝ) (B j : Nat) (hB : B ≤ N_SAMPLES) :
    ((A * Real.cos (2 * Real.pi * B * j / (N_SAMPLES : ℝ) + φ) : ℝ) : ℂ) =
      (A / 2 : ℝ) * (Complex.exp (φ * Complex.I) *
          (Complex.exp (-(2 * Real.pi * Complex.I / ((N_SAMPLES : Nat) : ℂ))) ^ (N_SAMPLES - B)) ^ j +
        Complex.exp (-(φ * Complex.I)) *
          (Complex.exp (-(2 * Real.pi * Complex.I / ((N_SAMPLES : Nat) : ℂ))) ^ B) ^ j) := by
  have hω := analyzer_root_primitive
  have hinv : Complex.exp (-(2 * Real.pi * Complex.I / ((N_SAMPLES : Nat) : ℂ))) ^ (N_SAMPLES - B) =
      Complex.exp (2 * Real.pi * Complex.I / ((N_SAMPLES : Nat) : ℂ)) ^ B := by
    have h1 : Complex.exp (-(2 * Real.pi * Complex.I / ((N_SAMPLES : Nat) : ℂ))) ^ (N_SAMPLES - B) *
        Complex.exp (-(2 * Real.pi * Complex.I / ((N_SAMPLES : Nat) : ℂ))) ^ B = 1 := by
      rw [← pow_add, Nat.sub_add_cancel hB, hω.pow_eq_one]
    have h2 : Complex.exp (2 * Real.pi * Complex.I / ((N_SAMPLES : Nat) : ℂ)) ^ B *
        Complex.exp (-(2 * Real.pi * Complex.I / ((N_SAMPLES : Nat) : ℂ))) ^ B = 1 := by
      rw [← mul_pow, ← Complex.exp_add, add_neg_cancel, Complex.exp_zero, one_pow]
    have hne : Complex.exp (-(2 * Real.pi * Complex.I / ((N_SAMPLES : Nat) : ℂ))) ^ B ≠ 0 :=
      pow_ne_zero _ (Complex.exp_ne_zero _)
    exact mul_right_cancel₀ hne (h1.trans h2.symm)
  rw [hinv, ← Complex.exp_nat_mul, ← Complex.exp_nat_mul, ← Complex.exp_nat_mul,
    ← Complex.exp_nat_mul, ← Complex.exp_add, ← Complex.exp_add]
  push_cast
  rw [Complex.cos]
  have hN : ((N_SAMPLES : Nat) : ℂ) ≠ 0 := by norm_num [N_SAMPLES]
  have e1 : (2 * (Real.pi : ℂ) * B * j / (N_SAMPLES : ℂ) + φ) * Complex.I =
      φ * Complex.I + j * (B * (2 * Real.pi * Complex.I / (N_SAMPLES : ℂ))) := by
    field_simp; ring
  have e2 : -(2 * (Real.pi : ℂ) * B * j / (N_SAMPLES : ℂ) + φ) * Complex.I =
      -(φ * Complex.I) + j * (B * -(2 * Real.pi * Complex.I / (N_SAMPLES : ℂ))) := by
    field_simp; ring
  rw [e1, e2]
  ring

/-- The transform of a cosine at the bin `B`, for every output index `k`. -/
theorem cos_bin_transform (A φ : ℝ) (B k : Nat) (hB : B ≤ N_SAMPLES) :
    ∑ j in Finset.range N_SAMPLES,
        ((A * Real.cos (2 * Real.pi * B * j / (N_SAMPLES : ℝ) + φ) : ℝ) : ℂ) *
          Complex.exp (-(2 * Real.pi * Complex.I / ((N_SAMPLES : Nat) : ℂ))) ^ (j * k) =
      (A / 2 : ℝ) *
        (Complex.exp (φ * Complex.I) *
            (if N_SAMPLES ∣ N_SAMPLES - B + k then ((N_SAMPLES : Nat) : ℂ) else 0) +
          Complex.exp (-(φ * Complex.I)) *
            (if N_SAMPLES ∣ B + k then ((N_SAMPLES : Nat) : ℂ) else 0)) := by
  have hω := analyzer_root_primitive
  rw [← root_pow_geom_sum hω (N_SAMPLES - B + k), ← root_pow_geom_sum hω (B + k),
    Finset.mul_sum, Finset.mul_sum, ← Finset.sum_add_distrib, Finset.mul_sum]
  apply Finset.sum_congr rfl
  intro j _
  rw [cos_bin_eq A φ B j hB, pow_add, pow_add, mul_pow, mul_pow, mul_comm j k, pow_mul]
  ring

theorem cos_bin_sum_zero (A φ : ℝ) (B : Nat) (hB1 : 1 ≤ B) (hB2 : B < N_SAMPLES) :
    ∑ j in Finset.range N_SAMPLES,
      A * Real.cos (2 * Real.pi * B * j / (N_SAMPLES : ℝ) + φ) = 0 := by
  apply Complex.ofReal_injective
  have h := cos_bin_transform A φ B 0 (le_of_lt hB2)
  simp only [Nat.mul_zero, pow_zero, mul_one, Nat.add_zero] at h
  have hd1 : ¬ N_SAMPLES ∣ N_SAMPLES - B := by
    intro hd
    have := Nat.le_of_dvd (by omega) hd
    omega
  have hd2 : ¬ N_SAMPLES ∣ B := by
    intro hd
    have := Nat.le_of_dvd (by omega) hd
    omega
  rw [if_neg hd1, if_neg hd2] at h
  rw [Complex.ofReal_sum, h]
  simp

/-- The spectrum of a pure sinusoid at the bin `B`, `1 ≤ B < N_SAMPLES / 2`, after the mean
is removed: the coefficient `B` is `A * N_SAMPLES / 2 * e ^ (i φ)`, the other coefficients
below `N_SAMPLES / 2` are zero. -/
theorem sinusoid_spectrum (c A φ : ℝ) (B : Nat) (hB1 : 1 ≤ B) (hB2 : B < N_SAMPLES / 2)
    (k : Nat) (hk : k < N_SAMPLES / 2) :
    ∑ j in Finset.range N_SAMPLES,
        ((((c + A * Real.cos (2 * Real.pi * B * j / (N_SAMPLES : ℝ) + φ)) -
          (∑ t in Finset.range N_SAMPLES,
            (c + A * Real.cos (2 * Real.pi * B * t / (N_SAMPLES : ℝ) + φ))) /
              (N_SAMPLES : ℝ) : ℝ)) : ℂ) *
          Complex.exp (-2 * Real.pi * Complex.I * j * k / ((N_SAMPLES : Nat) : ℂ)) =
      if k = B then ((A * (N_SAMPLES : ℝ) / 2 : ℝ) : ℂ) * Complex.exp (φ * Complex.I)
      else 0 := by
  have h512 := N_SAMPLES_half
  have h1024 := N_SAMPLES_eq
  have hBN : B < N_SAMPLES := by omega
  have hN : (N_SAMPLES : ℝ) ≠ 0 := by norm_num [N_SAMPLES]
  have hmean : (∑ t in Finset.range N_SAMPLES,
      (c + A * Real.cos (2 * Real.pi * B * t / (N_SAMPLES : ℝ) + φ))) / (N_SAMPLES : ℝ) = c := by
    rw [Finset.sum_add_distrib, cos_bin_sum_zero A φ B hB1 hBN, Finset.sum_const,
      Finset.card_range, nsmul_eq_mul]
    field_simp
  have hterm : ∀ j : Nat,
      ((((c + A * Real.cos (2 * Real.pi * B * j / (N_SAMPLES : ℝ) + φ)) -
          (∑ t in Finset.range N_SAMPLES,
            (c + A * Real.cos (2 * Real.pi * B * t / (N_SAMPLES : ℝ) + φ))) /
              (N_SAMPLES : ℝ) : ℝ)) : ℂ) *
          Complex.exp (-2 * Real.pi * Complex.I * j * k / ((N_SAMPLES : Nat) : ℂ)) =
      ((A * Real.cos (2 * Real.pi * B * j / (N_SAMPLES : ℝ) + φ) : ℝ) : ℂ) *
          Complex.exp (-(2 * Real.pi * Complex.I / ((N_SAMPLES : Nat) : ℂ))) ^ (j * k) := by
    intro j
    rw [hmean, analyzer_root_pow, add_sub_cancel_left]
  simp only [hterm]
  rw [cos_bin_transform A φ B k (le_of_lt hBN)]
  have hd2 : ¬ N_SAMPLES ∣ B + k := by
    intro hd
    have := Nat.le_of_dvd (by omega) hd
    omega
  rw [if_neg hd2]
  by_cases hkB : k = B
  · have hd1 : N_SAMPLES ∣ N_SAMPLES - B + k := by
      rw [hkB, Nat.sub_add_cancel (le_of_lt hBN)]
    rw [if_pos hd1, if_pos hkB]
    push_cast
    ring
  · have hd1 : ¬ N_SAMPLES ∣ N_SAMPLES - B + k := by
      rintro ⟨q, hq⟩
      have hq1 : q = 1 := by
        have h1 : 0 < q := by
          rcases Nat.eq_zero_or_pos q with h | h
          · rw [h] at hq; omega
          · exact h
        have h2 : q < 2 := by
          by_contra h
          have : N_SAMPLES * 2 ≤ N_SAMPLES * q := Nat.mul_le_mul_left _ (by omega)
          omega
        omega
      rw [hq1] at hq
      omega
    rw [if_neg hd1, if_neg hkB]
    simp

theorem modulus_of_polar (r φ : ℝ) (hr : 0 ≤ r) :
    Real.sqrt (((r : ℂ) * Complex.exp (φ * Complex.I)).re *
        ((r : ℂ) * Complex.exp (φ * Complex.I)).re +
      ((r : ℂ) * Complex.exp (φ * Complex.I)).im *
        ((r : ℂ) * Complex.exp (φ * Complex.I)).im) = r := by
  rw [← Complex.normSq_apply, map_mul, Complex.normSq_ofReal, Complex.normSq_eq_abs,
    Complex.abs_exp_ofReal_mul_I, one_pow, mul_one, Real.sqrt_mul_self hr]

/-- The scan on a table of magnitudes whose only positive bin in `1 .. 511` is `B`. -/
theorem peak_scan_single_peak {K : Type} [LinearOrderedField K] (m : Nat → K) (B : Nat)
    (hB1 : 1 ≤ B) (hB2 : B < N_SAMPLES / 2) (hpos : 0 < m B)
    (hzero : ∀ t, 1 ≤ t → t < N_SAMPLES / 2 → t ≠ B → m t ≤ 0)
    (fuel : Nat) (hfuel : N_SAMPLES / 2 ≤ fuel) :
    peak_scan fuel (tabulate (N_SAMPLES / 2) m) = Except.ok (m B, B) := by
  obtain ⟨mx, r, hscan, hpost⟩ := peak_scan_tabulate m fuel hfuel
  rcases hpost with ⟨_, _, hall⟩ | ⟨hr1, hr2, hmx, hrpos, _, _⟩
  · exact absurd hpos (not_lt.mpr (hall B hB1 hB2))
  · have hrB : r = B := by
      by_contra hne
      exact absurd hrpos (not_lt.mpr (hzero r hr1 hr2 hne))
    rw [hscan, hmx, hrB]

/-- The analysis of a pure sinusoid at the bin `B`: the transform part returns, and the scan
of the resulting magnitudes ends at index `B`. -/
theorem sinusoid_bin_peak (c A φ : ℝ) (hA : 0 < A) (B : Nat) (hB1 : 1 ≤ B)
    (hB2 : B < N_SAMPLES / 2)
    (fft_buffer : List (complex_t ℝ)) (hbuf : fft_buffer.length = N_SAMPLES)
    (fft_magnitudes : List ℝ) (hmags : fft_magnitudes.length = N_SAMPLES / 2)
    (fuel : Nat) (hfuel : N_SAMPLES < fuel) :
    ∃ buf mags mx,
      run_analysis_transform ⟨Real.pi, Real.cos, Real.sin, Real.sqrt⟩ (fun v : ℝ => v) fuel
        (tabulate N_SAMPLES
          (fun j => c + A * Real.cos (2 * Real.pi * B * j / (N_SAMPLES : ℝ) + φ)))
        fft_buffer fft_magnitudes = Except.ok (buf, mags) ∧
      peak_scan fuel mags = Except.ok (mx, B) := by
  have h512 := N_SAMPLES_half
  have h1024 := N_SAMPLES_eq
  obtain ⟨X, hX⟩ : ∃ X : Nat → ℂ, ∀ k, X k = ∑ j in Finset.range N_SAMPLES,
      ((((fun v : ℝ => v)
          ((fun j : Nat => c + A * Real.cos (2 * Real.pi * B * j / (N_SAMPLES : ℝ) + φ)) j) -
        (∑ t in Finset.range N_SAMPLES, (fun v : ℝ => v)
          ((fun j : Nat => c + A * Real.cos (2 * Real.pi * B * j / (N_SAMPLES : ℝ) + φ)) t)) /
            (N_SAMPLES : ℝ) : ℝ)) : ℂ) *
        Complex.exp (-2 * Real.pi * Complex.I * j * k / ((N_SAMPLES : Nat) : ℂ)) :=
    ⟨_, fun k => rfl⟩
  have h := run_analysis_transform_tabulate (fun v : ℝ => v)
    (fun j => c + A * Real.cos (2 * Real.pi * B * j / (N_SAMPLES : ℝ) + φ))
    X hX fuel hfuel fft_buffer hbuf fft_magnitudes hmags
  have hr : 0 < A * (N_SAMPLES : ℝ) / 2 := by
    have : (0 : ℝ) < (N_SAMPLES : ℝ) := by norm_num [N_SAMPLES]
    positivity
  have hXB : ∀ k, k < N_SAMPLES / 2 → X k =
      if k = B then ((A * (N_SAMPLES : ℝ) / 2 : ℝ) : ℂ) * Complex.exp (φ * Complex.I)
      else 0 := by
    intro k hk
    rw [hX k]
    exact sinusoid_spectrum c A φ B hB1 hB2 k hk
  refine ⟨_, _, Real.sqrt ((X B).re * (X B).re + (X B).im * (X B).im), h, ?_⟩
  apply peak_scan_single_peak
    (fun k => Real.sqrt ((X k).re * (X k).re + (X k).im * (X k).im)) B hB1 hB2 _ _ fuel
    (by omega)
  · simp only
    rw [hXB B hB2, if_pos rfl, modulus_of_polar _ _ (le_of_lt hr)]
    exact hr
  · intro t _ ht2 htB
    simp only
    rw [hXB t ht2, if_neg htB]
    simp

/-! ## Runs of the embedding on concrete inputs -/

/-- The transform of `1, 2, 3, 4` is `10, -2 + 2i, -2, -2 - 2i`. -/
theorem fft_in_place_four_cells :
    fft_in_place libm_quarter_turns 4 [⟨1, 0⟩, ⟨2, 0⟩, ⟨3, 0⟩, ⟨4, 0⟩] 4 =
      Except.ok [⟨10, 0⟩, ⟨-2, 2⟩, ⟨-2, 0⟩, ⟨-2, -2⟩] := by
  decide!

/-- With fuel 3 the first loop of a transform of four cells, which tests `i < n` four times,
is cut short. -/
theorem fft_in_place_four_cells_fuel_three :
    fft_in_place libm_quarter_turns 3 [⟨1, 0⟩, ⟨2, 0⟩, ⟨3, 0⟩, ⟨4, 0⟩] 4 =
      Except.error Fault.out_of_fuel := by
  decide!

/-- The bit-reversal stage on eight cells. -/
theorem bit_reversal_eight_cells :
    bit_reversal_loop 8 8 8 1 0 [0, 1, 2, 3, 4, 5, 6, 7] = Except.ok [0, 4, 2, 6, 1, 5, 3, 7] := by
  decide!

set_option maxRecDepth 100000 in
/-- Two firings after `start_sampling` store their readings in cells 0 and 1. -/
theorem fire_two_readings :
    fire (start_sampling ⟨List.replicate 1024 0, 9, true, false⟩) [5, 6] =
      Except.ok ⟨5 :: 6 :: List.replicate 1022 0, 2, false, true⟩ := by
  decide!
/-! ## The bit-reversal stage as a permutation -/

/-- The bit `t` of the reversal of `i` in a field of `s` bits is the bit `s - 1 - t` of `i`. -/
theorem rev_bits_testBit (s : Nat) :
    ∀ i t, t < s → (rev_bits s i).testBit t = i.testBit (s - 1 - t) := by
  induction s with
  | zero => intro i t ht; omega
  | succ s ih =>
    intro i t ht
    have hr := rev_bits_lt s (i / 2)
    rw [rev_bits]
    rcases Nat.mod_two_eq_zero_or_one i with h0 | h1
    · rw [h0, Nat.zero_mul, Nat.zero_add]
      by_cases hts : t = s
      · subst hts
        rw [Nat.testBit_lt_two_pow hr]
        simp [h0]
      · rw [ih (i / 2) t (by omega), Nat.testBit_div_two]
        congr 1; omega
    · rw [h1, Nat.one_mul, testBit_two_pow_add_of_lt hr]
      by_cases hts : t = s
      · subst hts
        simp [h1]
      · have hne : ¬ s = t := fun h => hts h.symm
        rw [ih (i / 2) t (by omega), Nat.testBit_div_two]
        simp only [hne, decide_False, Bool.false_or]
        congr 1; omega

/-- The bit-reversal stage on a table of `2 ^ b` cells. -/
theorem bit_reversal_stage_tabulate {α : Type} (b : Nat) (x : Nat → α) (fuel : Nat)
    (hf : 2 ^ b ≤ fuel) :
    bit_reversal_stage fuel (tabulate (2 ^ b) x) (2 ^ b) =
      Except.ok (tabulate (2 ^ b) (fun m => x (rev_bits b m))) := by
  cases b with
  | zero =>
    obtain ⟨f, rfl⟩ : ∃ f, fuel = f + 1 := ⟨fuel - 1, by simp at hf; omega⟩
    rw [bit_reversal_stage, bit_reversal_loop, if_neg (by simp)]
    refine congrArg Except.ok (tabulate_congr ?_)
    intro m hm
    have : m = 0 := by simpa using hm
    rw [this]; rfl
  | succ s => exact bit_reversal_loop_spec s x fuel hf

/-- A list of `2 ^ b` cells is the table of its cells. -/
theorem eq_tabulate_of_length {α : Type} (b : Nat) (data : List α)
    (hlen : data.length = 2 ^ b) : ∃ x : Nat → α, data = tabulate (2 ^ b) x := by
  cases data with
  | nil =>
    have := Nat.two_pow_pos b
    simp at hlen; omega
  | cons d rest =>
    refine ⟨fun i => (d :: rest).getD i d, ?_⟩
    have := eq_tabulate d (d :: rest)
    rw [hlen] at this
    exact this

/-- The record of the iterations of the bit-reversal loop, entered at `i` with `j` the
reversal of `i - 1`: iteration `t` tests `t < j` with `j` the reversal of `t`. -/
theorem bit_reversal_log_from (s : Nat) (fuel0 : Nat) (hf0 : s < fuel0) :
    ∀ fuel i (log : List (Nat × Nat × Bool)), 1 ≤ i → i ≤ 2 ^ (s + 1) →
      2 ^ (s + 1) - i < fuel →
      bit_reversal_log fuel0 (2 ^ (s + 1)) fuel i (rev_bits (s + 1) (i - 1)) log =
        Except.ok (log ++ (List.range' i (2 ^ (s + 1) - i)).map
          (fun t => (t, rev_bits (s + 1) t, decide (t < rev_bits (s + 1) t)))) := by
  intro fuel
  induction fuel with
  | zero => intro i log _ _ h; omega
  | succ fuel ih =>
    intro i log h1 hin hfuel
    rw [bit_reversal_log]
    by_cases hi : i < 2 ^ (s + 1)
    · obtain ⟨j, bit, hc, hx⟩ := carry_loop_rev_bits s fuel0 (i - 1) hf0 (by omega)
      have hs : 2 ^ (s + 1) >>> 1 = 2 ^ s := by
        rw [Nat.shiftRight_eq_div_pow, pow_succ]; simp
      have hi1 : i - 1 + 1 = i := by omega
      rw [hi1] at hx
      rw [if_pos hi, hs, hc, ok_bind]
      simp only [hx]
      have := ih (i + 1) (log ++ [(i, rev_bits (s + 1) i, decide (i < rev_bits (s + 1) i))])
        (by omega) (by omega) (by omega)
      rw [Nat.add_sub_cancel] at this
      rw [this]
      have hcount : 2 ^ (s + 1) - i = (2 ^ (s + 1) - (i + 1)) + 1 := by omega
      rw [hcount, List.range'_succ, List.map_cons, List.append_assoc]
      rfl
    · have : 2 ^ (s + 1) - i = 0 := by omega
      rw [if_neg hi, this]
      simp
/-! ## Linearity and DC suppression of the analysis cycle -/

theorem map_tabulate {α β : Type} (n : Nat) (x : Nat → α) (f : α → β) :
    (tabulate n x).map f = tabulate n (fun i => f (x i)) := by
  simp [tabulate, List.map_map, Function.comp_def]

/-- The samples minus their mean sum to zero. -/
theorem mean_removed_sum_zero (x : Nat → ℝ) :
    ∑ j in Finset.range N_SAMPLES,
      (x j - (∑ t in Finset.range N_SAMPLES, x t) / (N_SAMPLES : ℝ)) = 0 := by
  have hN : (N_SAMPLES : ℝ) ≠ 0 := by norm_num [N_SAMPLES]
  rw [Finset.sum_sub_distrib, Finset.sum_const, Finset.card_range, nsmul_eq_mul]
  field_simp

/-- The coefficient `0` of the transform of the samples minus their mean is zero. -/
theorem mean_removed_dc_zero (x : Nat → ℝ) :
    ∑ j in Finset.range N_SAMPLES,
      (((x j - (∑ t in Finset.range N_SAMPLES, x t) / (N_SAMPLES : ℝ) : ℝ)) : ℂ) *
        Complex.exp (-2 * Real.pi * Complex.I * j * (0 : Nat) / ((N_SAMPLES : Nat) : ℂ)) = 0 := by
  have h : ∀ j : Nat,
      (((x j - (∑ t in Finset.range N_SAMPLES, x t) / (N_SAMPLES : ℝ) : ℝ)) : ℂ) *
        Complex.exp (-2 * Real.pi * Complex.I * j * (0 : Nat) / ((N_SAMPLES : Nat) : ℂ)) =
      (((x j - (∑ t in Finset.range N_SAMPLES, x t) / (N_SAMPLES : ℝ) : ℝ)) : ℂ) := by
    intro j; simp
  simp only [h]
  rw [← Complex.ofReal_sum, mean_removed_sum_zero x, Complex.ofReal_zero]

/-- The transform of the doubled samples minus their mean is twice the transform of the
samples minus their mean. -/
theorem mean_removed_double (x : Nat → ℝ) (k : Nat) :
    ∑ j in Finset.range N_SAMPLES,
      (((2 * x j - (∑ t in Finset.range N_SAMPLES, 2 * x t) / (N_SAMPLES : ℝ) : ℝ)) : ℂ) *
        Complex.exp (-2 * Real.pi * Complex.I * j * k / ((N_SAMPLES : Nat) : ℂ)) =
    2 * ∑ j in Finset.range N_SAMPLES,
      (((x j - (∑ t in Finset.range N_SAMPLES, x t) / (N_SAMPLES : ℝ) : ℝ)) : ℂ) *
        Complex.exp (-2 * Real.pi * Complex.I * j * k / ((N_SAMPLES : Nat) : ℂ)) := by
  rw [Finset.mul_sum]
  apply Finset.sum_congr rfl
  intro j _
  rw [← Finset.mul_sum]
  push_cast
  ring

theorem modulus_double (z : ℂ) :
    Real.sqrt ((2 * z).re * (2 * z).re + (2 * z).im * (2 * z).im) =
      2 * Real.sqrt (z.re * z.re + z.im * z.im) := by
  have h : (2 * z).re * (2 * z).re + (2 * z).im * (2 * z).im =
      2 ^ 2 * (z.re * z.re + z.im * z.im) := by
    simp only [Complex.mul_re, Complex.mul_im, Complex.re_ofNat, Complex.im_ofNat]
    ring
  rw [h, Real.sqrt_mul (by norm_num), Real.sqrt_sq (by norm_num)]
/-! ## The note mapping -/

/-- The index into `NOTE_NAMES` is the Euclidean residue of `note_index` modulo 12. -/
theorem note_table_index_eq (n : Int) : note_table_index n = n % 12 := by
  unfold note_table_index
  cases n with
  | ofNat m =>
    have h1 : (Int.ofNat m).tmod 12 = ((m % 12 : Nat) : Int) := rfl
    have h2 : (0 : Int) ≤ ((m % 12 : Nat) : Int) + 12 := by omega
    rw [h1, Int.tmod_eq_emod h2 (by norm_num)]
    have : (Int.ofNat m) = (m : Int) := rfl
    rw [this]
    omega
  | negSucc m =>
    have h1 : (Int.negSucc m).tmod 12 = -(((m + 1) % 12 : Nat) : Int) := rfl
    have h2 : (0 : Int) ≤ -(((m + 1) % 12 : Nat) : Int) + 12 := by omega
    rw [h1, Int.tmod_eq_emod h2 (by norm_num)]
    have : Int.negSucc m = -((m : Int) + 1) := rfl
    rw [this]
    omega

theorem note_table_index_bounds (n : Int) :
    0 ≤ note_table_index n ∧ note_table_index n < 12 := by
  rw [note_table_index_eq]
  omega

/-- The lookup `NOTE_NAMES[(note_index % 12 + 12) % 12]` is inside the table. -/
theorem note_name_lookup (n : Int) :
    ∃ name, rd NOTE_NAMES (note_table_index n).toNat = Except.ok name ∧
      NOTE_NAMES[(n % 12).toNat]? = some name := by
  obtain ⟨h0, h12⟩ := note_table_index_bounds n
  have hlt : (note_table_index n).toNat < NOTE_NAMES.length := by
    have : NOTE_NAMES.length = 12 := rfl
    omega
  refine ⟨NOTE_NAMES[(note_table_index n).toNat], ?_, ?_⟩
  · rw [rd, List.getElem?_eq_getElem hlt]
  · rw [← note_table_index_eq, List.getElem?_eq_getElem hlt]

theorem abs_sub_round_to_int {K : Type} [LinearOrderedField K] [FloorRing K] (x : K) :
    x - 1 / 2 ≤ (round_to_int x : K) ∧ (round_to_int x : K) ≤ x + 1 / 2 := by
  unfold round_to_int
  split_ifs with h
  · have h1 := Int.floor_le (x + 1 / 2)
    have h2 := Int.lt_floor_add_one (x + 1 / 2)
    constructor <;> linarith
  · have h1 := Int.le_ceil (x - 1 / 2)
    have h2 := Int.ceil_lt_add_one (x - 1 / 2)
    constructor <;> linarith

theorem round_to_int_intCast {K : Type} [LinearOrderedField K] [FloorRing K] (n : Int) :
    round_to_int (n : K) = n := by
  obtain ⟨h1, h2⟩ := abs_sub_round_to_int (n : K)
  have h3 : ((n - 1 : Int) : K) < (round_to_int (n : K) : K) := by
    push_cast; linarith
  have h4 : (round_to_int (n : K) : K) < ((n + 1 : Int) : K) := by
    push_cast; linarith
  have h5 := Int.cast_lt.mp h3
  have h6 := Int.cast_lt.mp h4
  omega

theorem round_to_int_mem_Icc {K : Type} [LinearOrderedField K] [FloorRing K] (x : K) (a b : Int)
    (ha : (a : K) ≤ x) (hb : x ≤ (b : K)) : a ≤ round_to_int x ∧ round_to_int x ≤ b := by
  obtain ⟨h1, h2⟩ := abs_sub_round_to_int x
  have h3 : ((a - 1 : Int) : K) < (round_to_int x : K) := by
    push_cast; linarith
  have h4 : (round_to_int x : K) < ((b + 1 : Int) : K) := by
    push_cast; linarith
  have h5 := Int.cast_lt.mp h3
  have h6 := Int.cast_lt.mp h4
  omega

/-- From 20 Hz on, `draw_tuner_mode` shows a note: `note_index`, `cents_diff` and the name at
the residue of `note_index` modulo 12. -/
theorem draw_tuner_mode_note {K : Type} [LinearOrderedField K] [FloorRing K] (M : libm_tuner K)
    (peak_freq : K) (h : 20 ≤ peak_freq) :
    ∃ name, NOTE_NAMES[(round_to_int (12 * M.log2 (peak_freq / 440)) % 12).toNat]? =
        some name ∧
      draw_tuner_mode M peak_freq = Except.ok (tuner_output.note
        (round_to_int (12 * M.log2 (peak_freq / 440)))
        (round_to_int (1200 * M.log2 (peak_freq /
          (440 * M.pow 2 ((round_to_int (12 * M.log2 (peak_freq / 440)) : K) / 12)))))
        name) := by
  obtain ⟨name, hlook, hname⟩ := note_name_lookup (round_to_int (12 * M.log2 (peak_freq / 440)))
  refine ⟨name, hname, ?_⟩
  rw [draw_tuner_mode, if_neg (not_lt.mpr h)]
  simp only []
  rw [if_neg (not_lt.mpr (note_table_index_bounds _).1), hlook, ok_bind]
/-- The truncating remainder modulo 12 lies strictly between `-12` and `12`. -/
theorem tmod_twelve_bounds (n : Int) : -12 < n.tmod 12 ∧ n.tmod 12 < 12 := by
  cases n with
  | ofNat m =>
    have h1 : (Int.ofNat m).tmod 12 = ((m % 12 : Nat) : Int) := rfl
    rw [h1]; omega
  | negSucc m =>
    have h1 : (Int.negSucc m).tmod 12 = -(((m + 1) % 12 : Nat) : Int) := rfl
    rw [h1]; omega
/-! ## Termination and array bounds of `fft_in_place`, for any arithmetic -/

theorem rd_of_lt {α : Type} (data : List α) (i : Nat) (h : i < data.length) :
    rd data i = Except.ok (data[i]) := by
  rw [rd, List.getElem?_eq_getElem h]

theorem wr_of_lt {α : Type} (data : List α) (i : Nat) (v : α) (h : i < data.length) :
    wr data i v = Except.ok (data.set i v) := by
  rw [wr, if_pos h]

/-- The inner loop of a stage on a block inside the array returns, with an array of the same
length. -/
theorem butterfly_loop_returns {K : Type} [Field K] (wlen : complex_t K) (n i h : Nat)
    (hin : i + 2 * h ≤ n) (hn : n < UINT32_SIZE) :
    ∀ fuel j (w : complex_t K) (data : List (complex_t K)), data.length = n → j ≤ h →
      h - j < fuel →
      ∃ out, butterfly_loop wlen (2 * h) i fuel j w data = Except.ok out ∧ out.length = n := by
  intro fuel
  induction fuel with
  | zero => intro j w data _ _ h; omega
  | succ fuel ih =>
    intro j w data hlen hj hfuel
    rw [butterfly_loop]
    have hh : 2 * h / 2 = h := by omega
    rw [hh]
    by_cases hjh : j < h
    · have ht : (i + j) % UINT32_SIZE = i + j := Nat.mod_eq_of_lt (by omega)
      have hb : (i + j + h) % UINT32_SIZE = i + j + h := Nat.mod_eq_of_lt (by omega)
      rw [if_pos hjh, ht, hb]
      simp only [rd_of_lt data (i + j) (show i + j < data.length by omega),
        rd_of_lt data (i + j + h) (show i + j + h < data.length by omega), ok_bind]
      rw [wr_of_lt data (i + j) _ (by omega), ok_bind,
        wr_of_lt _ (i + j + h) _ (by rw [List.length_set]; omega), ok_bind]
      exact ih (j + 1) _ _ (by rw [List.length_set, List.length_set]; exact hlen) (by omega)
        (by omega)
    · rw [if_neg hjh]
      exact ⟨data, rfl, hlen⟩

/-- The middle loop of a stage whose block length divides the array length returns, with an
array of the same length. -/
theorem block_loop_returns {K : Type} [Field K] (wlen : complex_t K) (n h Q : Nat)
    (hh : 0 < h) (hnQ : n = Q * (2 * h)) (hn : n < UINT32_SIZE) (fuel0 : Nat)
    (hf0 : h < fuel0) :
    ∀ fuel q (data : List (complex_t K)), data.length = n → q ≤ Q → Q - q < fuel →
      ∃ out, block_loop fuel0 wlen n (2 * h) fuel (q * (2 * h)) data = Except.ok out ∧
        out.length = n := by
  intro fuel
  induction fuel with
  | zero => intro q data _ _ h; omega
  | succ fuel ih =>
    intro q data hlen hq hfuel
    rw [block_loop]
    by_cases hqQ : q < Q
    · have hlt : q * (2 * h) < n := by
        rw [hnQ]; exact Nat.mul_lt_mul_of_pos_right hqQ (by omega)
      have hq1 : (q + 1) * (2 * h) = q * (2 * h) + 2 * h := by ring
      have hnext : q * (2 * h) + 2 * h ≤ n := by
        rw [← hq1, hnQ]; exact Nat.mul_le_mul_right _ hqQ
      obtain ⟨d, hd, hdlen⟩ := butterfly_loop_returns wlen n (q * (2 * h)) h hnext hn fuel0 0
        { real := 1, imag := 0 } data hlen (Nat.zero_le _) (by omega)
      rw [if_pos hlt, hd, ok_bind,
        Nat.mod_eq_of_lt (show q * (2 * h) + 2 * h < UINT32_SIZE by omega), ← hq1]
      exact ih (q + 1) d hdlen hqQ (by omega)
    · have hqe : q = Q := by omega
      subst hqe
      rw [if_neg (by omega)]
      exact ⟨data, rfl, hlen⟩

/-- The outer loop of the butterfly phase on `2 ^ b` cells, `b ≤ 30`, entered at
`len = 2 ^ s`, returns after `b + 1 - s` stages, with an array of the same length; the loop
with the stage counter returns the same array and the count of these stages. -/
theorem stage_loop_returns {K : Type} [Field K] (L : libm K) (b : Nat) (hb : b ≤ 30)
    (fuel0 : Nat) (hf0 : 2 ^ b ≤ fuel0) :
    ∀ fuel s (data : List (complex_t K)) (count : Nat), data.length = 2 ^ b → 1 ≤ s →
      s ≤ b + 1 → b + 1 - s < fuel →
      ∃ out, stage_loop L fuel0 (2 ^ b) fuel (2 ^ s) data = Except.ok out ∧
        stage_loop_count L fuel0 (2 ^ b) fuel (2 ^ s) data count =
          Except.ok (out, count + (b + 1 - s)) ∧
        out.length = 2 ^ b := by
  have hn : 2 ^ b < UINT32_SIZE := by
    have : 2 ^ b ≤ 2 ^ 30 := Nat.pow_le_pow_right (by norm_num) hb
    simp only [UINT32_SIZE]; omega
  intro fuel
  induction fuel with
  | zero => intro s data count _ _ _ h; omega
  | succ fuel ih =>
    intro s data count hlen hs1 hsb hfuel
    rw [stage_loop, stage_loop_count]
    by_cases hle : s ≤ b
    · obtain ⟨t, rfl⟩ : ∃ t, s = t + 1 := ⟨s - 1, by omega⟩
      have hlen2 : 2 ^ (t + 1) ≤ 2 ^ b := Nat.pow_le_pow_right (by norm_num) hle
      have h2 : 2 ^ (t + 1) = 2 * 2 ^ t := by rw [pow_succ]; ring
      have hQ : 2 ^ b = 2 ^ (b - (t + 1)) * (2 * 2 ^ t) := by
        rw [← h2, ← pow_add]; congr 1; omega
      have hpos : 0 < 2 ^ t := Nat.two_pow_pos t
      have hhlt : 2 ^ t < fuel0 := by omega
      have hQlt : 2 ^ (b - (t + 1)) < fuel0 := by
        have : 2 ^ (b - (t + 1)) < 2 ^ b := Nat.pow_lt_pow_right (by norm_num) (by omega)
        omega
      have hnext : 2 ^ (t + 1) * 2 % UINT32_SIZE = 2 ^ (t + 1 + 1) := by
        have : 2 ^ (t + 1 + 1) ≤ 2 ^ 31 := Nat.pow_le_pow_right (by norm_num) (by omega)
        rw [← pow_succ]
        exact Nat.mod_eq_of_lt (by simp only [UINT32_SIZE]; omega)
      obtain ⟨d, hd, hdlen⟩ := block_loop_returns
        ({ real := L.cos (2 * L.M_PI / ((2 ^ (t + 1) : Nat) : K)),
           imag := -L.sin (2 * L.M_PI / ((2 ^ (t + 1) : Nat) : K)) } : complex_t K)
        (2 ^ b) (2 ^ t) (2 ^ (b - (t + 1))) hpos hQ hn fuel0 hhlt fuel0 0 data hlen
        (Nat.zero_le _) (by omega)
      rw [zero_mul, ← h2] at hd
      rw [if_pos hlen2, if_pos hlen2]
      simp only []
      rw [hd, ok_bind, ok_bind, hnext]
      obtain ⟨out, ho1, ho2, holen⟩ := ih (t + 1 + 1) d (count + 1) hdlen (by omega)
        (by omega) (by omega)
      refine ⟨out, ho1, ?_, holen⟩
      rw [ho2]
      congr 2
      omega
    · have hsb2 : s = b + 1 := by omega
      subst hsb2
      have : ¬ 2 ^ (b + 1) ≤ 2 ^ b := by
        rw [pow_succ]; have := Nat.two_pow_pos b; omega
      rw [if_neg this, if_neg this]
      exact ⟨data, rfl, by simp, hlen⟩
/-- On `2 ^ b` cells, `b ≤ 30`, with fuel `2 ^ b`, whatever the arithmetic: the bit-reversal
stage returns, the butterfly phase returns after `b` stages, and so does `fft_in_place`. -/
theorem fft_in_place_returns {K : Type} [Field K] (L : libm K) (b : Nat) (hb : b ≤ 30)
    (data : List (complex_t K)) (hlen : data.length = 2 ^ b) (fuel : Nat)
    (hfuel : 2 ^ b ≤ fuel) :
    ∃ mid out, bit_reversal_stage fuel data (2 ^ b) = Except.ok mid ∧
      stage_loop_count L fuel (2 ^ b) fuel 2 mid 0 = Except.ok (out, b) ∧
      fft_in_place L fuel data (2 ^ b) = Except.ok out ∧ out.length = 2 ^ b := by
  obtain ⟨x, hx⟩ := eq_tabulate_of_length b data hlen
  have hmid := bit_reversal_stage_tabulate b x fuel hfuel
  rw [← hx] at hmid
  have hb1 : b < fuel := by have := Nat.lt_two_pow b; omega
  obtain ⟨out, ho1, ho2, holen⟩ := stage_loop_returns L b hb fuel hfuel fuel 1
    (tabulate (2 ^ b) (fun m => x (rev_bits b m))) 0 (tabulate_length _ _) le_rfl (by omega)
    (by omega)
  rw [pow_one] at ho1 ho2
  have hcount : 0 + (b + 1 - 1) = b := by omega
  rw [hcount] at ho2
  refine ⟨_, out, hmid, ho2, ?_, holen⟩
  rw [fft_in_place]
  by_cases h1 : 2 ^ b ≤ 1
  · have hb0 : b = 0 := by
      by_contra hne
      have : 2 ^ 1 ≤ 2 ^ b := Nat.pow_le_pow_right (by norm_num) (by omega)
      omega
    subst hb0
    rw [if_pos h1]
    obtain ⟨f, rfl⟩ : ∃ f, fuel = f + 1 := ⟨fuel - 1, by omega⟩
    rw [stage_loop, if_neg (by norm_num)] at ho1
    have hd : tabulate (2 ^ 0) (fun m => x (rev_bits 0 m)) = data := by
      rw [hx]
      apply tabulate_congr
      intro m hm
      have : m = 0 := by simpa using hm
      rw [this]; rfl
    rw [← hd]
    exact ho1
  · rw [if_neg h1]
    rw [bit_reversal_stage] at hmid
    rw [hmid, ok_bind]
    exact ho1

/-- On six cells the bit-reversal stage stays inside the array and the butterfly phase reads
`data[i + j + len / 2]` at index `4 + 0 + 2 = 6`. -/
theorem fft_in_place_six_cells {K : Type} [Field K] (L : libm K) (a0 a1 a2 a3 a4 a5 : complex_t K)
    (f : Nat) :
    bit_reversal_stage (f + 6) [a0, a1, a2, a3, a4, a5] 6 =
        Except.ok [a0, a3, a2, a1, a4, a5] ∧
      stage_loop L (f + 6) 6 (f + 6) 2 [a0, a3, a2, a1, a4, a5] =
        Except.error Fault.out_of_bounds ∧
      fft_in_place L (f + 6) [a0, a1, a2, a3, a4, a5] 6 = Except.error Fault.out_of_bounds := by
  refine ⟨rfl, rfl, rfl⟩

/-! ## Runs of the note mapping and of the recorded loops on concrete inputs -/

/-- At 880 Hz, one octave above the reference, the note is `A` with no deviation. -/
theorem draw_tuner_mode_octave_up :
    draw_tuner_mode libm_tuner_octaves 880 = Except.ok (tuner_output.note 12 0 "A") := by
  decide!

/-- At 220 Hz, one octave below the reference, the note index is negative and the note is
`A` with no deviation. -/
theorem draw_tuner_mode_octave_down :
    draw_tuner_mode libm_tuner_octaves 220 = Except.ok (tuner_output.note (-12) 0 "A") := by
  decide!

/-- Below 20 Hz the sentinel is shown. -/
theorem draw_tuner_mode_silence :
    draw_tuner_mode libm_tuner_octaves 19 = Except.ok tuner_output.silence := by
  decide!

/-- The C function `round` sends a half away from zero. -/
theorem round_to_int_halves :
    (round_to_int (5 / 2 : ℚ), round_to_int (-5 / 2 : ℚ), round_to_int (-7 / 3 : ℚ)) =
      (3, -3, -2) := by
  decide!

/-- The record of the bit-reversal loop on eight cells. -/
theorem bit_reversal_log_eight_cells :
    bit_reversal_log 8 8 8 1 0 [] =
      Except.ok [(1, 4, true), (2, 2, false), (3, 6, true), (4, 1, false), (5, 5, false),
        (6, 3, false), (7, 7, false)] := by
  decide

/-! ## The claims -/

/-- C1, counterexample. On `n = 2 ^ 31` cells `fft_in_place` does not return, whatever the
fuel: after the stage `len = 2 ^ 31` the step `len <<= 1` gives `0`, and the loop over the
blocks, which advances by `len`, stays at `i = 0`. -/
theorem fft_in_place_two_pow_31_diverges :
    ¬ ∃ fuel out, fft_in_place ⟨Real.pi, Real.cos, Real.sin, Real.sqrt⟩ fuel
      (List.replicate (2 ^ 31) (⟨0, 0⟩ : complex_t ℝ)) (2 ^ 31) = Except.ok out := by
  rintro ⟨fuel, out, h⟩
  rw [fft_in_place, if_neg (by norm_num)] at h
  revert h
  apply bind_ne_ok
  intro d
  have := stage_loop_two_pow_31 (⟨Real.pi, Real.cos, Real.sin, Real.sqrt⟩ : libm ℝ) fuel 31
    fuel 1 d out (by norm_num)
  rw [pow_one, Nat.mod_eq_of_lt (by simp [UINT32_SIZE])] at this
  exact this

/-- C1 (as amended). For `n = 2 ^ b` with `b ≤ 30` and every array `data` of `n` cells,
`fft_in_place(data, n)` returns, given fuel `n`, and leaves in cell `k` the sum over `j` of
`data[j] * e ^ (-2 π i j k / n)`. -/
theorem fft_in_place_dft (b : Nat) (hb : b ≤ 30) (data : List (complex_t ℝ))
    (hlen : data.length = 2 ^ b) (fuel : Nat) (hfuel : 2 ^ b ≤ fuel) :
    ∃ out, fft_in_place ⟨Real.pi, Real.cos, Real.sin, Real.sqrt⟩ fuel data (2 ^ b) =
        Except.ok out ∧ out.length = 2 ^ b ∧
      ∀ k, k < 2 ^ b → cell out k = ∑ j in Finset.range (2 ^ b),
        cell data j * Complex.exp (-2 * Real.pi * Complex.I * j * k / ((2 ^ b : Nat) : ℂ)) := by
  have hd := eq_tabulate_cell data
  rw [hlen] at hd
  refine ⟨tabulate (2 ^ b) (fun k => ofComplex (∑ j in Finset.range (2 ^ b),
    cell data j * Complex.exp (-2 * Real.pi * Complex.I * j * k / ((2 ^ b : Nat) : ℂ)))),
    ?_, ?_, ?_⟩
  · have := fft_in_place_tabulate b hb (cell data) fuel hfuel
    rw [← hd] at this
    exact this
  · exact tabulate_length _ _
  · intro k hk
    rw [cell_tabulate _ hk]

/-- Witness of C1: the theorem at the size the analyzer uses, `2 ^ 10 = 1024` cells all equal
to `1`, with fuel `1024`. -/
theorem fft_in_place_dft_witness :
    (10 ≤ 30 ∧ (List.replicate 1024 (⟨1, 0⟩ : complex_t ℝ)).length = 2 ^ 10 ∧ 2 ^ 10 ≤ 1024) ∧
    ∃ out, fft_in_place ⟨Real.pi, Real.cos, Real.sin, Real.sqrt⟩ 1024
        (List.replicate 1024 (⟨1, 0⟩ : complex_t ℝ)) (2 ^ 10) = Except.ok out ∧
      out.length = 2 ^ 10 ∧
      ∀ k, k < 2 ^ 10 → cell out k = ∑ j in Finset.range (2 ^ 10),
        cell (List.replicate 1024 (⟨1, 0⟩ : complex_t ℝ)) j *
          Complex.exp (-2 * Real.pi * Complex.I * j * k / ((2 ^ 10 : Nat) : ℂ)) :=
  ⟨⟨by norm_num, by rw [List.length_replicate]; norm_num, by norm_num⟩,
    fft_in_place_dft 10 (by norm_num) _ (by rw [List.length_replicate]; norm_num) 1024
      (by norm_num)⟩

/-- C2. For every buffer `s` of `N_SAMPLES = 1024` unsigned readings, the transform part of
`fft_analyzer_run_analysis` returns (fuel above `N_SAMPLES`), and for every `k` below
`N_SAMPLES / 2` the magnitude `k` is `sqrt (re ^ 2 + im ^ 2)` of the `k`-th coefficient `X` of
the discrete Fourier transform of `s[j] - mean s`, the mean being the sum of the `N_SAMPLES`
samples divided by `N_SAMPLES`; every such magnitude is non-negative. -/
theorem run_analysis_transform_magnitudes (s : List Nat) (hs : s.length = N_SAMPLES)
    (fft_buffer : List (complex_t ℝ)) (hbuf : fft_buffer.length = N_SAMPLES)
    (fft_magnitudes : List ℝ) (hmags : fft_magnitudes.length = N_SAMPLES / 2)
    (fuel : Nat) (hfuel : N_SAMPLES < fuel) :
    ∃ buf mags,
      run_analysis_transform ⟨Real.pi, Real.cos, Real.sin, Real.sqrt⟩ (fun v : Nat => (v : ℝ))
        fuel s fft_buffer fft_magnitudes = Except.ok (buf, mags) ∧
      mags.length = N_SAMPLES / 2 ∧
      ∀ k, k < N_SAMPLES / 2 → ∃ X : ℂ,
        X = ∑ j in Finset.range N_SAMPLES,
          ((((s.getD j 0 : ℝ) -
            (∑ t in Finset.range N_SAMPLES, (s.getD t 0 : ℝ)) / (N_SAMPLES : ℝ) : ℝ)) : ℂ) *
          Complex.exp (-2 * Real.pi * Complex.I * j * k / ((N_SAMPLES : Nat) : ℂ)) ∧
        mags.getD k 0 = Real.sqrt (X.re ^ 2 + X.im ^ 2) ∧ 0 ≤ mags.getD k 0 := by
  have hs0 := eq_tabulate 0 s
  rw [hs] at hs0
  have h := run_analysis_transform_tabulate (fun v : Nat => (v : ℝ)) (fun i => s.getD i 0)
    _ (fun k => rfl) fuel hfuel fft_buffer hbuf fft_magnitudes hmags
  rw [← hs0] at h
  refine ⟨_, _, h, tabulate_length _ _, ?_⟩
  intro k hk
  refine ⟨_, rfl, ?_, ?_⟩
  · rw [getD_tabulate _ _ hk, sq, sq]
  · rw [getD_tabulate _ _ hk]
    exact Real.sqrt_nonneg _

/-- Witness of C2: the theorem at the all-zero sample buffer, with zeroed static buffers and
fuel `1025`. -/
theorem run_analysis_transform_magnitudes_witness :
    ((List.replicate 1024 0).length = N_SAMPLES ∧
      (List.replicate 1024 (⟨0, 0⟩ : complex_t ℝ)).length = N_SAMPLES ∧
      (List.replicate 512 (0 : ℝ)).length = N_SAMPLES / 2 ∧ N_SAMPLES < 1025) ∧
    ∃ buf mags,
      run_analysis_transform ⟨Real.pi, Real.cos, Real.sin, Real.sqrt⟩ (fun v : Nat => (v : ℝ))
        1025 (List.replicate 1024 0) (List.replicate 1024 (⟨0, 0⟩ : complex_t ℝ))
        (List.replicate 512 (0 : ℝ)) = Except.ok (buf, mags) ∧
      mags.length = N_SAMPLES / 2 ∧
      ∀ k, k < N_SAMPLES / 2 → ∃ X : ℂ,
        X = ∑ j in Finset.range N_SAMPLES,
          ((((((List.replicate 1024 0).getD j 0 : Nat) : ℝ) -
            (∑ t in Finset.range N_SAMPLES, (((List.replicate 1024 0).getD t 0 : Nat) : ℝ)) /
              (N_SAMPLES : ℝ) : ℝ)) : ℂ) *
          Complex.exp (-2 * Real.pi * Complex.I * j * k / ((N_SAMPLES : Nat) : ℂ)) ∧
        mags.getD k 0 = Real.sqrt (X.re ^ 2 + X.im ^ 2) ∧ 0 ≤ mags.getD k 0 :=
  ⟨⟨by rw [List.length_replicate]; norm_num [N_SAMPLES],
      by rw [List.length_replicate]; norm_num [N_SAMPLES],
      by rw [List.length_replicate]; norm_num [N_SAMPLES], by norm_num [N_SAMPLES]⟩,
    run_analysis_transform_magnitudes (List.replicate 1024 0)
      (by rw [List.length_replicate]; norm_num [N_SAMPLES])
      (List.replicate 1024 (⟨0, 0⟩ : complex_t ℝ))
      (by rw [List.length_replicate]; norm_num [N_SAMPLES]) (List.replicate 512 (0 : ℝ))
      (by rw [List.length_replicate]; norm_num [N_SAMPLES]) 1025 (by norm_num [N_SAMPLES])⟩

/-- C3. For a pure sinusoid `x[j] = c + A * cos (2 π f j / R + phase)`, `A > 0`, sampled at
`R = SAMPLING_FREQUENCY_HZ` for `N_SAMPLES` samples (exact reals), with `f` one of `R / 16`,
`R / 8`, `R / 4`: the transform part of the analysis cycle returns, the scan of
`fft_analyzer_get_peak_frequency` ends at an index `r` within one bin of
`round (f * N_SAMPLES / R)` (it is equal to it: 64, 128, 256), and the function returns
`r * R / N_SAMPLES`. -/
theorem sinusoid_peak_within_one_bin (c A phase f : ℝ) (hA : 0 < A)
    (hf : f = (SAMPLING_FREQUENCY_HZ : ℝ) / 16 ∨ f = (SAMPLING_FREQUENCY_HZ : ℝ) / 8 ∨
      f = (SAMPLING_FREQUENCY_HZ : ℝ) / 4)
    (fft_buffer : List (complex_t ℝ)) (hbuf : fft_buffer.length = N_SAMPLES)
    (fft_magnitudes : List ℝ) (hmags : fft_magnitudes.length = N_SAMPLES / 2)
    (fuel : Nat) (hfuel : N_SAMPLES < fuel) :
    ∃ buf mags mx r,
      run_analysis_transform ⟨Real.pi, Real.cos, Real.sin, Real.sqrt⟩ (fun v : ℝ => v) fuel
        (tabulate N_SAMPLES (fun j =>
          c + A * Real.cos (2 * Real.pi * f * j / (SAMPLING_FREQUENCY_HZ : ℝ) + phase)))
        fft_buffer fft_magnitudes = Except.ok (buf, mags) ∧
      peak_scan fuel mags = Except.ok (mx, r) ∧
      |(r : ℤ) - round (f * (N_SAMPLES : ℝ) / (SAMPLING_FREQUENCY_HZ : ℝ))| ≤ 1 ∧
      (r : ℝ) = f * (N_SAMPLES : ℝ) / (SAMPLING_FREQUENCY_HZ : ℝ) ∧
      (r = 64 ∨ r = 128 ∨ r = 256) ∧
      fft_analyzer_get_peak_frequency fuel mags =
        Except.ok ((r : ℝ) * (SAMPLING_FREQUENCY_HZ : ℝ) / (N_SAMPLES : ℝ)) := by
  have h512 := N_SAMPLES_half
  obtain ⟨B, hB, hfB⟩ : ∃ B : Nat, (B = 64 ∨ B = 128 ∨ B = 256) ∧
      f = (B : ℝ) * (SAMPLING_FREQUENCY_HZ : ℝ) / (N_SAMPLES : ℝ) := by
    rcases hf with h | h | h
    · exact ⟨64, Or.inl rfl, by rw [h]; norm_num [SAMPLING_FREQUENCY_HZ, N_SAMPLES]⟩
    · exact ⟨128, Or.inr (Or.inl rfl), by rw [h]; norm_num [SAMPLING_FREQUENCY_HZ, N_SAMPLES]⟩
    · exact ⟨256, Or.inr (Or.inr rfl), by rw [h]; norm_num [SAMPLING_FREQUENCY_HZ, N_SAMPLES]⟩
  have hR : (SAMPLING_FREQUENCY_HZ : ℝ) ≠ 0 := by norm_num [SAMPLING_FREQUENCY_HZ]
  have hN : (N_SAMPLES : ℝ) ≠ 0 := by norm_num [N_SAMPLES]
  have hbin : f * (N_SAMPLES : ℝ) / (SAMPLING_FREQUENCY_HZ : ℝ) = (B : ℝ) := by
    rw [hfB]; field_simp
  have hfun : (fun j : Nat =>
      c + A * Real.cos (2 * Real.pi * f * j / (SAMPLING_FREQUENCY_HZ : ℝ) + phase)) =
      (fun j : Nat => c + A * Real.cos (2 * Real.pi * B * j / (N_SAMPLES : ℝ) + phase)) := by
    funext j
    have : 2 * Real.pi * f * j / (SAMPLING_FREQUENCY_HZ : ℝ) =
        2 * Real.pi * B * j / (N_SAMPLES : ℝ) := by
      rw [hfB]; field_simp; ring
    rw [this]
  obtain ⟨buf, mags, mx, hrun, hscan⟩ := sinusoid_bin_peak c A phase hA B (by omega) (by omega)
    fft_buffer hbuf fft_magnitudes hmags fuel hfuel
  rw [← hfun] at hrun
  refine ⟨buf, mags, mx, B, hrun, hscan, ?_, hbin.symm, hB, ?_⟩
  · rw [hbin, round_natCast]
    simp
  · rw [get_peak_frequency_of_scan fuel mags mx B hscan]
    simp [SAMPLING_FREQUENCY_HZ, N_SAMPLES]

/-- Witness of C3: the theorem at the sinusoid `2048 + 1000 * cos (2 π f j / R)` with
`f = R / 8` (125 Hz), zeroed static buffers and fuel `1025`. -/
theorem sinusoid_peak_within_one_bin_witness :
    ((0 : ℝ) < 1000 ∧
      ((SAMPLING_FREQUENCY_HZ : ℝ) / 8 = (SAMPLING_FREQUENCY_HZ : ℝ) / 16 ∨
        (SAMPLING_FREQUENCY_HZ : ℝ) / 8 = (SAMPLING_FREQUENCY_HZ : ℝ) / 8 ∨
        (SAMPLING_FREQUENCY_HZ : ℝ) / 8 = (SAMPLING_FREQUENCY_HZ : ℝ) / 4) ∧
      (List.replicate 1024 (⟨0, 0⟩ : complex_t ℝ)).length = N_SAMPLES ∧
      (List.replicate 512 (0 : ℝ)).length = N_SAMPLES / 2 ∧ N_SAMPLES < 1025) ∧
    ∃ buf mags mx r,
      run_analysis_transform ⟨Real.pi, Real.cos, Real.sin, Real.sqrt⟩ (fun v : ℝ => v) 1025
        (tabulate N_SAMPLES (fun j =>
          2048 + 1000 * Real.cos (2 * Real.pi * ((SAMPLING_FREQUENCY_HZ : ℝ) / 8) * j /
            (SAMPLING_FREQUENCY_HZ : ℝ) + 0)))
        (List.replicate 1024 (⟨0, 0⟩ : complex_t ℝ)) (List.replicate 512 (0 : ℝ)) =
          Except.ok (buf, mags) ∧
      peak_scan 1025 mags = Except.ok (mx, r) ∧
      |(r : ℤ) - round ((SAMPLING_FREQUENCY_HZ : ℝ) / 8 * (N_SAMPLES : ℝ) /
        (SAMPLING_FREQUENCY_HZ : ℝ))| ≤ 1 ∧
      (r : ℝ) = (SAMPLING_FREQUENCY_HZ : ℝ) / 8 * (N_SAMPLES : ℝ) /
        (SAMPLING_FREQUENCY_HZ : ℝ) ∧
      (r = 64 ∨ r = 128 ∨ r = 256) ∧
      fft_analyzer_get_peak_frequency 1025 mags =
        Except.ok ((r : ℝ) * (SAMPLING_FREQUENCY_HZ : ℝ) / (N_SAMPLES : ℝ)) :=
  have h0 : (0 : ℝ) < 1000 := by norm_num
  have hf : ((SAMPLING_FREQUENCY_HZ : ℝ) / 8 = (SAMPLING_FREQUENCY_HZ : ℝ) / 16 ∨
      (SAMPLING_FREQUENCY_HZ : ℝ) / 8 = (SAMPLING_FREQUENCY_HZ : ℝ) / 8 ∨
      (SAMPLING_FREQUENCY_HZ : ℝ) / 8 = (SAMPLING_FREQUENCY_HZ : ℝ) / 4) := Or.inr (Or.inl rfl)
  have h1 : (List.replicate 1024 (⟨0, 0⟩ : complex_t ℝ)).length = N_SAMPLES := by
    rw [List.length_replicate]; norm_num [N_SAMPLES]
  have h2 : (List.replicate 512 (0 : ℝ)).length = N_SAMPLES / 2 := by
    rw [List.length_replicate]; norm_num [N_SAMPLES]
  have h3 : N_SAMPLES < 1025 := by norm_num [N_SAMPLES]
  ⟨⟨h0, hf, h1, h2, h3⟩,
    sinusoid_peak_within_one_bin 2048 1000 0 ((SAMPLING_FREQUENCY_HZ : ℝ) / 8) h0 hf _ h1 _ h2
      1025 h3⟩

/-- C4. For every sample buffer whose `N_SAMPLES = 1024` samples all equal `c`, the transform
part of the analysis cycle returns with every magnitude in the bins `1 .. 511` equal to `0`,
and `fft_analyzer_get_peak_frequency` then returns `0`. -/
theorem constant_buffer_peak_zero (c : Nat)
    (fft_buffer : List (complex_t ℝ)) (hbuf : fft_buffer.length = N_SAMPLES)
    (fft_magnitudes : List ℝ) (hmags : fft_magnitudes.length = N_SAMPLES / 2)
    (fuel : Nat) (hfuel : N_SAMPLES < fuel) :
    ∃ buf mags,
      run_analysis_transform ⟨Real.pi, Real.cos, Real.sin, Real.sqrt⟩ (fun v : Nat => (v : ℝ))
        fuel (List.replicate N_SAMPLES c) fft_buffer fft_magnitudes = Except.ok (buf, mags) ∧
      (∀ k, 1 ≤ k → k < N_SAMPLES / 2 → mags[k]? = some 0) ∧
      fft_analyzer_get_peak_frequency fuel mags = Except.ok 0 := by
  have hX : ∀ k : Nat, (0 : ℂ) = ∑ j in Finset.range N_SAMPLES,
      (((((fun v : Nat => (v : ℝ)) ((fun _ => c) j)) -
        (∑ t in Finset.range N_SAMPLES, (fun v : Nat => (v : ℝ)) ((fun _ => c) t)) /
          (N_SAMPLES : ℝ) : ℝ)) : ℂ) *
        Complex.exp (-2 * Real.pi * Complex.I * j * k / ((N_SAMPLES : Nat) : ℂ)) := by
    intro k
    symm
    apply Finset.sum_eq_zero
    intro j _
    have hN : (N_SAMPLES : ℝ) ≠ 0 := by norm_num [N_SAMPLES]
    have : (c : ℝ) - (∑ t in Finset.range N_SAMPLES, (c : ℝ)) / (N_SAMPLES : ℝ) = 0 := by
      rw [Finset.sum_const, Finset.card_range, nsmul_eq_mul]
      field_simp
    simp only [this, Complex.ofReal_zero, zero_mul]
  have h := run_analysis_transform_tabulate (fun v : Nat => (v : ℝ)) (fun _ => c)
    (fun _ => 0) hX fuel hfuel fft_buffer hbuf fft_magnitudes hmags
  rw [← replicate_eq_tabulate] at h
  have hzero : (fun _ : Nat => Real.sqrt ((0 : ℂ).re * (0 : ℂ).re + (0 : ℂ).im * (0 : ℂ).im)) =
      (fun _ => (0 : ℝ)) := by
    funext k; simp
  rw [hzero] at h
  refine ⟨_, _, h, ?_, ?_⟩
  · intro k _ hk
    rw [tabulate_getElem?, if_pos hk]
  · exact get_peak_frequency_of_nonpos _ (fun _ _ _ => le_rfl) fuel
      (by have := N_SAMPLES_half; have := N_SAMPLES_eq; omega)

/-- Witness of C4: the theorem at the constant buffer of value `2048`, with zeroed static
buffers and fuel `1025`. -/
theorem constant_buffer_peak_zero_witness :
    ((List.replicate 1024 (⟨0, 0⟩ : complex_t ℝ)).length = N_SAMPLES ∧
      (List.replicate 512 (0 : ℝ)).length = N_SAMPLES / 2 ∧ N_SAMPLES < 1025) ∧
    ∃ buf mags,
      run_analysis_transform ⟨Real.pi, Real.cos, Real.sin, Real.sqrt⟩ (fun v : Nat => (v : ℝ))
        1025 (List.replicate N_SAMPLES 2048) (List.replicate 1024 (⟨0, 0⟩ : complex_t ℝ))
        (List.replicate 512 (0 : ℝ)) = Except.ok (buf, mags) ∧
      (∀ k, 1 ≤ k → k < N_SAMPLES / 2 → mags[k]? = some 0) ∧
      fft_analyzer_get_peak_frequency 1025 mags = Except.ok 0 :=
  have h1 : (List.replicate 1024 (⟨0, 0⟩ : complex_t ℝ)).length = N_SAMPLES := by
    rw [List.length_replicate]; norm_num [N_SAMPLES]
  have h2 : (List.replicate 512 (0 : ℝ)).length = N_SAMPLES / 2 := by
    rw [List.length_replicate]; norm_num [N_SAMPLES]
  have h3 : N_SAMPLES < 1025 := by norm_num [N_SAMPLES]
  ⟨⟨h1, h2, h3⟩, constant_buffer_peak_zero 2048 _ h1 _ h2 1025 h3⟩

/-- C5. For every magnitude spectrum `m` of length `N_SAMPLES / 2 = 512` in which some bin in
`1 .. 511` is strictly positive, the scan of `fft_analyzer_get_peak_frequency` selects the
smallest index `r` in `1 .. 511` with `m[i] ≤ m[r]` for every `i` in `1 .. 511`, and the
function returns `r * 1000 / 1024`. -/
theorem get_peak_frequency_first_maximum {K : Type} [LinearOrderedField K] (m : List K)
    (hlen : m.length = N_SAMPLES / 2)
    (hpos : ∃ i, 1 ≤ i ∧ i < N_SAMPLES / 2 ∧ 0 < m.getD i 0)
    (fuel : Nat) (hfuel : N_SAMPLES / 2 ≤ fuel) :
    ∃ (mx : K) (r : Nat), peak_scan fuel m = Except.ok (mx, r) ∧
      1 ≤ r ∧ r < N_SAMPLES / 2 ∧
      (∀ i, 1 ≤ i → i < N_SAMPLES / 2 → m.getD i 0 ≤ m.getD r 0) ∧
      (∀ r', 1 ≤ r' → r' < N_SAMPLES / 2 →
        (∀ i, 1 ≤ i → i < N_SAMPLES / 2 → m.getD i 0 ≤ m.getD r' 0) → r ≤ r') ∧
      fft_analyzer_get_peak_frequency fuel m = Except.ok ((r : K) * 1000 / 1024) := by
  have hm := eq_tabulate (0 : K) m
  rw [hlen] at hm
  obtain ⟨mx, r, hscan, hpost⟩ := peak_scan_tabulate (fun i => m.getD i 0) fuel hfuel
  rw [← hm] at hscan
  obtain ⟨i, hi1, hi2, hi3⟩ := hpos
  rcases hpost with ⟨_, _, hall⟩ | ⟨hr1, hr2, _, _, hall, hfirst⟩
  · exact absurd hi3 (not_lt.mpr (hall i hi1 hi2))
  · refine ⟨mx, r, hscan, hr1, hr2, hall, ?_, get_peak_frequency_of_scan fuel m mx r hscan⟩
    intro r' hr'1 hr'2 hmax
    by_contra hlt
    exact absurd (hmax r hr1 hr2) (not_le.mpr (hfirst r' hr'1 (by omega)))

/-- Witness of C5: the theorem at the rational spectrum `m[i] = i`, with fuel `512`. -/
theorem get_peak_frequency_first_maximum_witness :
    ((tabulate (N_SAMPLES / 2) (fun i => (i : ℚ))).length = N_SAMPLES / 2 ∧
      (∃ i, 1 ≤ i ∧ i < N_SAMPLES / 2 ∧
        0 < (tabulate (N_SAMPLES / 2) (fun i => (i : ℚ))).getD i 0) ∧
      N_SAMPLES / 2 ≤ 512) ∧
    ∃ (mx : ℚ) (r : Nat),
      peak_scan 512 (tabulate (N_SAMPLES / 2) (fun i => (i : ℚ))) = Except.ok (mx, r) ∧
      1 ≤ r ∧ r < N_SAMPLES / 2 ∧
      (∀ i, 1 ≤ i → i < N_SAMPLES / 2 →
        (tabulate (N_SAMPLES / 2) (fun i => (i : ℚ))).getD i 0 ≤
          (tabulate (N_SAMPLES / 2) (fun i => (i : ℚ))).getD r 0) ∧
      (∀ r', 1 ≤ r' → r' < N_SAMPLES / 2 →
        (∀ i, 1 ≤ i → i < N_SAMPLES / 2 →
          (tabulate (N_SAMPLES / 2) (fun i => (i : ℚ))).getD i 0 ≤
            (tabulate (N_SAMPLES / 2) (fun i => (i : ℚ))).getD r' 0) → r ≤ r') ∧
      fft_analyzer_get_peak_frequency 512 (tabulate (N_SAMPLES / 2) (fun i => (i : ℚ))) =
        Except.ok ((r : ℚ) * 1000 / 1024) :=
  have h1 : (tabulate (N_SAMPLES / 2) (fun i => (i : ℚ))).length = N_SAMPLES / 2 :=
    tabulate_length _ _
  have h2 : ∃ i, 1 ≤ i ∧ i < N_SAMPLES / 2 ∧
      0 < (tabulate (N_SAMPLES / 2) (fun i => (i : ℚ))).getD i 0 :=
    ⟨1, le_rfl, by norm_num [N_SAMPLES], by
      rw [getD_tabulate _ _ (by norm_num [N_SAMPLES])]; norm_num⟩
  have h3 : N_SAMPLES / 2 ≤ 512 := by norm_num [N_SAMPLES]
  ⟨⟨h1, h2, h3⟩, get_peak_frequency_first_maximum _ h1 h2 512 h3⟩

/-- C6. For every magnitude spectrum `m` of length 512, `fft_analyzer_get_peak_frequency`
returns `0` if and only if every `m[i]` with `i` in `1 .. 511` is non-positive, in which case
the scan ends at index `0` with maximum magnitude `0`; and the result is the same whatever
value the DC bin `m[0]` is replaced with. -/
theorem get_peak_frequency_zero_iff {K : Type} [LinearOrderedField K] (m : List K)
    (hlen : m.length = N_SAMPLES / 2) (fuel : Nat) (hfuel : N_SAMPLES / 2 ≤ fuel) :
    ∃ f : K, fft_analyzer_get_peak_frequency fuel m = Except.ok f ∧
      (f = 0 ↔ ∀ i, 1 ≤ i → i < N_SAMPLES / 2 → m.getD i 0 ≤ 0) ∧
      (f = 0 → peak_scan fuel m = Except.ok (0, 0)) ∧
      ∀ v : K, fft_analyzer_get_peak_frequency fuel (m.set 0 v) = Except.ok f := by
  have hm := eq_tabulate (0 : K) m
  rw [hlen] at hm
  obtain ⟨mx, r, hscan, hpost⟩ := peak_scan_tabulate (fun i => m.getD i 0) fuel hfuel
  rw [← hm] at hscan
  have hf0 : ((r : K) * 1000 / 1024 = 0) ↔ r = 0 := by
    constructor
    · intro h
      have h' : (r : K) * 1000 = 0 := by
        rcases div_eq_zero_iff.mp h with h | h
        · exact h
        · norm_num at h
      rcases mul_eq_zero.mp h' with h | h
      · exact_mod_cast h
      · norm_num at h
    · intro h; simp [h]
  refine ⟨(r : K) * 1000 / 1024, get_peak_frequency_of_scan fuel m mx r hscan, ?_, ?_, ?_⟩
  · rw [hf0]
    rcases hpost with ⟨hr, _, hall⟩ | ⟨hr1, hr2, _, hpos, _, _⟩
    · exact ⟨fun _ => hall, fun _ => hr⟩
    · constructor
      · intro h; omega
      · intro hall
        exact absurd hpos (not_lt.mpr (hall r hr1 hr2))
  · rw [hf0]
    intro h0
    rcases hpost with ⟨hr, hmx, _⟩ | ⟨hr1, _, _, _, _, _⟩
    · rw [hscan, hr, hmx]
    · omega
  · intro v
    have hset := set_zero_eq_tabulate (0 : K) m v
    rw [hlen] at hset
    have hcongr := peak_loop_congr (fun i => if i = 0 then v else m.getD i 0)
      (fun i => m.getD i 0) (N_SAMPLES / 2)
      (fun t ht => by simp [show ¬ t = 0 by omega]) fuel 1 0 0 le_rfl
    rw [← hset, ← hm] at hcongr
    exact get_peak_frequency_of_scan fuel _ mx r (by rw [peak_scan, hcongr]; exact hscan)

/-- Witness of C6: the theorem at the all-zero rational spectrum, with fuel `512`. -/
theorem get_peak_frequency_zero_iff_witness :
    ((List.replicate 512 (0 : ℚ)).length = N_SAMPLES / 2 ∧ N_SAMPLES / 2 ≤ 512) ∧
    ∃ f : ℚ, fft_analyzer_get_peak_frequency 512 (List.replicate 512 (0 : ℚ)) = Except.ok f ∧
      (f = 0 ↔ ∀ i, 1 ≤ i → i < N_SAMPLES / 2 → (List.replicate 512 (0 : ℚ)).getD i 0 ≤ 0) ∧
      (f = 0 → peak_scan 512 (List.replicate 512 (0 : ℚ)) = Except.ok (0, 0)) ∧
      ∀ v : ℚ, fft_analyzer_get_peak_frequency 512 ((List.replicate 512 (0 : ℚ)).set 0 v) =
        Except.ok f :=
  have h1 : (List.replicate 512 (0 : ℚ)).length = N_SAMPLES / 2 := by
    rw [List.length_replicate]; norm_num [N_SAMPLES]
  have h2 : N_SAMPLES / 2 ≤ 512 := by norm_num [N_SAMPLES]
  ⟨⟨h1, h2⟩, get_peak_frequency_zero_iff _ h1 512 h2⟩

/-- C7, counterexample. After `start_sampling` and exactly `N_SAMPLES` firings the state has
`sample_count == N_SAMPLES` while `sampling_complete` is still false: the firing that stores
the last sample takes the first branch of `timer_callback`, which does not set the flag. -/
theorem sample_count_full_not_complete :
    ∃ st, fire (start_sampling ⟨List.replicate N_SAMPLES 0, 0, false, false⟩)
        (List.replicate N_SAMPLES 1) = Except.ok st ∧
      st.sample_count = (N_SAMPLES : Int) ∧ st.sampling_complete = false := by
  obtain ⟨st, hfire, _, hcount, hcomp, _, _⟩ :=
    fire_start_sampling ⟨List.replicate N_SAMPLES 0, 0, false, false⟩
      (List.length_replicate _ _) (List.replicate N_SAMPLES 1)
  rw [List.length_replicate] at hcount hcomp
  refine ⟨st, hfire, ?_, ?_⟩
  · rw [hcount, Nat.min_self]
  · rw [hcomp]; simp

/-- C7 (as amended). In the state reached from `start_sampling` by any finite sequence of
firings, `sample_count == N_SAMPLES` holds while `sampling_complete` is still false exactly
when the sequence has `N_SAMPLES` firings; from any reached state with
`sample_count == N_SAMPLES` the next firing sets `sampling_complete` and keeps the count. -/
theorem sample_count_full_iff (st0 : Sampler) (hlen : st0.adc_samples.length = N_SAMPLES)
    (rs : List Nat) :
    ∃ st, fire (start_sampling st0) rs = Except.ok st ∧
      ((st.sample_count = (N_SAMPLES : Int) ∧ st.sampling_complete = false) ↔
        rs.length = N_SAMPLES) ∧
      (st.sample_count = (N_SAMPLES : Int) → ∀ adc, ∃ st',
        timer_callback st adc = Except.ok st' ∧ st'.sampling_complete = true ∧
          st'.sample_count = (N_SAMPLES : Int)) := by
  obtain ⟨st, hfire, _, hcount, hcomp, _, _⟩ := fire_start_sampling st0 hlen rs
  refine ⟨st, hfire, ?_, ?_⟩
  · rw [hcount, hcomp]
    constructor
    · rintro ⟨h1, h2⟩
      have h1' : min rs.length N_SAMPLES = N_SAMPLES := by exact_mod_cast h1
      have h2' : ¬ N_SAMPLES < rs.length := by simpa using h2
      omega
    · intro h
      rw [h]; simp
  · intro hc adc
    exact ⟨_, timer_callback_full st adc hc, rfl, hc⟩

/-- Witness of C7: the amended theorem at a zeroed sampler and `N_SAMPLES` readings `1`. -/
theorem sample_count_full_iff_witness :
    (List.replicate N_SAMPLES 0).length = N_SAMPLES ∧
    ∃ st, fire (start_sampling ⟨List.replicate N_SAMPLES 0, 0, false, false⟩)
        (List.replicate N_SAMPLES 1) = Except.ok st ∧
      ((st.sample_count = (N_SAMPLES : Int) ∧ st.sampling_complete = false) ↔
        (List.replicate N_SAMPLES 1).length = N_SAMPLES) ∧
      (st.sample_count = (N_SAMPLES : Int) → ∀ adc, ∃ st',
        timer_callback st adc = Except.ok st' ∧ st'.sampling_complete = true ∧
          st'.sample_count = (N_SAMPLES : Int)) :=
  ⟨List.length_replicate _ _,
    sample_count_full_iff ⟨List.replicate N_SAMPLES 0, 0, false, false⟩
      (List.length_replicate _ _) (List.replicate N_SAMPLES 1)⟩

/-- C8. After `start_sampling` and any sequence of firings, no write has left the buffer (the
run returns a state), `0 ≤ sample_count ≤ N_SAMPLES`, a firing that writes does so at an index
inside the buffer, and once `sampling_complete` is true it is true after every further
sequence of firings. -/
theorem sample_count_bounded (st0 : Sampler) (hlen : st0.adc_samples.length = N_SAMPLES)
    (rs : List Nat) :
    ∃ st, fire (start_sampling st0) rs = Except.ok st ∧
      0 ≤ st.sample_count ∧ st.sample_count ≤ (N_SAMPLES : Int) ∧
      (st.sample_count < (N_SAMPLES : Int) → st.sample_count.toNat < st.adc_samples.length) ∧
      (st.sampling_complete = true → ∀ rs', ∃ st',
        fire st rs' = Except.ok st' ∧ st'.sampling_complete = true) := by
  obtain ⟨st, hfire, hlen', hcount, hcomp, _, _⟩ := fire_start_sampling st0 hlen rs
  refine ⟨st, hfire, ?_, ?_, ?_, ?_⟩
  · rw [hcount]; omega
  · rw [hcount]; omega
  · rw [hcount, hlen']; omega
  · intro hc rs'
    have hgt : N_SAMPLES < rs.length := by rw [hcomp] at hc; simpa using hc
    have hfull : st.sample_count = (N_SAMPLES : Int) := by
      rw [hcount, Nat.min_eq_right (le_of_lt hgt)]
    obtain ⟨st', hfire', _, _, hcomp', _⟩ := fire_full rs' st hfull
    exact ⟨st', hfire', by rw [hcomp', hc]; rfl⟩

/-- Witness of C8: the theorem at a zeroed sampler and 2000 readings `1`. -/
theorem sample_count_bounded_witness :
    (List.replicate N_SAMPLES 0).length = N_SAMPLES ∧
    ∃ st, fire (start_sampling ⟨List.replicate N_SAMPLES 0, 0, false, false⟩)
        (List.replicate 2000 1) = Except.ok st ∧
      0 ≤ st.sample_count ∧ st.sample_count ≤ (N_SAMPLES : Int) ∧
      (st.sample_count < (N_SAMPLES : Int) → st.sample_count.toNat < st.adc_samples.length) ∧
      (st.sampling_complete = true → ∀ rs', ∃ st',
        fire st rs' = Except.ok st' ∧ st'.sampling_complete = true) :=
  ⟨List.length_replicate _ _,
    sample_count_bounded ⟨List.replicate N_SAMPLES 0, 0, false, false⟩
      (List.length_replicate _ _) (List.replicate 2000 1)⟩

/-- C9. From any prior state, after `start_sampling` and firings with readings `rs`: whenever
`sampling_complete` is true, `sample_count == N_SAMPLES`, more than `N_SAMPLES` firings have
happened, and every cell `i` of `adc_samples` holds the reading of firing `i + 1`. -/
theorem complete_implies_buffer_written (st0 : Sampler)
    (hlen : st0.adc_samples.length = N_SAMPLES) (rs : List Nat) :
    ∃ st, fire (start_sampling st0) rs = Except.ok st ∧
      (st.sampling_complete = true →
        st.sample_count = (N_SAMPLES : Int) ∧ N_SAMPLES < rs.length ∧
        st.adc_samples.length = N_SAMPLES ∧
        ∀ i, i < N_SAMPLES → ∃ r, rs[i]? = some r ∧ st.adc_samples[i]? = some r) := by
  obtain ⟨st, hfire, hlen', hcount, hcomp, _, htake⟩ := fire_start_sampling st0 hlen rs
  refine ⟨st, hfire, ?_⟩
  intro hc
  have hgt : N_SAMPLES < rs.length := by rw [hcomp] at hc; simpa using hc
  rw [Nat.min_eq_right (le_of_lt hgt)] at hcount htake
  refine ⟨hcount, hgt, hlen', ?_⟩
  intro i hi
  have hsome : rs[i]? = some (rs[i]) := List.getElem?_eq_getElem (by omega)
  refine ⟨rs[i], hsome, ?_⟩
  have h1 : (st.adc_samples.take N_SAMPLES)[i]? = (rs.take N_SAMPLES)[i]? := by rw [htake]
  rw [List.getElem?_take_of_lt hi, List.getElem?_take_of_lt hi] at h1
  rw [h1, hsome]

/-- Witness of C9: the theorem at a zeroed sampler and 1025 readings `1`. -/
theorem complete_implies_buffer_written_witness :
    (List.replicate N_SAMPLES 0).length = N_SAMPLES ∧
    ∃ st, fire (start_sampling ⟨List.replicate N_SAMPLES 0, 0, false, false⟩)
        (List.replicate 1025 1) = Except.ok st ∧
      (st.sampling_complete = true →
        st.sample_count = (N_SAMPLES : Int) ∧ N_SAMPLES < (List.replicate 1025 1).length ∧
        st.adc_samples.length = N_SAMPLES ∧
        ∀ i, i < N_SAMPLES → ∃ r, (List.replicate 1025 1)[i]? = some r ∧
          st.adc_samples[i]? = some r) :=
  ⟨List.length_replicate _ _,
    complete_implies_buffer_written ⟨List.replicate N_SAMPLES 0, 0, false, false⟩
      (List.length_replicate _ _) (List.replicate 1025 1)⟩

/-- C10. In any state reached from `start_sampling` by firings in which `sampling_complete`
is true, every further sequence of firings, whatever the readings, leaves `adc_samples` and
`sample_count` unchanged. -/
theorem complete_implies_no_write (st0 : Sampler)
    (hlen : st0.adc_samples.length = N_SAMPLES) (rs : List Nat) :
    ∃ st, fire (start_sampling st0) rs = Except.ok st ∧
      (st.sampling_complete = true →
        (∀ adc, ∃ st', timer_callback st adc = Except.ok st' ∧
          st'.adc_samples = st.adc_samples ∧ st'.sample_count = st.sample_count) ∧
        ∀ rs', ∃ st', fire st rs' = Except.ok st' ∧
          st'.adc_samples = st.adc_samples ∧ st'.sample_count = st.sample_count) := by
  obtain ⟨st, hfire, _, hcount, hcomp, _, _⟩ := fire_start_sampling st0 hlen rs
  refine ⟨st, hfire, ?_⟩
  intro hc
  have hgt : N_SAMPLES < rs.length := by rw [hcomp] at hc; simpa using hc
  have hfull : st.sample_count = (N_SAMPLES : Int) := by
    rw [hcount, Nat.min_eq_right (le_of_lt hgt)]
  constructor
  · intro adc
    exact ⟨_, timer_callback_full st adc hfull, rfl, rfl⟩
  · intro rs'
    obtain ⟨st', hfire', hcount', hsamples', _, _⟩ := fire_full rs' st hfull
    exact ⟨st', hfire', hsamples', by rw [hcount', hfull]⟩

/-- Witness of C10: the theorem at a zeroed sampler and 1025 readings `1`. -/
theorem complete_implies_no_write_witness :
    (List.replicate N_SAMPLES 0).length = N_SAMPLES ∧
    ∃ st, fire (start_sampling ⟨List.replicate N_SAMPLES 0, 0, false, false⟩)
        (List.replicate 1025 1) = Except.ok st ∧
      (st.sampling_complete = true →
        (∀ adc, ∃ st', timer_callback st adc = Except.ok st' ∧
          st'.adc_samples = st.adc_samples ∧ st'.sample_count = st.sample_count) ∧
        ∀ rs', ∃ st', fire st rs' = Except.ok st' ∧
          st'.adc_samples = st.adc_samples ∧ st'.sample_count = st.sample_count) :=
  ⟨List.length_replicate _ _,
    complete_implies_no_write ⟨List.replicate N_SAMPLES 0, 0, false, false⟩
      (List.length_replicate _ _) (List.replicate 1025 1)⟩

/-- C11, counterexample. After `start_sampling` and three firings the acquisition is in
flight (`sampling_complete` false, timer armed) with `sample_count == 3`; a call of
`start_sampling` in that state is not ignored: it changes `sample_count`. -/
theorem start_sampling_in_flight_resets :
    ∃ st, fire (start_sampling ⟨List.replicate N_SAMPLES 0, 0, false, false⟩) [7, 8, 9] =
        Except.ok st ∧
      st.sampling_complete = false ∧ st.timer_armed = true ∧ st.sample_count = 3 ∧
      (start_sampling st).sample_count ≠ st.sample_count := by
  obtain ⟨st, hfire, _, hcount, hcomp, harm, _⟩ :=
    fire_start_sampling ⟨List.replicate N_SAMPLES 0, 0, false, false⟩
      (List.length_replicate _ _) [7, 8, 9]
  have h3 : min [7, 8, 9].length N_SAMPLES = 3 := by norm_num [N_SAMPLES]
  rw [h3] at hcount
  refine ⟨st, hfire, ?_, ?_, hcount, ?_⟩
  · rw [hcomp]; norm_num [N_SAMPLES]
  · rw [harm]; norm_num [N_SAMPLES]
  · rw [hcount]; simp [start_sampling]

/-- C11 (as amended). In a state reached from `start_sampling` by firings in which the
acquisition is in flight (`sampling_complete` false), a call of `start_sampling` is not
refused: it leaves `sampling_complete` and the contents of `adc_samples` unchanged, keeps the
timer armed and resets `sample_count` to `0`, so that `sample_count` is unchanged only when
no sample has been captured yet. -/
theorem start_sampling_in_flight (st0 : Sampler) (hlen : st0.adc_samples.length = N_SAMPLES)
    (rs : List Nat) :
    ∃ st, fire (start_sampling st0) rs = Except.ok st ∧
      (st.sampling_complete = false →
        (start_sampling st).sampling_complete = st.sampling_complete ∧
        (start_sampling st).adc_samples = st.adc_samples ∧
        (start_sampling st).timer_armed = st.timer_armed ∧
        (start_sampling st).sample_count = 0 ∧
        ((start_sampling st).sample_count = st.sample_count ↔ rs = [])) := by
  obtain ⟨st, hfire, _, hcount, hcomp, harm, _⟩ := fire_start_sampling st0 hlen rs
  refine ⟨st, hfire, ?_⟩
  intro hc
  have hle : rs.length ≤ N_SAMPLES := by
    rw [hcomp] at hc; simpa using hc
  refine ⟨by rw [hc]; rfl, rfl, by rw [harm]; simp [start_sampling, hle], rfl, ?_⟩
  rw [hcount, Nat.min_eq_left hle]
  simp only [start_sampling]
  constructor
  · intro h
    have : rs.length = 0 := by exact_mod_cast h.symm
    exact List.length_eq_zero.mp this
  · intro h; rw [h]; rfl

/-- Witness of C11: the amended theorem at a zeroed sampler and three readings. -/
theorem start_sampling_in_flight_witness :
    (List.replicate N_SAMPLES 0).length = N_SAMPLES ∧
    ∃ st, fire (start_sampling ⟨List.replicate N_SAMPLES 0, 0, false, false⟩) [7, 8, 9] =
        Except.ok st ∧
      (st.sampling_complete = false →
        (start_sampling st).sampling_complete = st.sampling_complete ∧
        (start_sampling st).adc_samples = st.adc_samples ∧
        (start_sampling st).timer_armed = st.timer_armed ∧
        (start_sampling st).sample_count = 0 ∧
        ((start_sampling st).sample_count = st.sample_count ↔ [7, 8, 9] = [])) :=
  ⟨List.length_replicate _ _,
    start_sampling_in_flight ⟨List.replicate N_SAMPLES 0, 0, false, false⟩
      (List.length_replicate _ _) [7, 8, 9]⟩

/-- C12. For every `n = 2 ^ b` and every array `data` of `n` cells, the bit-reversal stage of
`fft_in_place` returns (fuel `n`), and applied to its own result it returns `data`. -/
theorem bit_reversal_stage_involution {α : Type} (b : Nat) (data : List α)
    (hlen : data.length = 2 ^ b) (fuel : Nat) (hfuel : 2 ^ b ≤ fuel) :
    ∃ mid, bit_reversal_stage fuel data (2 ^ b) = Except.ok mid ∧
      bit_reversal_stage fuel mid (2 ^ b) = Except.ok data := by
  obtain ⟨x, hx⟩ := eq_tabulate_of_length b data hlen
  refine ⟨tabulate (2 ^ b) (fun m => x (rev_bits b m)), ?_, ?_⟩
  · rw [hx]; exact bit_reversal_stage_tabulate b x fuel hfuel
  · rw [bit_reversal_stage_tabulate b _ fuel hfuel, hx]
    refine congrArg Except.ok (tabulate_congr ?_)
    intro m hm
    show x (rev_bits b (rev_bits b m)) = x m
    rw [rev_bits_rev_bits b m hm]

/-- Witness of C12: the theorem at the eight cells `0, 1, ..., 7`, with fuel `8`. -/
theorem bit_reversal_stage_involution_witness :
    ([0, 1, 2, 3, 4, 5, 6, 7].length = 2 ^ 3 ∧ 2 ^ 3 ≤ 8) ∧
    ∃ mid, bit_reversal_stage 8 [0, 1, 2, 3, 4, 5, 6, 7] (2 ^ 3) = Except.ok mid ∧
      bit_reversal_stage 8 mid (2 ^ 3) = Except.ok [0, 1, 2, 3, 4, 5, 6, 7] :=
  ⟨⟨by decide, by decide⟩,
    bit_reversal_stage_involution 3 [0, 1, 2, 3, 4, 5, 6, 7] (by decide) 8 (by decide)⟩

/-- C13. For every sample buffer `s` of `N_SAMPLES = 1024` readings, the transform part of the
analysis cycle run on the doubled buffer `2 * s[i]` returns magnitudes that are twice those it
returns on `s`, for every bin below `N_SAMPLES / 2`; hence the sum of the squared magnitudes
is multiplied by `4` (exact reals). -/
theorem doubled_buffer_doubles_magnitudes (s : List Nat) (hs : s.length = N_SAMPLES)
    (fft_buffer : List (complex_t ℝ)) (hbuf : fft_buffer.length = N_SAMPLES)
    (fft_magnitudes : List ℝ) (hmags : fft_magnitudes.length = N_SAMPLES / 2)
    (fft_buffer2 : List (complex_t ℝ)) (hbuf2 : fft_buffer2.length = N_SAMPLES)
    (fft_magnitudes2 : List ℝ) (hmags2 : fft_magnitudes2.length = N_SAMPLES / 2)
    (fuel : Nat) (hfuel : N_SAMPLES < fuel) :
    ∃ buf mags buf2 mags2,
      run_analysis_transform ⟨Real.pi, Real.cos, Real.sin, Real.sqrt⟩ (fun v : Nat => (v : ℝ))
        fuel s fft_buffer fft_magnitudes = Except.ok (buf, mags) ∧
      run_analysis_transform ⟨Real.pi, Real.cos, Real.sin, Real.sqrt⟩ (fun v : Nat => (v : ℝ))
        fuel (s.map (fun v => 2 * v)) fft_buffer2 fft_magnitudes2 = Except.ok (buf2, mags2) ∧
      mags.length = N_SAMPLES / 2 ∧ mags2.length = N_SAMPLES / 2 ∧
      (∀ k, k < N_SAMPLES / 2 → mags2.getD k 0 = 2 * mags.getD k 0) ∧
      ∑ k in Finset.range (N_SAMPLES / 2), mags2.getD k 0 ^ 2 =
        4 * ∑ k in Finset.range (N_SAMPLES / 2), mags.getD k 0 ^ 2 := by
  have hs0 := eq_tabulate 0 s
  rw [hs] at hs0
  obtain ⟨X, hX⟩ : ∃ X : Nat → ℂ, ∀ k, X k = ∑ j in Finset.range N_SAMPLES,
      ((((fun v : Nat => (v : ℝ)) ((fun i => s.getD i 0) j) -
        (∑ t in Finset.range N_SAMPLES, (fun v : Nat => (v : ℝ)) ((fun i => s.getD i 0) t)) /
          (N_SAMPLES : ℝ) : ℝ)) : ℂ) *
        Complex.exp (-2 * Real.pi * Complex.I * j * k / ((N_SAMPLES : Nat) : ℂ)) :=
    ⟨_, fun k => rfl⟩
  have h1 := run_analysis_transform_tabulate (fun v : Nat => (v : ℝ)) (fun i => s.getD i 0)
    X hX fuel hfuel fft_buffer hbuf fft_magnitudes hmags
  rw [← hs0] at h1
  have hX2 : ∀ k, 2 * X k = ∑ j in Finset.range N_SAMPLES,
      ((((fun v : Nat => (v : ℝ)) ((fun i => 2 * s.getD i 0) j) -
        (∑ t in Finset.range N_SAMPLES,
          (fun v : Nat => (v : ℝ)) ((fun i => 2 * s.getD i 0) t)) /
          (N_SAMPLES : ℝ) : ℝ)) : ℂ) *
        Complex.exp (-2 * Real.pi * Complex.I * j * k / ((N_SAMPLES : Nat) : ℂ)) := by
    intro k
    rw [hX k]
    have := mean_removed_double (fun i => ((s.getD i 0 : Nat) : ℝ)) k
    simp only [Nat.cast_mul, Nat.cast_ofNat]
    exact this.symm
  have h2 := run_analysis_transform_tabulate (fun v : Nat => (v : ℝ))
    (fun i => 2 * s.getD i 0) (fun k => 2 * X k) hX2 fuel hfuel fft_buffer2 hbuf2
    fft_magnitudes2 hmags2
  have hmap : s.map (fun v => 2 * v) = tabulate N_SAMPLES (fun i => 2 * s.getD i 0) := by
    conv_lhs => rw [hs0]
    exact map_tabulate _ _ _
  rw [← hmap] at h2
  have hk : ∀ k, k < N_SAMPLES / 2 →
      (tabulate (N_SAMPLES / 2) (fun k => Real.sqrt ((2 * X k).re * (2 * X k).re +
        (2 * X k).im * (2 * X k).im))).getD k 0 =
      2 * (tabulate (N_SAMPLES / 2) (fun k => Real.sqrt ((X k).re * (X k).re +
        (X k).im * (X k).im))).getD k 0 := by
    intro k hk
    rw [getD_tabulate _ _ hk, getD_tabulate _ _ hk, modulus_double]
  refine ⟨_, _, _, _, h1, h2, tabulate_length _ _, tabulate_length _ _, hk, ?_⟩
  rw [Finset.mul_sum]
  apply Finset.sum_congr rfl
  intro k hkr
  rw [hk k (Finset.mem_range.mp hkr)]
  ring

/-- Witness of C13: the theorem at the constant buffer of value `100`, with zeroed static
buffers and fuel `1025`. -/
theorem doubled_buffer_doubles_magnitudes_witness :
    ((List.replicate 1024 100).length = N_SAMPLES ∧
      (List.replicate 1024 (⟨0, 0⟩ : complex_t ℝ)).length = N_SAMPLES ∧
      (List.replicate 512 (0 : ℝ)).length = N_SAMPLES / 2 ∧ N_SAMPLES < 1025) ∧
    ∃ buf mags buf2 mags2,
      run_analysis_transform ⟨Real.pi, Real.cos, Real.sin, Real.sqrt⟩ (fun v : Nat => (v : ℝ))
        1025 (List.replicate 1024 100) (List.replicate 1024 (⟨0, 0⟩ : complex_t ℝ))
        (List.replicate 512 (0 : ℝ)) = Except.ok (buf, mags) ∧
      run_analysis_transform ⟨Real.pi, Real.cos, Real.sin, Real.sqrt⟩ (fun v : Nat => (v : ℝ))
        1025 ((List.replicate 1024 100).map (fun v => 2 * v))
        (List.replicate 1024 (⟨0, 0⟩ : complex_t ℝ)) (List.replicate 512 (0 : ℝ)) =
          Except.ok (buf2, mags2) ∧
      mags.length = N_SAMPLES / 2 ∧ mags2.length = N_SAMPLES / 2 ∧
      (∀ k, k < N_SAMPLES / 2 → mags2.getD k 0 = 2 * mags.getD k 0) ∧
      ∑ k in Finset.range (N_SAMPLES / 2), mags2.getD k 0 ^ 2 =
        4 * ∑ k in Finset.range (N_SAMPLES / 2), mags.getD k 0 ^ 2 :=
  have h1 : (List.replicate 1024 100).length = N_SAMPLES := by
    rw [List.length_replicate]; norm_num [N_SAMPLES]
  have h2 : (List.replicate 1024 (⟨0, 0⟩ : complex_t ℝ)).length = N_SAMPLES := by
    rw [List.length_replicate]; norm_num [N_SAMPLES]
  have h3 : (List.replicate 512 (0 : ℝ)).length = N_SAMPLES / 2 := by
    rw [List.length_replicate]; norm_num [N_SAMPLES]
  have h4 : N_SAMPLES < 1025 := by norm_num [N_SAMPLES]
  ⟨⟨h1, h2, h3, h4⟩,
    doubled_buffer_doubles_magnitudes (List.replicate 1024 100) h1
      (List.replicate 1024 (⟨0, 0⟩ : complex_t ℝ)) h2 (List.replicate 512 (0 : ℝ)) h3
      (List.replicate 1024 (⟨0, 0⟩ : complex_t ℝ)) h2 (List.replicate 512 (0 : ℝ)) h3 1025 h4⟩

/-- C14. For every integer `k` in `[-24, 24]`, the note mapping of `draw_tuner_mode` fed with
`440 * 2 ^ (k / 12)` yields `note_index = k`, a cents deviation of `0` and the name
`NOTE_NAMES[k mod 12]`, the residue taken in `0 .. 11`: `A` for `k = 0`, `C` for `k = 3`,
`G#` for `k = -1` (exact reals). -/
theorem note_round_trip (k : Int) (hk1 : -24 ≤ k) (_hk2 : k ≤ 24) :
    ∃ name, NOTE_NAMES[(k % 12).toNat]? = some name ∧
      draw_tuner_mode ⟨Real.logb 2, fun x y => x ^ y⟩ (440 * (2 : ℝ) ^ ((k : ℝ) / 12)) =
        Except.ok (tuner_output.note k 0 name) ∧
      (k = 0 → name = "A") ∧ (k = 3 → name = "C") ∧ (k = -1 → name = "G#") := by
  have hpow : (0 : ℝ) < (2 : ℝ) ^ ((k : ℝ) / 12) := Real.rpow_pos_of_pos (by norm_num) _
  have hquarter : (1 / 4 : ℝ) ≤ (2 : ℝ) ^ ((k : ℝ) / 12) := by
    have h1 : (2 : ℝ) ^ (-2 : ℝ) ≤ (2 : ℝ) ^ ((k : ℝ) / 12) := by
      apply Real.rpow_le_rpow_of_exponent_le (by norm_num)
      have : (-24 : ℝ) ≤ (k : ℝ) := by exact_mod_cast hk1
      linarith
    have h2 : (2 : ℝ) ^ (-2 : ℝ) = 1 / 4 := by
      rw [Real.rpow_neg (by norm_num)]
      norm_num
    linarith
  have h20 : (20 : ℝ) ≤ 440 * (2 : ℝ) ^ ((k : ℝ) / 12) := by linarith
  have hx : 12 * Real.logb 2 (440 * (2 : ℝ) ^ ((k : ℝ) / 12) / 440) = ((k : Int) : ℝ) := by
    rw [mul_div_right_comm, div_self (by norm_num : (440 : ℝ) ≠ 0), one_mul,
      Real.logb_rpow (by norm_num) (by norm_num)]
    ring
  obtain ⟨name, hname, hdraw⟩ := draw_tuner_mode_note
    (⟨Real.logb 2, fun x y => x ^ y⟩ : libm_tuner ℝ) _ h20
  simp only [] at hname hdraw
  rw [hx, round_to_int_intCast] at hname hdraw
  have hne : 440 * (2 : ℝ) ^ ((k : ℝ) / 12) ≠ 0 := by positivity
  have hc : 1200 * Real.logb 2 (440 * (2 : ℝ) ^ ((k : ℝ) / 12) /
      (440 * (2 : ℝ) ^ ((k : ℝ) / 12))) = ((0 : Int) : ℝ) := by
    rw [div_self hne, Real.logb_one]
    simp
  rw [hc, round_to_int_intCast] at hdraw
  refine ⟨name, hname, hdraw, ?_, ?_, ?_⟩
  · intro h0
    rw [h0] at hname
    exact (Option.some.inj hname).symm
  · intro h3
    rw [h3] at hname
    exact (Option.some.inj hname).symm
  · intro hm
    rw [hm] at hname
    exact (Option.some.inj hname).symm

/-- Witness of C14: the theorem at `k = -1`, the frequency of the `G#` below 440 Hz. -/
theorem note_round_trip_witness :
    ((-24 : Int) ≤ -1 ∧ (-1 : Int) ≤ 24) ∧
    ∃ name, NOTE_NAMES[((-1 : Int) % 12).toNat]? = some name ∧
      draw_tuner_mode ⟨Real.logb 2, fun x y => x ^ y⟩
          (440 * (2 : ℝ) ^ (((-1 : Int) : ℝ) / 12)) =
        Except.ok (tuner_output.note (-1) 0 name) ∧
      ((-1 : Int) = 0 → name = "A") ∧ ((-1 : Int) = 3 → name = "C") ∧
      ((-1 : Int) = -1 → name = "G#") :=
  ⟨⟨by decide, by decide⟩, note_round_trip (-1) (by decide) (by decide)⟩

/-- C15. For every peak frequency strictly below 20 Hz, zero and negative values included,
the note mapping of `draw_tuner_mode` shows the sentinel `--.--` whatever the math library
is, so that no note index, name or cents value is computed; for every frequency from 20 Hz
on it shows a note name and a cents value. -/
theorem silence_guard {K : Type} [LinearOrderedField K] [FloorRing K] (M : libm_tuner K)
    (peak_freq : K) :
    (peak_freq < 20 → draw_tuner_mode M peak_freq = Except.ok tuner_output.silence) ∧
    (20 ≤ peak_freq → ∃ note_index cents_diff note_name,
      draw_tuner_mode M peak_freq =
        Except.ok (tuner_output.note note_index cents_diff note_name)) := by
  constructor
  · intro h
    rw [draw_tuner_mode, if_pos h]
  · intro h
    obtain ⟨name, _, hdraw⟩ := draw_tuner_mode_note M peak_freq h
    exact ⟨_, _, name, hdraw⟩

/-- C16. For every frequency `freq ≥ 20` Hz, with `note_index = round (12 * log2 (freq / 440))`
and `ideal = 440 * 2 ^ (note_index / 12)`, the cents deviation
`round (1200 * log2 (freq / ideal))` that `draw_tuner_mode` computes lies in `[-50, 50]`
(exact reals). -/
theorem cents_within_fifty (freq : ℝ) (h : 20 ≤ freq) :
    ∃ note_index cents_diff note_name,
      draw_tuner_mode ⟨Real.logb 2, fun x y => x ^ y⟩ freq =
        Except.ok (tuner_output.note note_index cents_diff note_name) ∧
      note_index = round_to_int (12 * Real.logb 2 (freq / 440)) ∧
      cents_diff = round_to_int (1200 * Real.logb 2
        (freq / (440 * (2 : ℝ) ^ ((note_index : ℝ) / 12)))) ∧
      -50 ≤ cents_diff ∧ cents_diff ≤ 50 := by
  obtain ⟨name, _, hdraw⟩ := draw_tuner_mode_note
    (⟨Real.logb 2, fun x y => x ^ y⟩ : libm_tuner ℝ) freq h
  simp only [] at hdraw
  refine ⟨_, _, name, hdraw, rfl, rfl, ?_⟩
  have hf : freq / 440 ≠ 0 := by
    have : (0 : ℝ) < freq := by linarith
    positivity
  have hp : (2 : ℝ) ^ ((round_to_int (12 * Real.logb 2 (freq / 440)) : ℝ) / 12) ≠ 0 :=
    ne_of_gt (Real.rpow_pos_of_pos (by norm_num) _)
  have hlog : 1200 * Real.logb 2 (freq /
      (440 * (2 : ℝ) ^ ((round_to_int (12 * Real.logb 2 (freq / 440)) : ℝ) / 12))) =
      100 * (12 * Real.logb 2 (freq / 440) -
        (round_to_int (12 * Real.logb 2 (freq / 440)) : ℝ)) := by
    rw [← div_div, Real.logb_div hf hp, Real.logb_rpow (by norm_num) (by norm_num)]
    ring
  obtain ⟨h1, h2⟩ := abs_sub_round_to_int (12 * Real.logb 2 (freq / 440))
  rw [hlog]
  apply round_to_int_mem_Icc
  · push_cast; linarith
  · push_cast; linarith

/-- Witness of C16: the theorem at 450 Hz. -/
theorem cents_within_fifty_witness :
    (20 : ℝ) ≤ 450 ∧
    ∃ note_index cents_diff note_name,
      draw_tuner_mode ⟨Real.logb 2, fun x y => x ^ y⟩ (450 : ℝ) =
        Except.ok (tuner_output.note note_index cents_diff note_name) ∧
      note_index = round_to_int (12 * Real.logb 2 ((450 : ℝ) / 440)) ∧
      cents_diff = round_to_int (1200 * Real.logb 2
        ((450 : ℝ) / (440 * (2 : ℝ) ^ ((note_index : ℝ) / 12)))) ∧
      -50 ≤ cents_diff ∧ cents_diff ≤ 50 :=
  ⟨by norm_num, cents_within_fifty 450 (by norm_num)⟩

/-- C17. For every `n = 2 ^ b` with `b ≥ 1` and every array `data` of `n` cells, the first
loop of `fft_in_place` returns (fuel `n`) with the element of cell `i` moved to cell
`rev_bits b i`, the index whose bit `t` is the bit `b - 1 - t` of `i`; at iteration `i` the
variable `j` tested by `if (i < j)` is `rev_bits b i`, the swap is made exactly when `i < j`,
and no pair is swapped twice: at the iteration of the partner the test fails. -/
theorem bit_reversal_stage_moves {α : Type} (b : Nat) (hb : 1 ≤ b) (data : List α)
    (hlen : data.length = 2 ^ b) (fuel : Nat) (hfuel : 2 ^ b ≤ fuel) :
    ∃ out, bit_reversal_stage fuel data (2 ^ b) = Except.ok out ∧ out.length = 2 ^ b ∧
      (∀ i, i < 2 ^ b → rev_bits b i < 2 ^ b ∧ out[rev_bits b i]? = data[i]? ∧
        (∀ t, t < b → (rev_bits b i).testBit t = i.testBit (b - 1 - t))) ∧
      bit_reversal_log fuel (2 ^ b) fuel 1 0 [] =
        Except.ok ((List.range' 1 (2 ^ b - 1)).map
          (fun i => (i, rev_bits b i, decide (i < rev_bits b i)))) ∧
      (∀ i, i < 2 ^ b → i < rev_bits b i →
        ¬ rev_bits b i < rev_bits b (rev_bits b i)) := by
  obtain ⟨s, rfl⟩ : ∃ s, b = s + 1 := ⟨b - 1, by omega⟩
  obtain ⟨x, hx⟩ := eq_tabulate_of_length (s + 1) data hlen
  have hs : s < fuel := by
    have := Nat.lt_two_pow s
    have : 2 ^ s ≤ 2 ^ (s + 1) := Nat.pow_le_pow_right (by norm_num) (by omega)
    omega
  refine ⟨tabulate (2 ^ (s + 1)) (fun m => x (rev_bits (s + 1) m)), ?_, tabulate_length _ _,
    ?_, ?_, ?_⟩
  · rw [hx]; exact bit_reversal_stage_tabulate (s + 1) x fuel hfuel
  · intro i hi
    have hr := rev_bits_lt (s + 1) i
    refine ⟨hr, ?_, rev_bits_testBit (s + 1) i⟩
    rw [hx, tabulate_getElem?, tabulate_getElem?, if_pos hr, if_pos hi,
      rev_bits_rev_bits (s + 1) i hi]
  · have h := bit_reversal_log_from s fuel hs fuel 1 [] le_rfl Nat.one_le_two_pow (by omega)
    rw [Nat.sub_self, rev_bits_zero, List.nil_append] at h
    exact h
  · intro i hi hlt
    rw [rev_bits_rev_bits (s + 1) i hi]
    omega

/-- Witness of C17: the theorem at the eight cells `0, 1, ..., 7`, with fuel `8`. -/
theorem bit_reversal_stage_moves_witness :
    (1 ≤ 3 ∧ [0, 1, 2, 3, 4, 5, 6, 7].length = 2 ^ 3 ∧ 2 ^ 3 ≤ 8) ∧
    ∃ out, bit_reversal_stage 8 [0, 1, 2, 3, 4, 5, 6, 7] (2 ^ 3) = Except.ok out ∧
      out.length = 2 ^ 3 ∧
      (∀ i, i < 2 ^ 3 → rev_bits 3 i < 2 ^ 3 ∧
        out[rev_bits 3 i]? = [0, 1, 2, 3, 4, 5, 6, 7][i]? ∧
        (∀ t, t < 3 → (rev_bits 3 i).testBit t = i.testBit (3 - 1 - t))) ∧
      bit_reversal_log 8 (2 ^ 3) 8 1 0 [] =
        Except.ok ((List.range' 1 (2 ^ 3 - 1)).map
          (fun i => (i, rev_bits 3 i, decide (i < rev_bits 3 i)))) ∧
      (∀ i, i < 2 ^ 3 → i < rev_bits 3 i →
        ¬ rev_bits 3 i < rev_bits 3 (rev_bits 3 i)) :=
  ⟨⟨by decide, by decide, by decide⟩,
    bit_reversal_stage_moves 3 (by decide) [0, 1, 2, 3, 4, 5, 6, 7] (by decide) 8 (by decide)⟩

/-- C18. For every sample buffer `s` of `N_SAMPLES = 1024` readings, constant or not: the
summation loop returns the sum of the samples, the fill loop returns a buffer whose real parts
sum to `0`, and the transform part of the analysis cycle returns with `magnitude[0] = 0`
(exact reals). -/
theorem dc_bin_suppressed (s : List Nat) (hs : s.length = N_SAMPLES)
    (fft_buffer : List (complex_t ℝ)) (hbuf : fft_buffer.length = N_SAMPLES)
    (fft_magnitudes : List ℝ) (hmags : fft_magnitudes.length = N_SAMPLES / 2)
    (fuel : Nat) (hfuel : N_SAMPLES < fuel) :
    ∃ (sum : ℝ) (filled buf : List (complex_t ℝ)) (mags : List ℝ),
      dc_offset_loop (fun v : Nat => (v : ℝ)) s fuel 0 0 = Except.ok sum ∧
      fill_loop (fun v : Nat => (v : ℝ)) s (sum / (N_SAMPLES : ℝ)) fuel 0 fft_buffer =
        Except.ok filled ∧
      filled.length = N_SAMPLES ∧
      ∑ i in Finset.range N_SAMPLES, (filled.getD i ⟨0, 0⟩).real = 0 ∧
      run_analysis_transform ⟨Real.pi, Real.cos, Real.sin, Real.sqrt⟩ (fun v : Nat => (v : ℝ))
        fuel s fft_buffer fft_magnitudes = Except.ok (buf, mags) ∧
      mags[0]? = some 0 := by
  have hs0 := eq_tabulate 0 s
  rw [hs] at hs0
  have hdc := dc_offset_loop_from (fun v : Nat => (v : ℝ)) (fun i => s.getD i 0) fuel 0
    (Nat.zero_le _) (by omega)
  rw [Finset.sum_range_zero, ← hs0] at hdc
  have hb0 := eq_tabulate (⟨0, 0⟩ : complex_t ℝ) fft_buffer
  rw [hbuf] at hb0
  have hfill := fill_loop_from (fun v : Nat => (v : ℝ)) (fun i => s.getD i 0)
    ((∑ t in Finset.range N_SAMPLES, ((s.getD t 0 : Nat) : ℝ)) / (N_SAMPLES : ℝ))
    (fun i => fft_buffer.getD i ⟨0, 0⟩) fuel 0 (fun i => fft_buffer.getD i ⟨0, 0⟩)
    (Nat.zero_le _) (by omega) (fun m _ => by simp)
  rw [← hb0, ← hs0] at hfill
  obtain ⟨X, hX⟩ : ∃ X : Nat → ℂ, ∀ k, X k = ∑ j in Finset.range N_SAMPLES,
      ((((fun v : Nat => (v : ℝ)) ((fun i => s.getD i 0) j) -
        (∑ t in Finset.range N_SAMPLES, (fun v : Nat => (v : ℝ)) ((fun i => s.getD i 0) t)) /
          (N_SAMPLES : ℝ) : ℝ)) : ℂ) *
        Complex.exp (-2 * Real.pi * Complex.I * j * k / ((N_SAMPLES : Nat) : ℂ)) :=
    ⟨_, fun k => rfl⟩
  have hrun := run_analysis_transform_tabulate (fun v : Nat => (v : ℝ)) (fun i => s.getD i 0)
    X hX fuel hfuel fft_buffer hbuf fft_magnitudes hmags
  rw [← hs0] at hrun
  have hX0 : X 0 = 0 := by
    rw [hX 0]
    exact mean_removed_dc_zero (fun i => ((s.getD i 0 : Nat) : ℝ))
  refine ⟨_, _, _, _, hdc, hfill, tabulate_length _ _, ?_, hrun, ?_⟩
  · refine (Finset.sum_congr rfl (fun i hi => ?_)).trans
      (mean_removed_sum_zero (fun i => ((s.getD i 0 : Nat) : ℝ)))
    rw [getD_tabulate _ _ (Finset.mem_range.mp hi)]
  · rw [tabulate_getElem?, if_pos (by norm_num [N_SAMPLES]), hX0]
    simp

/-- Witness of C18: the theorem at the constant buffer of value `100`, with zeroed static
buffers and fuel `1025`. -/
theorem dc_bin_suppressed_witness :
    ((List.replicate 1024 100).length = N_SAMPLES ∧
      (List.replicate 1024 (⟨0, 0⟩ : complex_t ℝ)).length = N_SAMPLES ∧
      (List.replicate 512 (0 : ℝ)).length = N_SAMPLES / 2 ∧ N_SAMPLES < 1025) ∧
    ∃ (sum : ℝ) (filled buf : List (complex_t ℝ)) (mags : List ℝ),
      dc_offset_loop (fun v : Nat => (v : ℝ)) (List.replicate 1024 100) 1025 0 0 =
        Except.ok sum ∧
      fill_loop (fun v : Nat => (v : ℝ)) (List.replicate 1024 100) (sum / (N_SAMPLES : ℝ))
        1025 0 (List.replicate 1024 (⟨0, 0⟩ : complex_t ℝ)) = Except.ok filled ∧
      filled.length = N_SAMPLES ∧
      ∑ i in Finset.range N_SAMPLES, (filled.getD i ⟨0, 0⟩).real = 0 ∧
      run_analysis_transform ⟨Real.pi, Real.cos, Real.sin, Real.sqrt⟩ (fun v : Nat => (v : ℝ))
        1025 (List.replicate 1024 100) (List.replicate 1024 (⟨0, 0⟩ : complex_t ℝ))
        (List.replicate 512 (0 : ℝ)) = Except.ok (buf, mags) ∧
      mags[0]? = some 0 :=
  have h1 : (List.replicate 1024 100).length = N_SAMPLES := by
    rw [List.length_replicate]; norm_num [N_SAMPLES]
  have h2 : (List.replicate 1024 (⟨0, 0⟩ : complex_t ℝ)).length = N_SAMPLES := by
    rw [List.length_replicate]; norm_num [N_SAMPLES]
  have h3 : (List.replicate 512 (0 : ℝ)).length = N_SAMPLES / 2 := by
    rw [List.length_replicate]; norm_num [N_SAMPLES]
  have h4 : N_SAMPLES < 1025 := by norm_num [N_SAMPLES]
  ⟨⟨h1, h2, h3, h4⟩,
    dc_bin_suppressed (List.replicate 1024 100) h1
      (List.replicate 1024 (⟨0, 0⟩ : complex_t ℝ)) h2 (List.replicate 512 (0 : ℝ)) h3 1025 h4⟩

/-- C19. For every `note_index`, the table index `(note_index % 12 + 12) % 12` computed with
the truncating remainder of C lies in `[0, 12)` and is the Euclidean residue of `note_index`
modulo 12; the inner sum stays within `[1, 23]`, the lookup in `NOTE_NAMES` is inside the
table, indices that differ by octaves get the same name, and `-1` maps to index 11, `G#`. -/
theorem note_table_index_spec (note_index : Int) :
    0 ≤ note_table_index note_index ∧ note_table_index note_index < 12 ∧
    note_table_index note_index = note_index % 12 ∧
    (1 ≤ note_index.tmod 12 + 12 ∧ note_index.tmod 12 + 12 ≤ 23) ∧
    (∃ name, rd NOTE_NAMES (note_table_index note_index).toNat = Except.ok name) ∧
    (∀ octaves : Int,
      note_table_index (note_index + 12 * octaves) = note_table_index note_index) ∧
    note_table_index (-1) = 11 ∧ rd NOTE_NAMES 11 = Except.ok "G#" := by
  obtain ⟨h0, h12⟩ := note_table_index_bounds note_index
  obtain ⟨name, hname, _⟩ := note_name_lookup note_index
  refine ⟨h0, h12, note_table_index_eq note_index, ?_, ⟨name, hname⟩, ?_, by decide, by decide⟩
  · have h := tmod_twelve_bounds note_index
    omega
  · intro octaves
    rw [note_table_index_eq, note_table_index_eq]
    omega

/-- C20. Whatever the arithmetic: for every `n = 2 ^ b` with `b ≤ 30` (the powers of two with
`1 ≤ n < 2 ^ 31`) and every array of `n` cells, `fft_in_place(data, n)` returns with fuel `n`,
so that no read or write of either phase leaves `[0, n)`, and its butterfly phase runs
exactly `b = log2 n` stages; for `n = 6` the bit-reversal stage returns and the butterfly
phase makes an access outside the array. -/
theorem fft_in_place_terminates_in_bounds {K : Type} [Field K] (L : libm K) :
    (∀ b, b ≤ 30 → ∀ data : List (complex_t K), data.length = 2 ^ b →
      ∀ fuel, 2 ^ b ≤ fuel → ∃ mid out,
        bit_reversal_stage fuel data (2 ^ b) = Except.ok mid ∧
        stage_loop_count L fuel (2 ^ b) fuel 2 mid 0 = Except.ok (out, b) ∧
        Nat.log2 (2 ^ b) = b ∧
        fft_in_place L fuel data (2 ^ b) = Except.ok out ∧ out.length = 2 ^ b) ∧
    (∀ data : List (complex_t K), data.length = 6 → ∀ fuel, 6 ≤ fuel → ∃ mid,
      bit_reversal_stage fuel data 6 = Except.ok mid ∧
      stage_loop L fuel 6 fuel 2 mid = Except.error Fault.out_of_bounds ∧
      fft_in_place L fuel data 6 = Except.error Fault.out_of_bounds) := by
  constructor
  · intro b hb data hlen fuel hfuel
    obtain ⟨mid, out, h1, h2, h3, h4⟩ := fft_in_place_returns L b hb data hlen fuel hfuel
    exact ⟨mid, out, h1, h2, Nat.log2_two_pow, h3, h4⟩
  · intro data hlen fuel hfuel
    obtain ⟨f, rfl⟩ : ∃ f, fuel = f + 6 := ⟨fuel - 6, by omega⟩
    match data, hlen with
    | [a0, a1, a2, a3, a4, a5], _ =>
      obtain ⟨h1, h2, h3⟩ := fft_in_place_six_cells L a0 a1 a2 a3 a4 a5 f
      exact ⟨_, h1, h2, h3⟩

/-- Witness of C20: the theorem for the real arithmetic, at `n = 2 ^ 10 = 1024` cells all
`0` with fuel 1024, where the butterfly phase runs 10 stages. -/
theorem fft_in_place_terminates_in_bounds_witness :
    ∃ mid out,
      bit_reversal_stage 1024 (List.replicate 1024 (⟨0, 0⟩ : complex_t ℝ)) (2 ^ 10) =
        Except.ok mid ∧
      stage_loop_count ⟨Real.pi, Real.cos, Real.sin, Real.sqrt⟩ 1024 (2 ^ 10) 1024 2 mid 0 =
        Except.ok (out, 10) ∧
      Nat.log2 (2 ^ 10) = 10 ∧
      fft_in_place ⟨Real.pi, Real.cos, Real.sin, Real.sqrt⟩ 1024
        (List.replicate 1024 (⟨0, 0⟩ : complex_t ℝ)) (2 ^ 10) = Except.ok out ∧
      out.length = 2 ^ 10 :=
  (fft_in_place_terminates_in_bounds (⟨Real.pi, Real.cos, Real.sin, Real.sqrt⟩ : libm ℝ)).1 10
    (by norm_num) (List.replicate 1024 (⟨0, 0⟩ : complex_t ℝ))
    (by rw [List.length_replicate]; norm_num) 1024 (by norm_num)

end FftAnalyzer
